import Mathlib

/-!
# Transaction construction and signing (`deterministicwallet`)

A shallow embedding of `maketx/maketx.go`: greedy coin selection (`coinSelection`), the sweep
build (`NewTxSpendAll`) and the targeted build with its fee loop (`NewTx`); and of `sign.go`:
`SignTransaction` with its check `txValidityCheck`; and of the API token check of
`backend/handlers/handlers.go`: `NewConnectionData`, `isDev`, `isAPITokenValid` and
`ensureAPITokenValid`.

Conventions of the embedding.

* `btcutil.Amount` and `wire.TxOut.Value` are Go `int64`.  They are embedded as `Int`, and every
  addition and subtraction of the source goes through `add64` / `sub64`, which wrap around
  modulo `2^64` the way Go does.
* A Go map `map[wire.OutPoint]*wire.TxOut` is embedded as an association list.  The order of
  the list stands for the order in which `range` enumerates the map and in which the (unstable)
  `sort.Sort` leaves entries of equal value: the stable sort used here reproduces, when the list
  is permuted, every arrangement that Go may produce.
* A Go slice or pointer result that may be `nil` is an `Option`.
* The helpers `EstimateSerializeSize`, `FeeForSerializeSize`, `IsDustAmount` and the constant
  `P2PKHPkScriptSize` belong to the package but their file is not available; they are the fields
  of `Env`, a parameter of everything that uses them.
-/

namespace Maketx

/-! ## Machine integers -/

/-- Largest `int64`. -/
def maxInt64 : Int := 9223372036854775807

/-- Smallest `int64`. -/
def minInt64 : Int := -9223372036854775808

/-- Two's complement reduction of an integer to the `int64` range. -/
def wrap64 (x : Int) : Int := (x + 9223372036854775808) % 18446744073709551616 - 9223372036854775808

/-- Go `int64` addition. -/
def add64 (a b : Int) : Int := wrap64 (a + b)

/-- Go `int64` subtraction. -/
def sub64 (a b : Int) : Int := wrap64 (a - b)

/-- The value is representable as an `int64`. -/
def InInt64 (x : Int) : Prop := minInt64 ≤ x ∧ x ≤ maxInt64

instance (x : Int) : Decidable (InInt64 x) := by unfold InInt64; infer_instance

/-! ## Data model (`wire`) -/

/-- Go `wire.OutPoint`: transaction hash (bytes, most significant first) and output index. -/
structure OutPoint where
  Hash : List Nat
  Index : Nat
deriving DecidableEq, Repr

/-- Go `wire.TxOut`. -/
structure TxOut where
  Value : Int
  PkScript : List Nat
deriving DecidableEq, Repr

instance : Inhabited TxOut := ⟨⟨0, []⟩⟩

/-- Go `wire.TxIn`. -/
structure TxIn where
  PreviousOutPoint : OutPoint
  SignatureScript : Option (List Nat)
  Witness : Option (List (List Nat))
  Sequence : Nat
deriving DecidableEq, Repr

/-- Go `wire.MsgTx`. -/
structure MsgTx where
  Version : Int
  TxIn : List TxIn
  TxOut : List TxOut
  LockTime : Nat
deriving DecidableEq, Repr

/-- Go `error`, identified by its message. -/
structure Error where
  msg : String
deriving DecidableEq, Repr

/-- Go `map[wire.OutPoint]*wire.TxOut`, in enumeration order. -/
abbrev OutputMap := List (OutPoint × TxOut)

/-- Keys of the map in enumeration order (`for outPoint := range outputs`). -/
def OutputMap.keys (m : OutputMap) : List OutPoint := m.map Prod.fst

/-- Go `outputs[outPoint]` for a key of the map. -/
def OutputMap.get (m : OutputMap) (k : OutPoint) : TxOut := (m.lookup k).getD default

/-- Go `outputs[outPoint].Value`. -/
def OutputMap.value (m : OutputMap) (k : OutPoint) : Int := (m.get k).Value

/-- Values of the map, one per key, in enumeration order. -/
def OutputMap.values (m : OutputMap) : List Int := m.keys.map m.value

/-! ## Sorting -/

/-- Insert `a` into a list ordered by `le`, after the elements that are `le` it is not before. -/
def insertBy {α : Type} (le : α → α → Bool) (a : α) : List α → List α
  | [] => [a]
  | b :: l => if le a b then a :: b :: l else b :: insertBy le a l

/-- Sort a list with respect to `le` (insertion sort, stable). -/
def sortBy {α : Type} (le : α → α → Bool) : List α → List α
  | [] => []
  | a :: l => insertBy le a (sortBy le l)

/-! ## `coinSelection` -/

/-- Go `byValue.Less` on two outpoints: `outputs[a].Value < outputs[b].Value`. -/
def byValueLess (m : OutputMap) (a b : OutPoint) : Bool := decide (m.value a < m.value b)

/-- Result of `sort.Sort(sort.Reverse(&byValue{outPoints, outputs}))`.  The reversed order
has `Less i j = byValue.Less j i`, so `a` stays before `b` exactly when `byValue.Less a b`
fails, that is when `outputs[a].Value ≥ outputs[b].Value`: descending values. -/
def sortedOutPoints (m : OutputMap) : List OutPoint :=
  sortBy (fun a b => !byValueLess m a b) m.keys

/-- The triple returned by `coinSelection`. -/
structure Selection where
  sum : Int
  outPoints : Option (List OutPoint)
  err : Option Error
deriving DecidableEq, Repr

/-- The error of `errp.New("insufficient funds")`. -/
def errInsufficientFunds : Error := ⟨"insufficient funds"⟩

/-- The accumulation loop of `coinSelection` (lines 36-42) over the remaining outpoints, with
the outpoints selected so far and the running sum. -/
def selectLoop (minAmount : Int) (m : OutputMap) :
    List OutPoint → List OutPoint → Int → List OutPoint × Int
  | [], selected, outputsSum => (selected, outputsSum)
  | outPoint :: rest, selected, outputsSum =>
    if outputsSum ≥ minAmount then (selected, outputsSum)
    else selectLoop minAmount m rest (selected ++ [outPoint]) (add64 outputsSum (m.value outPoint))

/-- Go `coinSelection`. -/
def coinSelection (minAmount : Int) (outputs : OutputMap) : Selection :=
  let outPoints := sortedOutPoints outputs
  let r := selectLoop minAmount outputs outPoints [] 0
  if r.2 < minAmount then ⟨0, none, some errInsufficientFunds⟩
  else ⟨r.2, some r.1, none⟩

/-- Sum of a list of amounts in `int64` arithmetic, from the left. -/
def sum64 (l : List Int) : Int := l.foldl add64 0

/-- No addition overflows when the elements of the list are added one by one to `acc`, as the
loop of `coinSelection` does: every intermediate sum is an `int64`. -/
def NoOverflowSum : Int → List Int → Prop
  | _, [] => True
  | acc, v :: l => InInt64 (acc + v) ∧ NoOverflowSum (acc + v) l

instance NoOverflowSum.decidable : (acc : Int) → (l : List Int) → Decidable (NoOverflowSum acc l)
  | _, [] => isTrue trivial
  | acc, v :: l =>
    match (inferInstance : Decidable (InInt64 (acc + v))), NoOverflowSum.decidable (acc + v) l with
    | isTrue h1, isTrue h2 => isTrue ⟨h1, h2⟩
    | isFalse h1, _ => isFalse fun h => h1 h.1
    | _, isFalse h2 => isFalse fun h => h2 h.2

/-! ## Fee estimation (package members whose source file is not available) -/

/-- The size and fee helpers of the package that `NewTx` and `NewTxSpendAll` call. -/
structure Env where
  /-- Go `EstimateSerializeSize(inputCount, txOuts, addChangeOutput)`. -/
  EstimateSerializeSize : Nat → List TxOut → Bool → Int
  /-- Go `FeeForSerializeSize(relayFeePerKb, txSerializeSize)`. -/
  FeeForSerializeSize : Int → Int → Int
  /-- Go `IsDustAmount(amount, scriptSize, relayFeePerKb)`. -/
  IsDustAmount : Int → Int → Int → Bool
  /-- Go constant `P2PKHPkScriptSize`. -/
  P2PKHPkScriptSize : Nat

/-- The fee `FeeForSerializeSize(feePerKb, EstimateSerializeSize(n, outputs, addChange))`. -/
def Env.fee (env : Env) (feePerKb : Int) (n : Nat) (outputs : List TxOut) (addChange : Bool) :
    Int :=
  env.FeeForSerializeSize feePerKb (env.EstimateSerializeSize n outputs addChange)

/-! ## Canonical ordering (`btcutil/txsort`, BIP 69) -/

/-- Strict lexicographic order on byte strings: `bytes.Compare a b < 0`. -/
def bytesLess : List Nat → List Nat → Bool
  | [], [] => false
  | [], _ :: _ => true
  | _ :: _, [] => false
  | a :: l, b :: l' => if a < b then true else if b < a then false else bytesLess l l'

/-- The `Less` of `txsort` on inputs: by previous transaction hash, then by output index. -/
def inputLess (a b : TxIn) : Bool :=
  if a.PreviousOutPoint.Hash = b.PreviousOutPoint.Hash then
    decide (a.PreviousOutPoint.Index < b.PreviousOutPoint.Index)
  else bytesLess a.PreviousOutPoint.Hash b.PreviousOutPoint.Hash

/-- The `Less` of `txsort` on outputs: by value, then by locking script. -/
def outputLess (a b : TxOut) : Bool :=
  if a.Value = b.Value then bytesLess a.PkScript b.PkScript else decide (a.Value < b.Value)

/-- Go `txsort.InPlaceSort`: inputs and outputs sorted ascending. -/
def InPlaceSort (tx : MsgTx) : MsgTx :=
  { tx with
    TxIn := sortBy (fun a b => !inputLess b a) tx.TxIn
    TxOut := sortBy (fun a b => !outputLess b a) tx.TxOut }

/-! ## Building transactions -/

/-- Go `wire.TxVersion`. -/
def TxVersion : Int := 1

/-- Go `wire.MaxTxInSequenceNum`. -/
def MaxTxInSequenceNum : Nat := 4294967295

/-- Go `wire.NewTxIn(&outPoint, nil, nil)`. -/
def NewTxIn (outPoint : OutPoint) : TxIn := ⟨outPoint, none, none, MaxTxInSequenceNum⟩

/-- Go `wire.NewTxOut`. -/
def NewTxOut (value : Int) (pkScript : List Nat) : TxOut := ⟨value, pkScript⟩

/-- The four results of `NewTxSpendAll`. -/
structure SpendAllResult where
  amount : Int
  tx : Option MsgTx
  outPoints : Option (List OutPoint)
  err : Option Error
deriving DecidableEq, Repr

/-- The error of `errp.New("insufficient funds for fee")`. -/
def errInsufficientFundsForFee : Error := ⟨"insufficient funds for fee"⟩

/-- Go `NewTxSpendAll`. -/
def NewTxSpendAll (env : Env) (spendableOutputs : OutputMap) (outputPkScript : List Nat)
    (feePerKb : Int) : SpendAllResult :=
  let selectedOutPoints := spendableOutputs.keys
  let inputs := spendableOutputs.keys.map NewTxIn
  let outputsSum := sum64 (spendableOutputs.map fun entry => entry.2.Value)
  let output := NewTxOut 0 outputPkScript
  let txSize := env.EstimateSerializeSize selectedOutPoints.length [output] false
  let maxRequiredFee := env.FeeForSerializeSize feePerKb txSize
  if outputsSum < maxRequiredFee then ⟨0, none, none, some errInsufficientFundsForFee⟩
  else
    let output := NewTxOut (sub64 outputsSum maxRequiredFee) outputPkScript
    let unsignedTransaction : MsgTx := ⟨TxVersion, inputs, [output], 0⟩
    ⟨output.Value, some (InPlaceSort unsignedTransaction), some selectedOutPoints, none⟩

/-- The three results of `NewTx`. -/
structure TxResult where
  tx : Option MsgTx
  outPoints : Option (List OutPoint)
  err : Option Error
deriving DecidableEq, Repr

/-- The error of line 127 of `maketx.go`. -/
def errChangeScriptTooLarge : Error :=
  ⟨"fee estimation requires change scripts no larger than P2PKH output scripts"⟩

/-- How one run of the `for` loop of `NewTx` (lines 94-108) is left. -/
inductive LoopExit where
  /-- Line 100: `coinSelection` failed. -/
  | failed (err : Error)
  /-- Line 110 is reached with these values of the loop variables. -/
  | converged (selectedOutputsSum : Int) (selectedOutPoints : List OutPoint)
      (maxRequiredFee : Int)
deriving DecidableEq, Repr

/-- The `for` loop of `NewTx` up to its exit (lines 94-108), started with `targetFee`; `fuel`
bounds the number of iterations and `none` means it was used up. -/
def feeLoop (env : Env) (spendableOutputs : OutputMap) (output : TxOut) (feePerKb : Int) :
    Nat → Int → Option LoopExit
  | 0, _ => none
  | fuel + 1, targetFee =>
    let r := coinSelection (add64 output.Value targetFee) spendableOutputs
    match r.err with
    | some err => some (.failed err)
    | none =>
      let selectedOutPoints := r.outPoints.getD []
      let txSize := env.EstimateSerializeSize selectedOutPoints.length [output] true
      let maxRequiredFee := env.FeeForSerializeSize feePerKb txSize
      if sub64 r.sum output.Value < maxRequiredFee then
        feeLoop env spendableOutputs output feePerKb fuel maxRequiredFee
      else some (.converged r.sum selectedOutPoints maxRequiredFee)

/-- Line 120: `changeAmount := selectedOutputsSum - targetAmount - maxRequiredFee`. -/
def changeAmount (output : TxOut) (selectedOutputsSum maxRequiredFee : Int) : Int :=
  sub64 (sub64 selectedOutputsSum output.Value) maxRequiredFee

/-- Lines 110-134 of `NewTx`, after the loop has settled on a selection.  The callback
`getChangePKScript` acts on a state `σ` of its own, so that calling it can be observed. -/
def finishTx {σ : Type} (env : Env) (output : TxOut) (feePerKb : Int)
    (getChangePKScript : σ → (List Nat × Option Error) × σ) (s : σ)
    (selectedOutputsSum : Int) (selectedOutPoints : List OutPoint) (maxRequiredFee : Int) :
    TxResult × σ :=
  let inputs := selectedOutPoints.map NewTxIn
  let unsignedTransaction : MsgTx := ⟨TxVersion, inputs, [output], 0⟩
  let changeAmount := changeAmount output selectedOutputsSum maxRequiredFee
  if changeAmount ≠ 0 ∧ !env.IsDustAmount changeAmount env.P2PKHPkScriptSize feePerKb then
    let r := getChangePKScript s
    match r.1.2 with
    | some err => (⟨none, none, some err⟩, r.2)
    | none =>
      if r.1.1.length > env.P2PKHPkScriptSize then
        (⟨none, none, some errChangeScriptTooLarge⟩, r.2)
      else
        let changeOutput := NewTxOut changeAmount r.1.1
        (⟨some (InPlaceSort { unsignedTransaction with
            TxOut := unsignedTransaction.TxOut ++ [changeOutput] }), some selectedOutPoints, none⟩,
          r.2)
  else (⟨some (InPlaceSort unsignedTransaction), some selectedOutPoints, none⟩, s)

/-- Go `NewTx`, run for at most `fuel` iterations of its loop; `none` means that the loop has
not been left by then. -/
def NewTx {σ : Type} (env : Env) (spendableOutputs : OutputMap) (output : TxOut)
    (feePerKb : Int) (getChangePKScript : σ → (List Nat × Option Error) × σ) (s : σ)
    (fuel : Nat) : Option (TxResult × σ) :=
  let targetFee := env.fee feePerKb 1 [output] true
  match feeLoop env spendableOutputs output feePerKb fuel targetFee with
  | none => none
  | some (.failed err) => some (⟨none, none, some err⟩, s)
  | some (.converged selectedOutputsSum selectedOutPoints maxRequiredFee) =>
    some (finishTx env output feePerKb getChangePKScript s
      selectedOutputsSum selectedOutPoints maxRequiredFee)

/-! ## A concrete fee estimator, used to evaluate the functions on examples -/

/-- Serialized size of a transaction with `n` P2PKH inputs: 10 bytes of overhead, 148 per input,
`9 + len(script)` per output and 34 for a change output. -/
def sampleEstimateSerializeSize (n : Nat) (outputs : List TxOut) (addChange : Bool) : Int :=
  10 + 148 * (n : Int) + ((outputs.map fun o => 9 + (o.PkScript.length : Int)).sum)
    + (if addChange then 34 else 0)

/-- A fee estimator with proportional fees, a dust limit of three times the fee of spending an
output, and 25-byte P2PKH scripts. -/
def sampleEnv : Env where
  EstimateSerializeSize := sampleEstimateSerializeSize
  FeeForSerializeSize := fun feePerKb size => (feePerKb * size + 999) / 1000
  IsDustAmount := fun amount scriptSize feePerKb => amount * 1000 / (3 * (scriptSize + 157)) < feePerKb
  P2PKHPkScriptSize := 25

/-! ## Example data -/

/-- An outpoint of a first transaction. -/
def opA : OutPoint := ⟨[1], 0⟩

/-- An outpoint of a second transaction. -/
def opB : OutPoint := ⟨[2], 0⟩

/-- Two outputs, worth 3 and 10. -/
def smallMap : OutputMap := [(opB, ⟨3, []⟩), (opA, ⟨10, []⟩)]

/-- Two outputs worth `2^62` each: their total `2^63` is not an `int64`. -/
def hugeMap : OutputMap :=
  [(opA, ⟨4611686018427387904, []⟩), (opB, ⟨4611686018427387904, []⟩)]

/-- One output worth 100000. -/
def singleMap : OutputMap := [(opA, ⟨100000, []⟩)]

/-- Two outputs, worth 6000 and 4000. -/
def poorMap : OutputMap := [(opA, ⟨6000, []⟩), (opB, ⟨4000, []⟩)]

/-- A change-script provider that counts its calls and hands out a 3-byte script. -/
def countingProvider (n : Nat) : (List Nat × Option Error) × Nat := (([7, 7, 7], none), n + 1)

/-- A change-script provider that counts its calls and hands out a 26-byte script. -/
def longProvider (n : Nat) : (List Nat × Option Error) × Nat :=
  ((List.replicate 26 0, none), n + 1)

/-- A change-script provider that counts its calls and fails. -/
def failingProvider (n : Nat) : (List Nat × Option Error) × Nat :=
  (([], some ⟨"no unused address"⟩), n + 1)

/-! ## Totals of a transaction -/

/-- Exact sum of the values that the inputs of `tx` spend, looked up in the map `m`. -/
def inputSum (m : OutputMap) (tx : MsgTx) : Int :=
  (tx.TxIn.map fun i => m.value i.PreviousOutPoint).sum

/-- Exact sum of the values of all outputs of `tx`. -/
def outputSum (tx : MsgTx) : Int := (tx.TxOut.map TxOut.Value).sum

/-- A payment of 40000 to a 3-byte script. -/
def payment : TxOut := ⟨40000, [1, 2, 3]⟩

/-- A payment of 99700 to a 3-byte script. -/
def paymentNearAll : TxOut := ⟨99700, [1, 2, 3]⟩

/-- A payment of 50000 to a 3-byte script. -/
def paymentLarge : TxOut := ⟨50000, [1, 2, 3]⟩

/-- A payment of the largest `int64` to a 3-byte script. -/
def paymentMax : TxOut := ⟨9223372036854775807, [1, 2, 3]⟩

/-! ## Counting the iterations of `NewTx` -/

/-- The loop of `NewTx` (lines 94-108) as in `feeLoop`, together with the number of calls of
`coinSelection` made until the loop is left. -/
def feeLoopCalls (env : Env) (spendableOutputs : OutputMap) (output : TxOut) (feePerKb : Int) :
    Nat → Int → Option (LoopExit × Nat)
  | 0, _ => none
  | fuel + 1, targetFee =>
    let r := coinSelection (add64 output.Value targetFee) spendableOutputs
    match r.err with
    | some err => some (.failed err, 1)
    | none =>
      let selectedOutPoints := r.outPoints.getD []
      let txSize := env.EstimateSerializeSize selectedOutPoints.length [output] true
      let maxRequiredFee := env.FeeForSerializeSize feePerKb txSize
      if sub64 r.sum output.Value < maxRequiredFee then
        (feeLoopCalls env spendableOutputs output feePerKb fuel maxRequiredFee).map
          fun p => (p.1, p.2 + 1)
      else some (.converged r.sum selectedOutPoints maxRequiredFee, 1)

/-- The number of calls of `coinSelection` that `NewTx` makes before it returns; `none` when
the loop has not been left after `fuel` iterations. -/
def NewTxCalls (env : Env) (spendableOutputs : OutputMap) (output : TxOut) (feePerKb : Int)
    (fuel : Nat) : Option Nat :=
  (feeLoopCalls env spendableOutputs output feePerKb fuel (env.fee feePerKb 1 [output] true)).map
    Prod.snd

/-- An outpoint of a third transaction. -/
def opC : OutPoint := ⟨[3], 0⟩

/-- An outpoint of a fourth transaction. -/
def opD : OutPoint := ⟨[4], 0⟩

/-- Four outputs, worth 1100, 200, 190 and 180. -/
def gradedMap : OutputMap :=
  [(opA, ⟨1100, []⟩), (opB, ⟨200, []⟩), (opC, ⟨190, []⟩), (opD, ⟨180, []⟩)]

/-- A payment of 1000 to a 3-byte script. -/
def paymentThousand : TxOut := ⟨1000, [1, 2, 3]⟩

/-! ## Checking the canonical order (`txsort.IsSorted`) -/

/-- Go `sort.IsSorted`: no element is `less` than the one before it. -/
def isSortedBy {α : Type} (less : α → α → Bool) : List α → Bool
  | [] => true
  | [_] => true
  | a :: b :: l => !less b a && isSortedBy less (b :: l)

/-- Go `txsort.IsSorted`: the inputs and the outputs are both sorted. -/
def IsSorted (tx : MsgTx) : Bool :=
  isSortedBy inputLess tx.TxIn && isSortedBy outputLess tx.TxOut

/-- Two outputs, worth 50000 and 30000. -/
def sweepMap : OutputMap := [(opB, ⟨50000, []⟩), (opA, ⟨30000, []⟩)]

/-! ## Signing (`deterministicwallet/sign.go`)

`SignTransaction` works on `txscript` (signature hashes, script engine), on the address
methods `SigHashData` and `InputData`, and on the signer `HDKeyStoreInterface`; none of them is
part of the available sources, so they are parameters.  A call of `SignTransaction` can return
or panic, changes the inputs of the transaction in place and calls its collaborators in some
order: the embedding returns the outcome, the transaction as it is afterwards, and the trace of
the calls made.  The collaborators are functions of their arguments, and every previous output
carries an `*addresses.Address`, so that the type assertions of lines 27, 48 and 58 succeed. -/

/-- Go `txscript.TxSigHashes`, the midstate shared by the witness signature hashes. -/
structure TxSigHashes where
  HashPrevOuts : List Nat
  HashSequence : List Nat
  HashOutputs : List Nat
deriving DecidableEq, Repr

/-- Go `txscript.SigHashAll`. -/
def SigHashAll : Nat := 1

/-- Go `*addresses.Address` as far as `SignTransaction` uses it: the field `KeyPath`, the result
of `SigHashData()` (segwit flag and subscript) and the method `InputData(signature)` (signature
script and witness). -/
structure Address where
  KeyPath : String
  SigHashData : Bool × List Nat
  InputData : List Nat → Option (List Nat) × Option (List (List Nat))

/-- Go `*transactions.TxOut`: a `wire.TxOut` together with the address that owns it. -/
structure PrevOut where
  Value : Int
  PkScript : List Nat
  Address : Address

/-- What identifies a script engine made by `txscript.NewEngine(scriptPubKey, tx, txIdx,
StandardVerifyFlags, nil, hashCache, inputAmount)`. -/
structure Engine where
  scriptPubKey : List Nat
  tx : MsgTx
  txIdx : Nat
  hashCache : TxSigHashes
  inputAmount : Int
deriving DecidableEq, Repr

/-- The functions of `txscript` that `SignTransaction` and `txValidityCheck` call.  Functions
that return `(value, error)` are pairs of a value and an optional error. -/
structure SignEnv where
  /-- Go `txscript.NewTxSigHashes(tx)`. -/
  NewTxSigHashes : MsgTx → TxSigHashes
  /-- Go `txscript.CalcWitnessSigHash(script, sigHashes, hType, tx, idx, amt)`. -/
  CalcWitnessSigHash : List Nat → TxSigHashes → Nat → MsgTx → Nat → Int →
    List Nat × Option Error
  /-- Go `txscript.CalcSignatureHash(script, hashType, tx, idx)`. -/
  CalcSignatureHash : List Nat → Nat → MsgTx → Nat → List Nat × Option Error
  /-- The error, if any, with which `txscript.NewEngine` refuses to make the engine. -/
  NewEngine : Engine → Option Error
  /-- Go `engine.Execute()`. -/
  Execute : Engine → Option Error

/-- A call made by `SignTransaction` to one of its collaborators. -/
inductive Event where
  /-- `txscript.NewTxSigHashes(transaction)`. -/
  | sigHashes
  /-- `txscript.CalcWitnessSigHash` for the input `index`. -/
  | witnessSigHash (index : Nat)
  /-- `txscript.CalcSignatureHash` for the input `index`. -/
  | signatureHash (index : Nat)
  /-- `sign.Sign(signatureHashes, keyPaths)`. -/
  | sign (signatureHashes : List (List Nat)) (keyPaths : List String)
  /-- `txscript.NewEngine` for the input `index`. -/
  | newEngine (index : Nat)
  /-- `engine.Execute()` for the input `index`. -/
  | execute (index : Nat)
deriving DecidableEq, Repr

/-- The event is a call of the signer. -/
def Event.isSign : Event → Bool
  | .sign _ _ => true
  | _ => false

/-- The event is the computation of a signature hash. -/
def Event.isHashing : Event → Bool
  | .witnessSigHash _ => true
  | .signatureHash _ => true
  | _ => false

/-- The event is a call of the script engine. -/
def Event.isEngine : Event → Bool
  | .newEngine _ => true
  | .execute _ => true
  | _ => false

/-- The value with which Go code panics. -/
inductive PanicValue where
  /-- `panic("...")` with a string. -/
  | message (text : String)
  /-- `panic(err)` with an error value. -/
  | error (err : Error)
  /-- A run-time panic of Go, such as an index out of range. -/
  | runtime (text : String)
deriving DecidableEq, Repr

/-- How a call ends: it returns its `error` result (`none` is `nil`) or it panics. -/
inductive Outcome where
  | returned (err : Option Error)
  | panicked (value : PanicValue)
deriving DecidableEq, Repr

/-- What a call of `SignTransaction` leaves behind. -/
structure SignResult where
  outcome : Outcome
  /-- The transaction after the call. -/
  transaction : MsgTx
  /-- The calls made, in order. -/
  trace : List Event
deriving DecidableEq, Repr

/-- The panic of line 20. -/
def panicOutputInputMismatch : PanicValue :=
  .message "output/input mismatch; there needs to be exactly one output being spent ber input"

/-- The panic of line 54. -/
def panicSignatureCount : PanicValue :=
  .message "number of signatures doesn't match number of inputs"

/-- The run-time panic of an index expression `previousOutputs[index]` or `signatures[index]`
whose index is not below the length. -/
def panicIndexOutOfRange : PanicValue := .runtime "index out of range"

/-- The error of `errp.New("tx not bip69 conformant")`. -/
def errNotBip69 : Error := ⟨"tx not bip69 conformant"⟩

/-- Lines 26-44: the signature hash of the input `index`, which spends `spentOutput`, and the
error of its computation. -/
def sigHash (env : SignEnv) (sigHashes : TxSigHashes) (transaction : MsgTx) (index : Nat)
    (spentOutput : PrevOut) : List Nat × Option Error :=
  if spentOutput.Address.SigHashData.1 then
    env.CalcWitnessSigHash spentOutput.Address.SigHashData.2 sigHashes SigHashAll transaction
      index spentOutput.Value
  else env.CalcSignatureHash spentOutput.Address.SigHashData.2 SigHashAll transaction index

/-- The call that `sigHash` makes. -/
def sigHashEvent (index : Nat) (spentOutput : PrevOut) : Event :=
  if spentOutput.Address.SigHashData.1 then .witnessSigHash index else .signatureHash index

/-- How the loop of lines 25-49 ends. -/
inductive HashLoopResult where
  /-- All hashes are computed. -/
  | done (signatureHashes : List (List Nat)) (keyPaths : List String) (trace : List Event)
  /-- The function is left from inside the loop. -/
  | stopped (outcome : Outcome) (trace : List Event)
deriving DecidableEq, Repr

/-- The loop of lines 25-49, `for index := range transaction.TxIn`, over the inputs that remain
from `index` on, with the hashes, key paths and trace collected so far. -/
def hashLoop (env : SignEnv) (transaction : MsgTx) (previousOutputs : List PrevOut)
    (sigHashes : TxSigHashes) :
    List TxIn → Nat → List (List Nat) → List String → List Event → HashLoopResult
  | [], _, signatureHashes, keyPaths, trace => .done signatureHashes keyPaths trace
  | _ :: remaining, index, signatureHashes, keyPaths, trace =>
    match previousOutputs[index]? with
    | none => .stopped (.panicked panicIndexOutOfRange) trace
    | some spentOutput =>
      let r := sigHash env sigHashes transaction index spentOutput
      match r.2 with
      | some err => .stopped (.returned (some err)) (trace ++ [sigHashEvent index spentOutput])
      | none =>
        hashLoop env transaction previousOutputs sigHashes remaining (index + 1)
          (signatureHashes ++ [r.1]) (keyPaths ++ [spentOutput.Address.KeyPath])
          (trace ++ [sigHashEvent index spentOutput])

/-- The loop of lines 56-61, `for index, input := range transaction.TxIn`, over the inputs that
remain from `index` on: the inputs as they are afterwards and the run-time panic, if any. -/
def assignLoop (previousOutputs : List PrevOut) (signatures : List (List Nat)) :
    List TxIn → Nat → List TxIn × Option PanicValue
  | [], _ => ([], none)
  | input :: remaining, index =>
    match previousOutputs[index]?, signatures[index]? with
    | some spentOutput, some signature =>
      let d := spentOutput.Address.InputData signature
      let rest := assignLoop previousOutputs signatures remaining (index + 1)
      ({ input with SignatureScript := d.1, Witness := d.2 } :: rest.1, rest.2)
    | _, _ => (input :: remaining, some panicIndexOutOfRange)

/-- The loop of lines 74-86 of `txValidityCheck` over the inputs that remain from `index` on:
how it ends and the calls it makes.  `errp.WithStack` does not change the message. -/
def engineLoop (env : SignEnv) (transaction : MsgTx) (previousOutputs : List PrevOut)
    (sigHashes : TxSigHashes) : List TxIn → Nat → Outcome × List Event
  | [], _ => (.returned none, [])
  | _ :: remaining, index =>
    match previousOutputs[index]? with
    | none => (.panicked panicIndexOutOfRange, [])
    | some spentOutput =>
      let engine : Engine :=
        ⟨spentOutput.PkScript, transaction, index, sigHashes, spentOutput.Value⟩
      match env.NewEngine engine with
      | some err => (.returned (some err), [.newEngine index])
      | none =>
        match env.Execute engine with
        | some err => (.returned (some err), [.newEngine index, .execute index])
        | none =>
          let rest := engineLoop env transaction previousOutputs sigHashes remaining (index + 1)
          (rest.1, [.newEngine index, .execute index] ++ rest.2)

/-- Go `txValidityCheck`. -/
def txValidityCheck (env : SignEnv) (transaction : MsgTx) (previousOutputs : List PrevOut)
    (sigHashes : TxSigHashes) : Outcome × List Event :=
  if !IsSorted transaction then (.returned (some errNotBip69), [])
  else engineLoop env transaction previousOutputs sigHashes transaction.TxIn 0

/-- Lines 51-66 of `SignTransaction`: what happens once the signer has answered with
`answer`, after the calls in `trace`. -/
def afterSign (env : SignEnv) (transaction : MsgTx) (previousOutputs : List PrevOut)
    (sigHashes : TxSigHashes) (answer : List (List Nat) × Option Error) (trace : List Event) :
    SignResult :=
  match answer.2 with
  | some err => ⟨.returned (some err), transaction, trace⟩
  | none =>
    if answer.1.length ≠ transaction.TxIn.length then
      ⟨.panicked panicSignatureCount, transaction, trace⟩
    else
      let assigned := assignLoop previousOutputs answer.1 transaction.TxIn 0
      let signed : MsgTx := { transaction with TxIn := assigned.1 }
      match assigned.2 with
      | some value => ⟨.panicked value, signed, trace⟩
      | none =>
        let check := txValidityCheck env signed previousOutputs sigHashes
        match check.1 with
        | .returned (some err) => ⟨.panicked (.error err), signed, trace ++ check.2⟩
        | .returned none => ⟨.returned none, signed, trace ++ check.2⟩
        | .panicked value => ⟨.panicked value, signed, trace ++ check.2⟩

/-- Go `SignTransaction`.  The signer `sign.Sign` is the function `sign` from the two lists it
is given to the signatures and the error it returns. -/
def SignTransaction (env : SignEnv)
    (sign : List (List Nat) → List String → List (List Nat) × Option Error)
    (transaction : MsgTx) (previousOutputs : List PrevOut) : SignResult :=
  if previousOutputs.length ≠ transaction.TxIn.length then
    ⟨.panicked panicOutputInputMismatch, transaction, []⟩
  else
    let sigHashes := env.NewTxSigHashes transaction
    match hashLoop env transaction previousOutputs sigHashes transaction.TxIn 0 [] []
        [.sigHashes] with
    | .stopped outcome trace => ⟨outcome, transaction, trace⟩
    | .done signatureHashes keyPaths trace =>
      afterSign env transaction previousOutputs sigHashes (sign signatureHashes keyPaths)
        (trace ++ [.sign signatureHashes keyPaths])

/-! ## Example data for signing -/

/-- A `txscript` whose hashes record the kind and the index of the input and whose engine
accepts every script. -/
def sampleSignEnv : SignEnv where
  NewTxSigHashes := fun tx => ⟨[tx.TxIn.length], [], [tx.TxOut.length]⟩
  CalcWitnessSigHash := fun script _ _ _ idx _ => (1 :: idx :: script, none)
  CalcSignatureHash := fun script _ _ idx => (0 :: idx :: script, none)
  NewEngine := fun _ => none
  Execute := fun _ => none

/-- A `txscript` like `sampleSignEnv` that cannot hash the input 1 of a transaction. -/
def failingHashEnv : SignEnv :=
  { sampleSignEnv with
    CalcSignatureHash := fun script _ _ idx =>
      if idx = 1 then ([], some ⟨"invalid index"⟩) else (0 :: idx :: script, none) }

/-- A legacy address. -/
def legacyAddress : Address := ⟨"m/44h/0h/0h/0/0", (false, [9]), fun sig => (some sig, none)⟩

/-- A segwit address. -/
def segwitAddress : Address := ⟨"m/49h/0h/0h/0/1", (true, [8]), fun sig => (none, some [sig])⟩

/-- A previous output of 600 owned by the legacy address. -/
def prevLegacy : PrevOut := ⟨600, [5], legacyAddress⟩

/-- A previous output of 700 owned by the segwit address. -/
def prevSegwit : PrevOut := ⟨700, [6], segwitAddress⟩

/-- A sorted unsigned transaction with the inputs `opA`, `opB` and one output. -/
def unsignedTx : MsgTx := ⟨1, [NewTxIn opA, NewTxIn opB], [⟨1000, [1, 2, 3]⟩], 0⟩

/-- A signer that signs every hash with the hash itself. -/
def echoSigner (signatureHashes : List (List Nat)) (_ : List String) :
    List (List Nat) × Option Error := (signatureHashes, none)

/-- A signer that leaves out the last signature. -/
def shortSigner (signatureHashes : List (List Nat)) (_ : List String) :
    List (List Nat) × Option Error := (signatureHashes.dropLast, none)

/-- A signer on which the user rejects the request. -/
def rejectingSigner (_ : List (List Nat)) (_ : List String) :
    List (List Nat) × Option Error := ([], some ⟨"aborted by user"⟩)

/-- The transaction `unsignedTx` with its inputs in the wrong order. -/
def unsortedTx : MsgTx := ⟨1, [NewTxIn opB, NewTxIn opA], [⟨1000, [1, 2, 3]⟩], 0⟩

/-- The transaction `unsignedTx` after `echoSigner` has signed it for a legacy input 0 and a
segwit input 1. -/
def signedTx : MsgTx :=
  ⟨1, [⟨opA, some [0, 0, 9], none, MaxTxInSequenceNum⟩,
    ⟨opB, none, some [[1, 1, 8]], MaxTxInSequenceNum⟩], [⟨1000, [1, 2, 3]⟩], 0⟩

/-! ## The API token check (`backend/handlers/handlers.go`) -/

/-- Go `ConnectionData`. -/
structure ConnectionData where
  port : Int
  token : String
  devMode : Bool
deriving DecidableEq, Repr

/-- Go `NewConnectionData`: `devMode` is `len(token) == 0`. -/
def NewConnectionData (port : Int) (token : String) : ConnectionData :=
  ⟨port, token, token.utf8ByteSize == 0⟩

/-- Go `(*ConnectionData).isDev`. -/
def ConnectionData.isDev (connectionData : ConnectionData) : Bool :=
  connectionData.port == -1 || connectionData.token == ""

/-- What `isAPITokenValid` reads of a `*http.Request`: `r.URL.Path`, `r.Method` and
`r.Header.Get("Authorization")`, which is empty when the header is missing. -/
structure Request where
  path : String
  method : String
  authorization : String
deriving DecidableEq, Repr

/-- The reply written by `http.Error(w, message, code)`. -/
structure HttpError where
  message : String
  code : Nat
deriving DecidableEq, Repr

/-- Go `http.StatusUnauthorized`. -/
def StatusUnauthorized : Nat := 401

/-- Go `isAPITokenValid`: its result and the reply it writes with `http.Error`, if any.  The
log entries are left out. -/
def isAPITokenValid (r : Request) (apiData : ConnectionData) : Bool × Option HttpError :=
  if apiData.devMode then (true, none)
  else if r.authorization.utf8ByteSize == 0 then
    (false, some ⟨"missing token " ++ r.path, StatusUnauthorized⟩)
  else if r.authorization.utf8ByteSize != 0 && r.authorization != "Basic " ++ apiData.token then
    (false, some ⟨"incorrect token", StatusUnauthorized⟩)
  else (true, none)

/-- Go `ensureAPITokenValid`, applied to a request: what the wrapped handler `h` answers if it
is invoked, and the reply written by the check. -/
def ensureAPITokenValid {ρ : Type} (h : Request → ρ) (apiData : ConnectionData) (r : Request) :
    Option ρ × Option HttpError :=
  if (isAPITokenValid r apiData).1 then (some (h r), (isAPITokenValid r apiData).2)
  else (none, (isAPITokenValid r apiData).2)

/-- A fee estimator that asks 5 for a transaction without inputs and nothing otherwise. -/
def oddFeeEnv : Env where
  EstimateSerializeSize := fun n _ _ => n
  FeeForSerializeSize := fun _ size => if size = 0 then 5 else 0
  IsDustAmount := fun _ _ _ => false
  P2PKHPkScriptSize := 25

/-- A payment of 0 to a 3-byte script. -/
def paymentZero : TxOut := ⟨0, [1, 2, 3]⟩

/-- The order of `txsort` on the previous outpoints of two inputs: by transaction hash, then
by output index. -/
def outPointLess (a b : OutPoint) : Bool :=
  if a.Hash = b.Hash then decide (a.Index < b.Index) else bytesLess a.Hash b.Hash

/-- A single output worth 170, the fee of the sweep that spends it at 1000 per kB. -/
def exactFeeMap : OutputMap := [(opA, ⟨170, []⟩)]

/-- Four outputs worth 6917529027641081855 each, three quarters of `2^63` less 1: the total
of two of them is not an `int64`. -/
def wrapMap : OutputMap :=
  [(opA, ⟨6917529027641081855, []⟩), (opB, ⟨6917529027641081855, []⟩),
    (opC, ⟨6917529027641081855, []⟩), (opD, ⟨6917529027641081855, []⟩)]

/-- A payment of 6917529027641081652, which with the fee of 204 is 1 more than an output of
`wrapMap`. -/
def paymentWrap : TxOut := ⟨6917529027641081652, [1, 2, 3]⟩

/-- A payment of 9223372036854775156, which with the fee of 648 is the total of `wrapMap` less
`2^64`. -/
def paymentWrapAll : TxOut := ⟨9223372036854775156, [1, 2, 3]⟩

/-- Two outputs worth the largest `int64` each and one worth 100002. -/
def maxSweepMap : OutputMap :=
  [(opA, ⟨9223372036854775807, []⟩), (opB, ⟨9223372036854775807, []⟩), (opC, ⟨100002, []⟩)]

/-! # Lemmas -/

/-! ## Lemmas: machine integers -/

theorem wrap64_eq_self {x : Int} (h : InInt64 x) : wrap64 x = x := by
  unfold InInt64 minInt64 maxInt64 at h
  unfold wrap64
  omega

theorem inInt64_wrap64 (x : Int) : InInt64 (wrap64 x) := by
  unfold InInt64 minInt64 maxInt64 wrap64
  omega

theorem foldl_add64_eq_sum (l : List Int) : ∀ a : Int, 0 ≤ a → (∀ v ∈ l, 0 ≤ v) →
    a + l.sum ≤ maxInt64 → l.foldl add64 a = a + l.sum := by
  induction l with
  | nil => intro a _ _ _; simp
  | cons v l ih =>
    intro a ha hv hs
    have hv0 : 0 ≤ v := hv v (List.mem_cons_self _ _)
    have hl : ∀ w ∈ l, 0 ≤ w := fun w hw => hv w (List.mem_cons_of_mem _ hw)
    have hl0 : 0 ≤ l.sum := List.sum_nonneg hl
    simp only [List.sum_cons] at hs
    have hw : add64 a v = a + v := by
      apply wrap64_eq_self
      unfold InInt64 minInt64
      unfold maxInt64 at hs ⊢
      omega
    simp only [List.foldl_cons, List.sum_cons, hw]
    rw [ih (a + v) (by omega) hl (by omega)]
    omega

theorem sum64_eq_sum {l : List Int} (hv : ∀ v ∈ l, 0 ≤ v) (hs : l.sum ≤ maxInt64) :
    sum64 l = l.sum := by
  unfold sum64
  rw [foldl_add64_eq_sum l 0 (le_refl 0) hv (by simpa using hs)]
  simp

theorem foldl_add64_of_noOverflow (l : List Int) : ∀ a : Int, NoOverflowSum a l →
    l.foldl add64 a = a + l.sum := by
  induction l with
  | nil => intro a _; simp
  | cons v l ih =>
    intro a h
    have hw : add64 a v = a + v := wrap64_eq_self h.1
    simp only [List.foldl_cons, List.sum_cons, hw]
    rw [ih (a + v) h.2]
    omega

theorem sum64_of_noOverflow {l : List Int} (h : NoOverflowSum 0 l) : sum64 l = l.sum := by
  unfold sum64
  rw [foldl_add64_of_noOverflow l 0 h]
  simp

theorem NoOverflowSum.take {l : List Int} : ∀ {a : Int} (k : Nat), NoOverflowSum a l →
    NoOverflowSum a (l.take k) := by
  induction l with
  | nil => intro a k h; simpa using h
  | cons v l ih =>
    intro a k h
    cases k with
    | zero => exact trivial
    | succ k => exact ⟨h.1, ih k h.2⟩

theorem sum_take_le_sum {l : List Int} (hv : ∀ v ∈ l, 0 ≤ v) (k : Nat) :
    (l.take k).sum ≤ l.sum := by
  have h := List.sum_take_add_sum_drop l k
  have hd : 0 ≤ (l.drop k).sum :=
    List.sum_nonneg fun w hw => hv w (List.mem_of_mem_drop hw)
  omega

theorem sum64_take_eq_sum {l : List Int} (hv : ∀ v ∈ l, 0 ≤ v) (hs : l.sum ≤ maxInt64)
    (k : Nat) : sum64 (l.take k) = (l.take k).sum :=
  sum64_eq_sum (fun w hw => hv w (List.mem_of_mem_take hw))
    (le_trans (sum_take_le_sum hv k) hs)

/-! ## Lemmas: sorting -/

theorem insertBy_perm {α : Type} (le : α → α → Bool) (a : α) (l : List α) :
    (insertBy le a l).Perm (a :: l) := by
  induction l with
  | nil => exact List.Perm.refl _
  | cons b l ih =>
    unfold insertBy
    split
    · exact List.Perm.refl _
    · exact (List.Perm.cons b ih).trans (List.Perm.swap a b l)

theorem sortBy_perm {α : Type} (le : α → α → Bool) (l : List α) : (sortBy le l).Perm l := by
  induction l with
  | nil => exact List.Perm.refl _
  | cons a l ih => exact (insertBy_perm le a _).trans (List.Perm.cons a ih)

theorem insertBy_pairwise {α : Type} (le : α → α → Bool)
    (total : ∀ a b, le a b = true ∨ le b a = true)
    (trans : ∀ a b c, le a b = true → le b c = true → le a c = true) (a : α) (l : List α)
    (hl : l.Pairwise (fun x y => le x y = true)) :
    (insertBy le a l).Pairwise (fun x y => le x y = true) := by
  induction l with
  | nil => simp [insertBy]
  | cons b l ih =>
    rw [List.pairwise_cons] at hl
    unfold insertBy
    split
    · rename_i hab
      refine List.Pairwise.cons ?_ (List.Pairwise.cons hl.1 hl.2)
      intro c hc
      rcases List.mem_cons.1 hc with rfl | hc
      · exact hab
      · exact trans _ _ _ hab (hl.1 c hc)
    · rename_i hab
      have hba : le b a = true := by
        rcases total a b with h | h
        · exact absurd h hab
        · exact h
      refine List.Pairwise.cons ?_ (ih hl.2)
      intro c hc
      rcases List.mem_cons.1 ((insertBy_perm le a l).subset hc) with rfl | hc
      · exact hba
      · exact hl.1 c hc

theorem sortBy_pairwise {α : Type} (le : α → α → Bool)
    (total : ∀ a b, le a b = true ∨ le b a = true)
    (trans : ∀ a b c, le a b = true → le b c = true → le a c = true) (l : List α) :
    (sortBy le l).Pairwise (fun x y => le x y = true) := by
  induction l with
  | nil => simp [sortBy]
  | cons a l ih => exact insertBy_pairwise le total trans a _ ih

/-- The values of the outpoints in sorted order. -/
theorem sortedValues_perm (m : OutputMap) :
    ((sortedOutPoints m).map m.value).Perm m.values :=
  (sortBy_perm _ m.keys).map m.value

theorem sortedValues_sorted (m : OutputMap) :
    ((sortedOutPoints m).map m.value).Pairwise (fun a b => b ≤ a) := by
  rw [List.pairwise_map]
  have h := sortBy_pairwise (fun a b => !byValueLess m a b)
    (by intro a b; simp only [byValueLess, Bool.not_eq_true', decide_eq_false_iff_not]; omega)
    (by intro a b c; simp only [byValueLess, Bool.not_eq_true', decide_eq_false_iff_not]; omega)
    m.keys
  refine h.imp ?_
  intro a b hab
  simp only [byValueLess, Bool.not_eq_true', decide_eq_false_iff_not] at hab
  omega

/-! ## Lemmas: the selection loop -/

theorem selectLoop_spec (T : Int) (m : OutputMap) (rest : List OutPoint) :
    ∀ (sel : List OutPoint) (sum : Int), ∃ k, k ≤ rest.length ∧
      selectLoop T m rest sel sum
        = (sel ++ rest.take k, ((rest.take k).map m.value).foldl add64 sum) ∧
      (∀ j, j < k → ((rest.take j).map m.value).foldl add64 sum < T) ∧
      (k < rest.length → T ≤ ((rest.take k).map m.value).foldl add64 sum) := by
  induction rest with
  | nil => intro sel sum; exact ⟨0, le_refl _, by simp [selectLoop], by simp, by simp⟩
  | cons o rest ih =>
    intro sel sum
    by_cases h : sum ≥ T
    · exact ⟨0, Nat.zero_le _, by simp [selectLoop, h], by simp, by simpa using h⟩
    · obtain ⟨k, hk, heq, hlt, hge⟩ := ih (sel ++ [o]) (add64 sum (m.value o))
      refine ⟨k + 1, by simpa using hk, ?_, ?_, ?_⟩
      · simp [selectLoop, h, heq]
      · intro j hj
        cases j with
        | zero => simpa using h
        | succ j => simpa using hlt j (by omega)
      · intro hk'
        simpa using hge (by simpa using hk')

/-- On a map, whose keys are distinct, the values are those of the entries. -/
theorem values_eq_of_nodup : ∀ (m : OutputMap), m.keys.Nodup →
    m.values = m.map fun entry => entry.2.Value := by
  intro m
  induction m with
  | nil => intro _; rfl
  | cons e m ih =>
    intro hnd
    have hnd' : (e.1 :: OutputMap.keys m).Nodup := hnd
    rw [List.nodup_cons] at hnd'
    have htail : ∀ k ∈ OutputMap.keys m,
        OutputMap.value (e :: m) k = OutputMap.value m k := by
      intro k hk
      have hne : (k == e.1) = false := beq_eq_false_iff_ne.2 fun h => hnd'.1 (h ▸ hk)
      simp [OutputMap.value, OutputMap.get, List.lookup, hne]
    have hhead : OutputMap.value (e :: m) e.1 = e.2.Value := by
      simp [OutputMap.value, OutputMap.get, List.lookup]
    show OutputMap.value (e :: m) e.1 :: (OutputMap.keys m).map (OutputMap.value (e :: m))
      = e.2.Value :: m.map fun entry => entry.2.Value
    rw [hhead, List.map_congr_left htail]
    exact congrArg _ (ih hnd'.2)

theorem take_sum_le_cons_take_sum : ∀ (n : Nat) (l : List Int) (a : Int),
    (a :: l).Pairwise (fun x y => y ≤ x) → n ≤ l.length →
    (l.take n).sum ≤ ((a :: l).take n).sum := by
  intro n
  induction n with
  | zero => intro l a _ _; simp
  | succ n ih =>
    intro l a hp hn
    cases l with
    | nil => simp at hn
    | cons b l =>
      rw [List.pairwise_cons] at hp
      have hba : b ≤ a := hp.1 b (List.mem_cons_self _ _)
      have h := ih l b hp.2 (by simpa using hn)
      simp only [List.take_succ_cons, List.sum_cons]
      omega

theorem sublist_sum_le_take_sum {s l : List Int} (hs : s.Sublist l) :
    l.Pairwise (fun x y => y ≤ x) → s.sum ≤ (l.take s.length).sum := by
  induction hs with
  | slnil => intro _; simp
  | @cons s l a hsl ih =>
    intro hp
    have h1 := ih (List.pairwise_cons.1 hp).2
    have h2 := take_sum_le_cons_take_sum s.length l a hp hsl.length_le
    omega
  | @cons₂ s l a _ ih =>
    intro hp
    have h1 := ih (List.pairwise_cons.1 hp).2
    simp only [List.length_cons, List.take_succ_cons, List.sum_cons]
    omega

/-- Any `j` outputs of the map are worth at most the `j` most valuable ones. -/
theorem subset_sum_le_top (m : OutputMap) (sub : List OutPoint) (hsub : sub.Sublist m.keys) :
    (sub.map m.value).sum ≤ (((sortedOutPoints m).map m.value).take sub.length).sum := by
  have h1 : (sub.map m.value).Subperm ((sortedOutPoints m).map m.value) :=
    (hsub.map m.value).subperm.trans (sortedValues_perm m).symm.subperm
  obtain ⟨l, hl, hsl⟩ := h1
  have h2 := sublist_sum_le_take_sum hsl (sortedValues_sorted m)
  rw [hl.sum_eq, hl.length_eq] at h2
  simpa using h2

/-- What `coinSelection` returns, in terms of the number `k` of outpoints that its loop takes. -/
theorem coinSelection_cases (T : Int) (m : OutputMap) :
    ∃ k, k ≤ (sortedOutPoints m).length ∧
      (∀ j, j < k → sum64 (((sortedOutPoints m).map m.value).take j) < T) ∧
      (k < (sortedOutPoints m).length →
        T ≤ sum64 (((sortedOutPoints m).map m.value).take k)) ∧
      coinSelection T m =
        if sum64 (((sortedOutPoints m).map m.value).take k) < T then
          ⟨0, none, some errInsufficientFunds⟩
        else ⟨sum64 (((sortedOutPoints m).map m.value).take k),
          some ((sortedOutPoints m).take k), none⟩ := by
  obtain ⟨k, hk, heq, hlt, hge⟩ := selectLoop_spec T m (sortedOutPoints m) [] 0
  refine ⟨k, hk, ?_, ?_, ?_⟩
  · intro j hj
    have := hlt j hj
    rwa [List.map_take] at this
  · intro hk'
    have := hge hk'
    rwa [List.map_take] at this
  · unfold coinSelection
    simp only [heq, List.nil_append, sum64, List.map_take]

/-- A successful `coinSelection` took the first `k` outpoints of the sorted list. -/
theorem coinSelection_ok {T : Int} {m : OutputMap} {s : Int} {sel : List OutPoint}
    (h : coinSelection T m = ⟨s, some sel, none⟩) :
    ∃ k, k ≤ (sortedOutPoints m).length ∧ sel = (sortedOutPoints m).take k ∧
      s = sum64 (((sortedOutPoints m).map m.value).take k) ∧ T ≤ s ∧
      (∀ j, j < k → sum64 (((sortedOutPoints m).map m.value).take j) < T) := by
  obtain ⟨k, hk, hlt, _, heq⟩ := coinSelection_cases T m
  rw [h] at heq
  split at heq
  · simp at heq
  · rename_i hT
    simp only [Selection.mk.injEq, Option.some.injEq, and_true] at heq
    exact ⟨k, hk, heq.2, heq.1, by rw [heq.1]; omega, hlt⟩

/-! ## Lemmas: `coinSelection` as a function of the target -/

theorem coinSelection_err_none {T : Int} {m : OutputMap} (h : (coinSelection T m).err = none) :
    ∃ sel, coinSelection T m = ⟨(coinSelection T m).sum, some sel, none⟩ ∧
      (coinSelection T m).outPoints = some sel := by
  unfold coinSelection at h ⊢
  simp only at h ⊢
  split
  · rename_i hlt; rw [if_pos hlt] at h; simp at h
  · exact ⟨_, rfl, rfl⟩

theorem coinSelection_sum_eq {T : Int} {m : OutputMap} {s : Int} {sel : List OutPoint}
    (h : coinSelection T m = ⟨s, some sel, none⟩) : s = sum64 (sel.map m.value) := by
  obtain ⟨k, _, hsel, hs, _, _⟩ := coinSelection_ok h
  rw [hs, hsel, List.map_take]

/-- For non-negative values whose total is an `int64`, `coinSelection` fails exactly when the
total is below the target. -/
theorem coinSelection_err_iff (T : Int) (m : OutputMap)
    (hv : ∀ v ∈ m.values, 0 ≤ v) (hsum : m.values.sum ≤ maxInt64) :
    (m.values.sum < T → coinSelection T m = ⟨0, none, some errInsufficientFunds⟩) ∧
    (¬ m.values.sum < T → (coinSelection T m).err = none) := by
  obtain ⟨k, hk, hlt, hge, heq⟩ := coinSelection_cases T m
  have hp := sortedValues_perm m
  have hv' : ∀ v ∈ (sortedOutPoints m).map m.value, 0 ≤ v := fun v hv' => hv v (hp.subset hv')
  have hsum' : ((sortedOutPoints m).map m.value).sum ≤ maxInt64 := by rw [hp.sum_eq]; exact hsum
  rw [sum64_take_eq_sum hv' hsum'] at heq hge
  have hle := sum_take_le_sum hv' k
  rw [hp.sum_eq] at hle
  by_cases hT : (((sortedOutPoints m).map m.value).take k).sum < T
  · rw [if_pos hT] at heq
    have hkn : k = (sortedOutPoints m).length := by
      by_contra hne
      have := hge (by omega)
      omega
    have htot : m.values.sum < T := by
      rw [← hp.sum_eq]
      rw [hkn, ← List.length_map (sortedOutPoints m) m.value, List.take_length] at hT
      exact hT
    exact ⟨fun _ => heq, fun h => absurd htot h⟩
  · rw [if_neg hT] at heq
    exact ⟨fun h => by omega, fun _ => by rw [heq]⟩

theorem coinSelection_err_cases (T : Int) (m : OutputMap) :
    (coinSelection T m).err ≠ none → coinSelection T m = ⟨0, none, some errInsufficientFunds⟩ := by
  unfold coinSelection
  simp only
  split
  · intro _; rfl
  · intro h; simp at h

/-! ## Lemmas: canonical ordering -/

theorem InPlaceSort_TxOut_perm (tx : MsgTx) : (InPlaceSort tx).TxOut.Perm tx.TxOut :=
  sortBy_perm _ _

theorem InPlaceSort_TxIn_perm (tx : MsgTx) : (InPlaceSort tx).TxIn.Perm tx.TxIn :=
  sortBy_perm _ _

theorem InPlaceSort_TxOut_single (v : Int) (ins : List TxIn) (o : TxOut) (t : Nat) :
    (InPlaceSort ⟨v, ins, [o], t⟩).TxOut = [o] := rfl

/-! ## Lemmas: the fee loop and the completion of the transaction -/

/-- The loop of `NewTx` is left through line 110 only after a successful `coinSelection` whose
sum covers the payment and the fee recomputed for the number of its inputs. -/
theorem feeLoop_converged (env : Env) (sp : OutputMap) (out : TxOut) (feePerKb : Int) :
    ∀ (fuel : Nat) (targetFee : Int) (sum : Int) (sel : List OutPoint) (fee : Int),
      feeLoop env sp out feePerKb fuel targetFee = some (.converged sum sel fee) →
      ∃ tf, coinSelection (add64 out.Value tf) sp = ⟨sum, some sel, none⟩ ∧
        fee = env.fee feePerKb sel.length [out] true ∧ fee ≤ sub64 sum out.Value := by
  intro fuel
  induction fuel with
  | zero => intro tf sum sel fee h; simp [feeLoop] at h
  | succ fuel ih =>
    intro tf sum sel fee h
    unfold feeLoop at h
    simp only at h
    split at h
    · simp at h
    · rename_i herr
      obtain ⟨sel', hcs, hops⟩ := coinSelection_err_none herr
      split at h
      · exact ih _ _ _ _ h
      · rename_i hnlt
        simp only [Option.some.injEq, LoopExit.converged.injEq] at h
        obtain ⟨h1, h2, h3⟩ := h
        rw [hops] at h2 h3
        simp only [Option.getD_some] at h2 h3
        subst h2
        refine ⟨tf, ?_, ?_, ?_⟩
        · rw [← h1]; exact hcs
        · rw [← h3]; rfl
        · rw [← h3, ← h1]; rw [hops] at hnlt; simpa using hnlt

/-- The loop of `NewTx` is left through line 100 only with the error of `coinSelection`. -/
theorem feeLoop_failed (env : Env) (sp : OutputMap) (out : TxOut) (feePerKb : Int) :
    ∀ (fuel : Nat) (targetFee : Int) (e : Error),
      feeLoop env sp out feePerKb fuel targetFee = some (.failed e) →
      e = errInsufficientFunds := by
  intro fuel
  induction fuel with
  | zero => intro tf e h; simp [feeLoop] at h
  | succ fuel ih =>
    intro tf e h
    unfold feeLoop at h
    simp only at h
    split at h
    · rename_i e' herr
      have hne : (coinSelection (add64 out.Value tf) sp).err ≠ none := by rw [herr]; simp
      have := coinSelection_err_cases _ _ hne
      rw [this] at herr
      simp only [Option.some.injEq, LoopExit.failed.injEq] at h herr
      rw [← h, ← herr]
    · split at h
      · exact ih _ _ h
      · simp at h

/-- The first iteration fails when `coinSelection` fails for the seed fee. -/
theorem feeLoop_fail_first (env : Env) (sp : OutputMap) (out : TxOut) (feePerKb : Int)
    (fuel : Nat) (targetFee : Int)
    (h : coinSelection (add64 out.Value targetFee) sp = ⟨0, none, some errInsufficientFunds⟩) :
    feeLoop env sp out feePerKb (fuel + 1) targetFee = some (.failed errInsufficientFunds) := by
  unfold feeLoop
  simp only [h]

/-- The completion of the transaction when a change output is required. -/
theorem finishTx_change {σ : Type} (env : Env) (out : TxOut) (feePerKb : Int)
    (g : σ → (List Nat × Option Error) × σ) (s : σ) (sum : Int) (sel : List OutPoint)
    (fee : Int) (hc : changeAmount out sum fee ≠ 0)
    (hd : env.IsDustAmount (changeAmount out sum fee) env.P2PKHPkScriptSize feePerKb = false) :
    finishTx env out feePerKb g s sum sel fee =
      match (g s).1.2 with
      | some err => (⟨none, none, some err⟩, (g s).2)
      | none =>
        if (g s).1.1.length > env.P2PKHPkScriptSize then
          (⟨none, none, some errChangeScriptTooLarge⟩, (g s).2)
        else
          (⟨some (InPlaceSort ⟨TxVersion, sel.map NewTxIn,
            [out, NewTxOut (changeAmount out sum fee) (g s).1.1], 0⟩), some sel, none⟩, (g s).2) := by
  unfold finishTx
  simp only [hc, hd, ne_eq, not_false_eq_true, Bool.not_false, and_self, if_true]
  rfl

/-- The completion of the transaction when no change output is required. -/
theorem finishTx_no_change {σ : Type} (env : Env) (out : TxOut) (feePerKb : Int)
    (g : σ → (List Nat × Option Error) × σ) (s : σ) (sum : Int) (sel : List OutPoint)
    (fee : Int)
    (h : changeAmount out sum fee = 0 ∨
      env.IsDustAmount (changeAmount out sum fee) env.P2PKHPkScriptSize feePerKb = true) :
    finishTx env out feePerKb g s sum sel fee =
      (⟨some (InPlaceSort ⟨TxVersion, sel.map NewTxIn, [out], 0⟩), some sel, none⟩, s) := by
  unfold finishTx
  have : ¬ (changeAmount out sum fee ≠ 0 ∧
      (!env.IsDustAmount (changeAmount out sum fee) env.P2PKHPkScriptSize feePerKb) = true) := by
    rcases h with h | h
    · simp [h]
    · simp [h]
  simp only [this, if_false]

/-- Every successful `NewTx` comes from a successful `coinSelection` whose sum covers the
payment and the fee for its number of inputs, completed with or without a change output. -/
theorem NewTx_ok {σ : Type} {env : Env} {sp : OutputMap} {out : TxOut} {feePerKb : Int}
    {g : σ → (List Nat × Option Error) × σ} {s : σ} {fuel : Nat} {r : TxResult} {s' : σ}
    (h : NewTx env sp out feePerKb g s fuel = some (r, s')) (hr : r.err = none) :
    ∃ sum sel fee tf, coinSelection (add64 out.Value tf) sp = ⟨sum, some sel, none⟩ ∧
      fee = env.fee feePerKb sel.length [out] true ∧ fee ≤ sub64 sum out.Value ∧
      ((changeAmount out sum fee ≠ 0 ∧
          env.IsDustAmount (changeAmount out sum fee) env.P2PKHPkScriptSize feePerKb = false ∧
          (g s).1.2 = none ∧ (g s).1.1.length ≤ env.P2PKHPkScriptSize ∧
          r = ⟨some (InPlaceSort ⟨TxVersion, sel.map NewTxIn,
            [out, NewTxOut (changeAmount out sum fee) (g s).1.1], 0⟩), some sel, none⟩ ∧
          s' = (g s).2) ∨
        ((changeAmount out sum fee = 0 ∨
          env.IsDustAmount (changeAmount out sum fee) env.P2PKHPkScriptSize feePerKb = true) ∧
          r = ⟨some (InPlaceSort ⟨TxVersion, sel.map NewTxIn, [out], 0⟩), some sel, none⟩ ∧
          s' = s)) := by
  unfold NewTx at h
  simp only at h
  split at h
  · simp at h
  · simp only [Option.some.injEq, Prod.mk.injEq] at h
    rw [← h.1] at hr
    simp at hr
  · rename_i sum sel fee hloop
    obtain ⟨tf, hcs, hfee, hle⟩ := feeLoop_converged env sp out feePerKb _ _ _ _ _ hloop
    refine ⟨sum, sel, fee, tf, hcs, hfee, hle, ?_⟩
    simp only [Option.some.injEq] at h
    by_cases hc : changeAmount out sum fee = 0 ∨
        env.IsDustAmount (changeAmount out sum fee) env.P2PKHPkScriptSize feePerKb = true
    · right
      rw [finishTx_no_change env out feePerKb g s sum sel fee hc] at h
      simp only [Prod.mk.injEq] at h
      exact ⟨hc, h.1.symm, h.2.symm⟩
    · left
      have hc0 : changeAmount out sum fee ≠ 0 := fun h0 => hc (Or.inl h0)
      have hd : env.IsDustAmount (changeAmount out sum fee) env.P2PKHPkScriptSize feePerKb
          = false := by
        cases hb : env.IsDustAmount (changeAmount out sum fee) env.P2PKHPkScriptSize feePerKb
        · rfl
        · exact absurd (Or.inr hb) hc
      rw [finishTx_change env out feePerKb g s sum sel fee hc0 hd] at h
      split at h
      · simp only [Prod.mk.injEq] at h
        rw [← h.1] at hr
        simp at hr
      · rename_i hg
        split at h
        · simp only [Prod.mk.injEq] at h
          rw [← h.1] at hr
          simp at hr
        · rename_i hlen
          simp only [Prod.mk.injEq] at h
          exact ⟨hc0, hd, hg, by omega, h.1.symm, h.2.symm⟩

/-- The change is not negative when the fee is not. -/
theorem changeAmount_nonneg {out : TxOut} {sum fee : Int} (hfee : 0 ≤ fee)
    (hle : fee ≤ sub64 sum out.Value) :
    changeAmount out sum fee = sub64 sum out.Value - fee ∧ 0 ≤ changeAmount out sum fee := by
  have hin := inInt64_wrap64 (sum - out.Value)
  have heq : changeAmount out sum fee = sub64 sum out.Value - fee := by
    unfold changeAmount
    apply wrap64_eq_self
    unfold sub64 at hle ⊢
    unfold InInt64 minInt64 maxInt64 at hin ⊢
    omega
  exact ⟨heq, by omega⟩

/-- The change is the exact difference when the two subtractions of line 120 do not
overflow. -/
theorem changeAmount_exact {out : TxOut} {sum fee : Int} (h1 : InInt64 (sum - out.Value))
    (h2 : InInt64 (sum - out.Value - fee)) : changeAmount out sum fee = sum - out.Value - fee := by
  unfold changeAmount sub64
  rw [wrap64_eq_self h1, wrap64_eq_self h2]

/-- The outpoint list of a successful `NewTx` is that of its last `coinSelection`. -/
theorem NewTx_ok_sel {σ : Type} {env : Env} {sp : OutputMap} {out : TxOut} {feePerKb : Int}
    {g : σ → (List Nat × Option Error) × σ} {s : σ} {fuel : Nat} {r : TxResult} {s' : σ}
    {sel : List OutPoint}
    (h : NewTx env sp out feePerKb g s fuel = some (r, s')) (hr : r.err = none)
    (hsel : r.outPoints = some sel) :
    ∃ tx, r.tx = some tx ∧ tx.TxIn.Perm (sel.map NewTxIn) ∧
      env.fee feePerKb sel.length [out] true ≤ sub64 (sum64 (sel.map sp.value)) out.Value ∧
      ((tx.TxOut.Perm [out, NewTxOut
          (changeAmount out (sum64 (sel.map sp.value)) (env.fee feePerKb sel.length [out] true))
          (g s).1.1]) ∨
        (tx.TxOut = [out] ∧
          (changeAmount out (sum64 (sel.map sp.value)) (env.fee feePerKb sel.length [out] true)
              = 0 ∨
            env.IsDustAmount (changeAmount out (sum64 (sel.map sp.value))
              (env.fee feePerKb sel.length [out] true)) env.P2PKHPkScriptSize feePerKb
              = true))) := by
  obtain ⟨sum, sel', fee, tf, hcs, hfeeq, hle, hfin⟩ := NewTx_ok h hr
  have hs := coinSelection_sum_eq hcs
  rcases hfin with ⟨_, _, _, _, hr', _⟩ | ⟨hc, hr', _⟩
  · rw [hr'] at hsel
    simp only [Option.some.injEq] at hsel
    subst hsel
    rw [hs, hfeeq] at hle
    refine ⟨_, by rw [hr'], InPlaceSort_TxIn_perm _, hle, Or.inl ?_⟩
    rw [← hs, ← hfeeq]
    exact InPlaceSort_TxOut_perm _
  · rw [hr'] at hsel
    simp only [Option.some.injEq] at hsel
    subst hsel
    rw [hs, hfeeq] at hle hc
    exact ⟨InPlaceSort ⟨TxVersion, sel'.map NewTxIn, [out], 0⟩, by rw [hr'],
      InPlaceSort_TxIn_perm _, hle, Or.inr ⟨rfl, hc⟩⟩

theorem inputSum_of_perm (m : OutputMap) (tx : MsgTx) (sel : List OutPoint)
    (h : tx.TxIn.Perm (sel.map NewTxIn)) : inputSum m tx = (sel.map m.value).sum := by
  unfold inputSum
  rw [(h.map _).sum_eq, List.map_map]
  rfl

/-- The loop of `NewTx` for the payment of the largest `int64` is never left: the target wraps
around to a negative amount, the empty selection reaches it, and the fee of 56 for no input
is asked for again and again. -/
theorem feeLoop_paymentMax_none : ∀ fuel : Nat,
    feeLoop sampleEnv poorMap paymentMax 1000 fuel 56 = none ∧
    feeLoop sampleEnv poorMap paymentMax 1000 fuel 204 = none := by
  have h56 : coinSelection (add64 paymentMax.Value 56) poorMap = ⟨0, some [], none⟩ := by
    decide
  have h204 : coinSelection (add64 paymentMax.Value 204) poorMap = ⟨0, some [], none⟩ := by
    decide
  have hfee : sampleEnv.FeeForSerializeSize 1000
      (sampleEnv.EstimateSerializeSize ([] : List OutPoint).length [paymentMax] true) = 56 := by
    decide
  have hlt : sub64 0 paymentMax.Value < 56 := by decide
  intro fuel
  induction fuel with
  | zero => exact ⟨rfl, rfl⟩
  | succ fuel ih =>
    constructor
    · unfold feeLoop
      simp only [h56, Option.getD_some, hfee, hlt, if_true]
      exact ih.1
    · unfold feeLoop
      simp only [h204, Option.getD_some, hfee, hlt, if_true]
      exact ih.1

/-! ## Lemmas: the number of iterations of the fee loop -/

theorem feeLoopCalls_fst (env : Env) (sp : OutputMap) (out : TxOut) (feePerKb : Int) :
    ∀ (fuel : Nat) (tf : Int),
      (feeLoopCalls env sp out feePerKb fuel tf).map Prod.fst
        = feeLoop env sp out feePerKb fuel tf := by
  intro fuel
  induction fuel with
  | zero => intro tf; rfl
  | succ fuel ih =>
    intro tf
    unfold feeLoopCalls feeLoop
    simp only
    split
    · rfl
    · split
      · rw [Option.map_map, ← ih]
        rfl
      · rfl

theorem sortedOutPoints_length (m : OutputMap) : (sortedOutPoints m).length = m.length := by
  rw [sortedOutPoints, (sortBy_perm _ _).length_eq, OutputMap.keys, List.length_map]

/-- Exact form of `coinSelection_cases` for non-negative values whose total is an `int64`. -/
theorem coinSelection_cases_exact (T : Int) (m : OutputMap)
    (hv : ∀ v ∈ m.values, 0 ≤ v) (hsum : m.values.sum ≤ maxInt64) :
    ∃ k, k ≤ m.length ∧
      (∀ j, j < k → (((sortedOutPoints m).map m.value).take j).sum < T) ∧
      0 ≤ (((sortedOutPoints m).map m.value).take k).sum ∧
      (((sortedOutPoints m).map m.value).take k).sum ≤ maxInt64 ∧
      coinSelection T m =
        if (((sortedOutPoints m).map m.value).take k).sum < T then
          ⟨0, none, some errInsufficientFunds⟩
        else ⟨(((sortedOutPoints m).map m.value).take k).sum,
          some ((sortedOutPoints m).take k), none⟩ := by
  obtain ⟨k, hk, hlt, _, heq⟩ := coinSelection_cases T m
  have hp := sortedValues_perm m
  have hv' : ∀ v ∈ (sortedOutPoints m).map m.value, 0 ≤ v := fun v hv' => hv v (hp.subset hv')
  have hsum' : ((sortedOutPoints m).map m.value).sum ≤ maxInt64 := by rw [hp.sum_eq]; exact hsum
  simp only [sum64_take_eq_sum hv' hsum'] at hlt heq
  rw [sortedOutPoints_length] at hk
  refine ⟨k, hk, hlt, ?_, ?_, heq⟩
  · exact List.sum_nonneg fun v hv'' => hv' v (List.mem_of_mem_take hv'')
  · exact le_trans (sum_take_le_sum hv' k) hsum'

theorem sum_take_mono {l : List Int} (hv : ∀ v ∈ l, 0 ≤ v) {j k : Nat} (hjk : j ≤ k) :
    (l.take j).sum ≤ (l.take k).sum := by
  have h := sum_take_le_sum (l := l.take k) (fun v hv' => hv v (List.mem_of_mem_take hv')) j
  rw [List.take_take, min_eq_left hjk] at h
  exact h

/-- One iteration of the loop of `NewTx` in exact arithmetic: it fails, or it selects `k`
outpoints and settles, or it selects `k` outpoints whose sum is below the payment plus the fee
for `k` inputs and goes on with that fee. -/
theorem feeLoopCalls_step (env : Env) (sp : OutputMap) (out : TxOut) (feePerKb : Int)
    (hv : ∀ v ∈ sp.values, 0 ≤ v) (hsum : sp.values.sum ≤ maxInt64)
    (ht0 : 0 ≤ out.Value) (ht1 : out.Value ≤ maxInt64)
    (fuel : Nat) (tf : Int) (htf : InInt64 (out.Value + tf)) :
    (∃ e, feeLoopCalls env sp out feePerKb (fuel + 1) tf = some (e, 1)) ∨
    ∃ k, k ≤ sp.length ∧
      (∀ j, j < k → (((sortedOutPoints sp).map sp.value).take j).sum < out.Value + tf) ∧
      out.Value + tf ≤ (((sortedOutPoints sp).map sp.value).take k).sum ∧
      (((sortedOutPoints sp).map sp.value).take k).sum
        < out.Value + env.fee feePerKb k [out] true ∧
      feeLoopCalls env sp out feePerKb (fuel + 1) tf
        = (feeLoopCalls env sp out feePerKb fuel (env.fee feePerKb k [out] true)).map
          fun p => (p.1, p.2 + 1) := by
  obtain ⟨k, hk, hlt, hp0, hp1, heq⟩ :=
    coinSelection_cases_exact (out.Value + tf) sp hv hsum
  have hadd : add64 out.Value tf = out.Value + tf := wrap64_eq_self htf
  have hlen : ((sortedOutPoints sp).take k).length = k := by
    rw [List.length_take, sortedOutPoints_length]; omega
  have hsub : sub64 (((sortedOutPoints sp).map sp.value).take k).sum out.Value
      = (((sortedOutPoints sp).map sp.value).take k).sum - out.Value := by
    apply wrap64_eq_self
    unfold InInt64 minInt64
    unfold maxInt64 at hp1 ht1 ⊢
    omega
  by_cases hT : (((sortedOutPoints sp).map sp.value).take k).sum < out.Value + tf
  · rw [if_pos hT] at heq
    left
    refine ⟨.failed errInsufficientFunds, ?_⟩
    unfold feeLoopCalls
    simp only [hadd, heq]
  · rw [if_neg hT] at heq
    by_cases hc : (((sortedOutPoints sp).map sp.value).take k).sum - out.Value
        < env.fee feePerKb k [out] true
    · right
      refine ⟨k, hk, hlt, by omega, by omega, ?_⟩
      conv_lhs => unfold feeLoopCalls
      simp only [hadd, heq, Option.getD_some, hlen, hsub]
      unfold Env.fee at hc ⊢
      rw [if_pos hc]
    · left
      refine ⟨.converged (((sortedOutPoints sp).map sp.value).take k).sum
        ((sortedOutPoints sp).take k) (env.fee feePerKb k [out] true), ?_⟩
      unfold feeLoopCalls
      simp only [hadd, heq, Option.getD_some, hlen, hsub]
      unfold Env.fee at hc ⊢
      rw [if_neg hc]

/-- The loop of `NewTx` is left after at most `d + 1` calls of `coinSelection` when every
selection of fewer than `kLow` outpoints is known to be too small and `kLow + d` exceeds the
number of outputs. -/
theorem feeLoopCalls_bound (env : Env) (sp : OutputMap) (out : TxOut) (feePerKb : Int)
    (hv : ∀ v ∈ sp.values, 0 ≤ v) (hsum : sp.values.sum ≤ maxInt64)
    (ht0 : 0 ≤ out.Value) (ht1 : out.Value ≤ maxInt64)
    (hfee : ∀ n, n ≤ sp.length → InInt64 (out.Value + env.fee feePerKb n [out] true)) :
    ∀ (d kLow : Nat) (tf : Int) (fuel : Nat), sp.length + 1 ≤ kLow + d →
      InInt64 (out.Value + tf) →
      (∀ j, j < kLow → j ≤ sp.length →
        (((sortedOutPoints sp).map sp.value).take j).sum < out.Value + tf) →
      d + 1 ≤ fuel →
      ∃ e c, feeLoopCalls env sp out feePerKb fuel tf = some (e, c) ∧ c ≤ d + 1 := by
  have hp := sortedValues_perm sp
  have hv' : ∀ v ∈ (sortedOutPoints sp).map sp.value, 0 ≤ v :=
    fun v hv' => hv v (hp.subset hv')
  intro d
  induction d with
  | zero =>
    intro kLow tf fuel hd htf hlow hfuel
    obtain ⟨f, rfl⟩ : ∃ f, fuel = f + 1 := ⟨fuel - 1, by omega⟩
    rcases feeLoopCalls_step env sp out feePerKb hv hsum ht0 ht1 f tf htf with
      ⟨e, he⟩ | ⟨k, hk, _, hge, _, _⟩
    · exact ⟨e, 1, he, le_refl _⟩
    · have := hlow k (by omega) hk
      omega
  | succ d ih =>
    intro kLow tf fuel hd htf hlow hfuel
    obtain ⟨f, rfl⟩ : ∃ f, fuel = f + 1 := ⟨fuel - 1, by omega⟩
    rcases feeLoopCalls_step env sp out feePerKb hv hsum ht0 ht1 f tf htf with
      ⟨e, he⟩ | ⟨k, hk, _, hge, hcont, heq⟩
    · exact ⟨e, 1, he, by omega⟩
    · have hkl : kLow ≤ k := by
        by_contra hcon
        have := hlow k (by omega) hk
        omega
      obtain ⟨e, c, hec, hc⟩ := ih (k + 1) (env.fee feePerKb k [out] true) f (by omega)
        (hfee k hk)
        (fun j hj _ => lt_of_le_of_lt (sum_take_mono hv' (by omega)) hcont) (by omega)
      refine ⟨e, c + 1, ?_, by omega⟩
      rw [heq, hec]
      rfl

theorem NewTx_isSome_of_feeLoopCalls {σ : Type} (env : Env) (sp : OutputMap) (out : TxOut)
    (feePerKb : Int) (g : σ → (List Nat × Option Error) × σ) (s : σ) (fuel : Nat)
    (e : LoopExit) (c : Nat)
    (h : feeLoopCalls env sp out feePerKb fuel (env.fee feePerKb 1 [out] true) = some (e, c)) :
    ∃ r, NewTx env sp out feePerKb g s fuel = some r := by
  have h1 := feeLoopCalls_fst env sp out feePerKb fuel (env.fee feePerKb 1 [out] true)
  rw [h] at h1
  simp only [Option.map_some'] at h1
  unfold NewTx
  simp only [← h1]
  cases e with
  | failed err => exact ⟨_, rfl⟩
  | converged a b c => exact ⟨_, rfl⟩

/-! ## Lemmas: the canonical order is a total order -/

theorem bytesLess_irrefl : ∀ a : List Nat, bytesLess a a = false := by
  intro a
  induction a with
  | nil => rfl
  | cons x l ih => simp [bytesLess, ih]

theorem bytesLess_asymm : ∀ a b : List Nat, bytesLess a b = true → bytesLess b a = false := by
  intro a
  induction a with
  | nil => intro b _; cases b <;> rfl
  | cons x l ih =>
    intro b h
    cases b with
    | nil => simp [bytesLess] at h
    | cons y l' =>
      unfold bytesLess at h ⊢
      by_cases hxy : x < y
      · have hyx : ¬ y < x := by omega
        simp [hxy, hyx]
      · by_cases hyx : y < x
        · simp [hxy, hyx] at h
        · simp only [hxy, hyx, if_false] at h ⊢
          exact ih l' h

theorem bytesLess_total : ∀ a b : List Nat, bytesLess a b = false → bytesLess b a = false →
    a = b := by
  intro a
  induction a with
  | nil =>
    intro b h _
    cases b with
    | nil => rfl
    | cons y l' => simp [bytesLess] at h
  | cons x l ih =>
    intro b h1 h2
    cases b with
    | nil => simp [bytesLess] at h2
    | cons y l' =>
      unfold bytesLess at h1 h2
      by_cases hxy : x < y
      · simp [hxy] at h1
      · by_cases hyx : y < x
        · simp [hyx] at h2
        · simp only [hxy, hyx, if_false] at h1 h2
          have hx : x = y := by omega
          rw [hx, ih l' h1 h2]

theorem bytesLess_trans : ∀ a b c : List Nat, bytesLess a b = true → bytesLess b c = true →
    bytesLess a c = true := by
  intro a
  induction a with
  | nil =>
    intro b c h1 h2
    cases c with
    | nil => cases b <;> simp [bytesLess] at h2
    | cons z l'' => rfl
  | cons x l ih =>
    intro b c h1 h2
    cases b with
    | nil => simp [bytesLess] at h1
    | cons y l' =>
      cases c with
      | nil => simp [bytesLess] at h2
      | cons z l'' =>
        unfold bytesLess at h1 h2 ⊢
        by_cases hxy : x < y
        · by_cases hyz : y < z
          · have : x < z := by omega
            simp [this]
          · by_cases hzy : z < y
            · simp [hyz, hzy] at h2
            · have : x < z := by omega
              simp [this]
        · by_cases hyx : y < x
          · simp [hxy, hyx] at h1
          · simp only [hxy, hyx, if_false] at h1
            have hx : x = y := by omega
            subst hx
            by_cases hyz : x < z
            · simp [hyz]
            · by_cases hzy : z < x
              · simp [hyz, hzy] at h2
              · simp only [hyz, hzy, if_false] at h2 ⊢
                exact ih l' l'' h1 h2

/-- Negative transitivity of the order on byte strings. -/
theorem bytesLess_neg_trans (a b c : List Nat) (h1 : bytesLess b a = false)
    (h2 : bytesLess c b = false) : bytesLess c a = false := by
  cases hca : bytesLess c a with
  | false => rfl
  | true =>
    cases hab : bytesLess a b with
    | true =>
      have := bytesLess_trans c a b hca hab
      rw [this] at h2
      exact absurd h2 (by simp)
    | false =>
      have hab' : a = b := bytesLess_total a b hab h1
      rw [hab'] at hca
      rw [hca] at h2
      exact absurd h2 (by simp)

theorem inputLess_asymm (a b : TxIn) (h : inputLess a b = true) : inputLess b a = false := by
  unfold inputLess at h ⊢
  by_cases hh : a.PreviousOutPoint.Hash = b.PreviousOutPoint.Hash
  · simp only [hh, if_true, decide_eq_true_eq, decide_eq_false_iff_not] at h ⊢
    omega
  · have hh' : ¬ b.PreviousOutPoint.Hash = a.PreviousOutPoint.Hash := fun e => hh e.symm
    simp only [hh, hh', if_false] at h ⊢
    exact bytesLess_asymm _ _ h

theorem inputLess_neg_trans (a b c : TxIn) (h1 : inputLess b a = false)
    (h2 : inputLess c b = false) : inputLess c a = false := by
  unfold inputLess at h1 h2 ⊢
  by_cases hba : b.PreviousOutPoint.Hash = a.PreviousOutPoint.Hash
  · by_cases hcb : c.PreviousOutPoint.Hash = b.PreviousOutPoint.Hash
    · have hca : c.PreviousOutPoint.Hash = a.PreviousOutPoint.Hash := hcb.trans hba
      simp only [hba, hcb, hca, if_true, decide_eq_false_iff_not] at h1 h2 ⊢
      omega
    · have hca : ¬ c.PreviousOutPoint.Hash = a.PreviousOutPoint.Hash :=
        fun e => hcb (e.trans hba.symm)
      simp only [hcb, hca, if_false] at h2 ⊢
      rw [← hba]; exact h2
  · by_cases hcb : c.PreviousOutPoint.Hash = b.PreviousOutPoint.Hash
    · have hca : ¬ c.PreviousOutPoint.Hash = a.PreviousOutPoint.Hash :=
        fun e => hba (hcb.symm.trans e)
      simp only [hba, hca, if_false] at h1 ⊢
      rw [hcb]; exact h1
    · simp only [hba, hcb, if_false] at h1 h2
      have h3 := bytesLess_neg_trans _ _ _ h1 h2
      by_cases hca : c.PreviousOutPoint.Hash = a.PreviousOutPoint.Hash
      · exfalso
        rw [hca] at h2
        have := bytesLess_total _ _ h2 h1
        exact hba this.symm
      · simp only [hca, if_false]
        exact h3

theorem outputLess_asymm (a b : TxOut) (h : outputLess a b = true) : outputLess b a = false := by
  unfold outputLess at h ⊢
  by_cases hv : a.Value = b.Value
  · simp only [hv, if_true] at h ⊢
    exact bytesLess_asymm _ _ h
  · have hv' : ¬ b.Value = a.Value := fun e => hv e.symm
    simp only [hv, hv', if_false, decide_eq_true_eq, decide_eq_false_iff_not] at h ⊢
    omega

theorem outputLess_neg_trans (a b c : TxOut) (h1 : outputLess b a = false)
    (h2 : outputLess c b = false) : outputLess c a = false := by
  unfold outputLess at h1 h2 ⊢
  by_cases hba : b.Value = a.Value
  · by_cases hcb : c.Value = b.Value
    · have hca : c.Value = a.Value := hcb.trans hba
      simp only [hba, hcb, hca, if_true] at h1 h2 ⊢
      exact bytesLess_neg_trans _ _ _ h1 h2
    · have hca : ¬ c.Value = a.Value := fun e => hcb (e.trans hba.symm)
      simp only [hcb, hca, if_false, decide_eq_false_iff_not] at h2 ⊢
      omega
  · by_cases hcb : c.Value = b.Value
    · have hca : ¬ c.Value = a.Value := fun e => hba (hcb.symm.trans e)
      simp only [hba, hca, if_false, decide_eq_false_iff_not] at h1 ⊢
      omega
    · simp only [hba, hcb, if_false, decide_eq_false_iff_not] at h1 h2
      have hca : ¬ c.Value = a.Value := by omega
      simp only [hca, if_false, decide_eq_false_iff_not]
      omega

/-- A list in which no element is `less` than an earlier one passes `sort.IsSorted`. -/
theorem isSortedBy_of_pairwise {α : Type} (less : α → α → Bool) :
    ∀ l : List α, l.Pairwise (fun a b => (!less b a) = true) → isSortedBy less l = true := by
  intro l
  induction l with
  | nil => intro _; rfl
  | cons a l ih =>
    intro h
    cases l with
    | nil => rfl
    | cons b l =>
      rw [List.pairwise_cons] at h
      unfold isSortedBy
      rw [h.1 b (List.mem_cons_self _ _), ih h.2]
      rfl

theorem sortBy_inputs_pairwise (l : List TxIn) :
    (sortBy (fun a b => !inputLess b a) l).Pairwise (fun a b => (!inputLess b a) = true) := by
  apply sortBy_pairwise (fun a b => !inputLess b a)
  · intro a b
    cases h : inputLess b a with
    | false => left; rfl
    | true => right; simp [inputLess_asymm b a h]
  · intro a b c h1 h2
    simp only [Bool.not_eq_true'] at h1 h2 ⊢
    exact inputLess_neg_trans a b c h1 h2

theorem sortBy_outputs_pairwise (l : List TxOut) :
    (sortBy (fun a b => !outputLess b a) l).Pairwise (fun a b => (!outputLess b a) = true) := by
  apply sortBy_pairwise (fun a b => !outputLess b a)
  · intro a b
    cases h : outputLess b a with
    | false => left; rfl
    | true => right; simp [outputLess_asymm b a h]
  · intro a b c h1 h2
    simp only [Bool.not_eq_true'] at h1 h2 ⊢
    exact outputLess_neg_trans a b c h1 h2

/-- What `txsort.InPlaceSort` returns passes `txsort.IsSorted`. -/
theorem IsSorted_InPlaceSort (tx : MsgTx) : IsSorted (InPlaceSort tx) = true := by
  unfold IsSorted InPlaceSort
  simp only [Bool.and_eq_true]
  exact ⟨isSortedBy_of_pairwise _ _ (sortBy_inputs_pairwise _),
    isSortedBy_of_pairwise _ _ (sortBy_outputs_pairwise _)⟩

/-! ## Lemmas: `NewTxSpendAll` and the inputs of built transactions -/

theorem keys_length (m : OutputMap) : m.keys.length = m.length := by
  rw [OutputMap.keys, List.length_map]

/-- The two ways in which `NewTxSpendAll` returns. -/
theorem NewTxSpendAll_eq (env : Env) (sp : OutputMap) (script : List Nat) (feePerKb : Int) :
    NewTxSpendAll env sp script feePerKb =
      if sum64 (sp.map fun entry => entry.2.Value)
          < env.fee feePerKb sp.length [NewTxOut 0 script] false then
        ⟨0, none, none, some errInsufficientFundsForFee⟩
      else
        ⟨sub64 (sum64 (sp.map fun entry => entry.2.Value))
            (env.fee feePerKb sp.length [NewTxOut 0 script] false),
          some (InPlaceSort ⟨TxVersion, sp.keys.map NewTxIn,
            [NewTxOut (sub64 (sum64 (sp.map fun entry => entry.2.Value))
              (env.fee feePerKb sp.length [NewTxOut 0 script] false)) script], 0⟩),
          some sp.keys, none⟩ := by
  unfold NewTxSpendAll Env.fee
  simp only [keys_length]
  rfl

theorem map_PreviousOutPoint_NewTxIn (l : List OutPoint) :
    (l.map NewTxIn).map TxIn.PreviousOutPoint = l := by
  induction l with
  | nil => rfl
  | cons o l ih => simp only [List.map_cons, ih]; rfl

theorem InPlaceSort_TxOut_single_eq (tx : MsgTx) (o : TxOut) (h : tx.TxOut = [o]) :
    (InPlaceSort tx).TxOut = [o] := by
  unfold InPlaceSort
  simp only [h]
  rfl

theorem coinSelection_sublist {T : Int} {m : OutputMap} {s : Int} {sel : List OutPoint}
    (h : coinSelection T m = ⟨s, some sel, none⟩) : sel.Sublist (sortedOutPoints m) := by
  obtain ⟨k, _, hsel, _, _, _⟩ := coinSelection_ok h
  rw [hsel]; exact List.take_sublist _ _

/-- The transaction of a successful `NewTx` is the sorted draft built from the selection. -/
theorem NewTx_ok_tx {σ : Type} {env : Env} {sp : OutputMap} {out : TxOut} {feePerKb : Int}
    {g : σ → (List Nat × Option Error) × σ} {s : σ} {fuel : Nat} {r : TxResult} {s' : σ}
    (h : NewTx env sp out feePerKb g s fuel = some (r, s')) (hr : r.err = none) :
    ∃ sel outs, sel.Sublist (sortedOutPoints sp) ∧
      r = ⟨some (InPlaceSort ⟨TxVersion, sel.map NewTxIn, outs, 0⟩), some sel, none⟩ := by
  obtain ⟨sum, sel, fee, tf, hcs, _, _, hfin⟩ := NewTx_ok h hr
  rcases hfin with ⟨_, _, _, _, hr', _⟩ | ⟨_, hr', _⟩
  · exact ⟨sel, _, coinSelection_sublist hcs, hr'⟩
  · exact ⟨sel, _, coinSelection_sublist hcs, hr'⟩

/-- A transaction other than `nil` is returned by `NewTx` only without error. -/
theorem NewTx_err_of_tx {σ : Type} {env : Env} {sp : OutputMap} {out : TxOut} {feePerKb : Int}
    {g : σ → (List Nat × Option Error) × σ} {s : σ} {fuel : Nat} {r : TxResult} {s' : σ}
    {tx : MsgTx} (h : NewTx env sp out feePerKb g s fuel = some (r, s'))
    (htx : r.tx = some tx) : r.err = none := by
  unfold NewTx at h
  simp only at h
  split at h
  · simp at h
  · simp only [Option.some.injEq, Prod.mk.injEq] at h
    rw [← h.1] at htx; simp at htx
  · rename_i sum sel fee hloop
    simp only [Option.some.injEq] at h
    by_cases hc : changeAmount out sum fee = 0 ∨
        env.IsDustAmount (changeAmount out sum fee) env.P2PKHPkScriptSize feePerKb = true
    · rw [finishTx_no_change env out feePerKb g s sum sel fee hc] at h
      simp only [Prod.mk.injEq] at h
      rw [← h.1]
    · have hc0 : changeAmount out sum fee ≠ 0 := fun h0 => hc (Or.inl h0)
      have hd : env.IsDustAmount (changeAmount out sum fee) env.P2PKHPkScriptSize feePerKb
          = false := by
        cases hb : env.IsDustAmount (changeAmount out sum fee) env.P2PKHPkScriptSize feePerKb
        · rfl
        · exact absurd (Or.inr hb) hc
      rw [finishTx_change env out feePerKb g s sum sel fee hc0 hd] at h
      split at h
      · simp only [Prod.mk.injEq] at h
        rw [← h.1] at htx; simp at htx
      · split at h
        · simp only [Prod.mk.injEq] at h
          rw [← h.1] at htx; simp at htx
        · simp only [Prod.mk.injEq] at h
          rw [← h.1]

theorem sortedOutPoints_nodup (m : OutputMap) (h : m.keys.Nodup) : (sortedOutPoints m).Nodup :=
  (sortBy_perm _ m.keys).nodup_iff.2 h

/-! ## Lemmas: `SignTransaction` -/

theorem sigHashEvent_isHashing (index : Nat) (p : PrevOut) :
    (sigHashEvent index p).isHashing = true := by
  unfold sigHashEvent
  split <;> rfl

/-- The loop of lines 25-49 on aligned lists: either every remaining hash is computed and the
hash and the key path of each input are appended in order, or the loop returns the error of a
hash computation. -/
theorem hashLoop_cases (env : SignEnv) (tx : MsgTx) (prev : List PrevOut) (sh : TxSigHashes) :
    ∀ (remaining : List TxIn) (index : Nat) (hs : List (List Nat)) (ks : List String)
      (tr : List Event), index + remaining.length = prev.length →
      (∃ hs' ks' tr', hashLoop env tx prev sh remaining index hs ks tr
          = .done (hs ++ hs') (ks ++ ks') (tr ++ tr') ∧
        hs'.length = remaining.length ∧ ks'.length = remaining.length ∧
        (∀ j p, prev[index + j]? = some p →
          hs'[j]? = some (sigHash env sh tx (index + j) p).1 ∧
          ks'[j]? = some p.Address.KeyPath) ∧
        (∀ e ∈ tr', e.isHashing = true) ∧
        (∀ j p, index ≤ j → prev[j]? = some p → (sigHash env sh tx j p).2 = none)) ∨
      (∃ err tr', hashLoop env tx prev sh remaining index hs ks tr
          = .stopped (.returned (some err)) (tr ++ tr') ∧
        (∀ e ∈ tr', e.isHashing = true) ∧
        ∃ j p, index ≤ j ∧ prev[j]? = some p ∧ (sigHash env sh tx j p).2 = some err) := by
  intro remaining
  induction remaining with
  | nil =>
    intro index hs ks tr hlen
    left
    refine ⟨[], [], [], by simp [hashLoop], rfl, rfl, ?_, by simp, ?_⟩
    · intro j p hp
      have : prev[index + j]? = none := List.getElem?_eq_none (by simp at hlen; omega)
      rw [this] at hp
      simp at hp
    · intro j p hj hp
      have : prev[j]? = none := List.getElem?_eq_none (by simp at hlen; omega)
      rw [this] at hp
      simp at hp
  | cons i remaining ih =>
    intro index hs ks tr hlen
    have hlt : index < prev.length := by simp at hlen; omega
    have hget : prev[index]? = some prev[index] := List.getElem?_eq_getElem hlt
    cases herr : (sigHash env sh tx index prev[index]).2 with
    | some err =>
      right
      refine ⟨err, [sigHashEvent index prev[index]], ?_, ?_, index, prev[index], le_refl _,
        hget, herr⟩
      · unfold hashLoop
        simp only [hget, herr]
      · intro e he
        simp only [List.mem_singleton] at he
        rw [he]
        exact sigHashEvent_isHashing _ _
    | none =>
      have hstep : hashLoop env tx prev sh (i :: remaining) index hs ks tr
          = hashLoop env tx prev sh remaining (index + 1)
            (hs ++ [(sigHash env sh tx index prev[index]).1])
            (ks ++ [prev[index].Address.KeyPath])
            (tr ++ [sigHashEvent index prev[index]]) := by
        conv_lhs => unfold hashLoop
        simp only [hget, herr]
      rcases ih (index + 1) (hs ++ [(sigHash env sh tx index prev[index]).1])
          (ks ++ [prev[index].Address.KeyPath]) (tr ++ [sigHashEvent index prev[index]])
          (by simp at hlen ⊢; omega) with
        ⟨hs', ks', tr', heq, hl1, hl2, hidx, hev, hok⟩ | ⟨err, tr', heq, hev, j, p, hj, hp, he⟩
      · left
        refine ⟨(sigHash env sh tx index prev[index]).1 :: hs',
          prev[index].Address.KeyPath :: ks', sigHashEvent index prev[index] :: tr', ?_, ?_, ?_,
          ?_, ?_, ?_⟩
        · rw [hstep, heq]
          simp only [List.append_assoc, List.singleton_append]
        · simp [hl1]
        · simp [hl2]
        · intro j p hp
          cases j with
          | zero =>
            simp only [Nat.add_zero] at hp ⊢
            rw [hget] at hp
            simp only [Option.some.injEq] at hp
            subst hp
            simp
          | succ j =>
            have hp' : prev[index + 1 + j]? = some p := by
              rw [← hp]; congr 1; omega
            have := hidx j p hp'
            have harith : index + 1 + j = index + (j + 1) := by omega
            rw [harith] at this
            simpa using this
        · intro e he
          rcases List.mem_cons.1 he with rfl | he
          · exact sigHashEvent_isHashing _ _
          · exact hev e he
        · intro j p hj hp
          rcases Nat.eq_or_lt_of_le hj with rfl | hlt'
          · rw [hget] at hp
            simp only [Option.some.injEq] at hp
            subst hp
            exact herr
          · exact hok j p hlt' hp
      · right
        refine ⟨err, sigHashEvent index prev[index] :: tr', ?_, ?_, j, p, by omega, hp, he⟩
        · rw [hstep, heq]
          simp only [List.append_assoc, List.singleton_append]
        · intro e he'
          rcases List.mem_cons.1 he' with rfl | he'
          · exact sigHashEvent_isHashing _ _
          · exact hev e he'

theorem engineLoop_isEngine (env : SignEnv) (tx : MsgTx) (prev : List PrevOut)
    (sh : TxSigHashes) : ∀ (remaining : List TxIn) (index : Nat),
      ∀ e ∈ (engineLoop env tx prev sh remaining index).2, e.isEngine = true := by
  intro remaining
  induction remaining with
  | nil => intro index e he; simp [engineLoop] at he
  | cons i remaining ih =>
    intro index e he
    unfold engineLoop at he
    split at he
    · simp at he
    · simp only at he
      split at he
      · simp only [List.mem_singleton] at he; rw [he]; rfl
      · split at he
        · simp only [List.mem_cons, List.mem_singleton, List.not_mem_nil, or_false] at he
          rcases he with rfl | rfl <;> rfl
        · simp only [List.cons_append, List.nil_append, List.mem_cons] at he
          rcases he with rfl | rfl | he
          · rfl
          · rfl
          · exact ih _ e he

theorem txValidityCheck_isEngine (env : SignEnv) (tx : MsgTx) (prev : List PrevOut)
    (sh : TxSigHashes) : ∀ e ∈ (txValidityCheck env tx prev sh).2, e.isEngine = true := by
  intro e he
  unfold txValidityCheck at he
  split at he
  · simp at he
  · exact engineLoop_isEngine env tx prev sh _ _ e he

/-- Line 19: lists of different lengths make `SignTransaction` panic at once. -/
theorem SignTransaction_mismatch (env : SignEnv)
    (sign : List (List Nat) → List String → List (List Nat) × Option Error) (tx : MsgTx)
    (prev : List PrevOut) (h : prev.length ≠ tx.TxIn.length) :
    SignTransaction env sign tx prev = ⟨.panicked panicOutputInputMismatch, tx, []⟩ := by
  unfold SignTransaction
  rw [if_pos h]

/-- After the signer has answered, the transaction is changed only if no error is returned,
the trace grows by calls of the script engine only, and an error is returned only if the signer
answered with it. -/
theorem afterSign_spec (env : SignEnv) (tx : MsgTx) (prev : List PrevOut) (sh : TxSigHashes)
    (answer : List (List Nat) × Option Error) (trace : List Event) :
    (∃ tr', (afterSign env tx prev sh answer trace).trace = trace ++ tr' ∧
      ∀ e ∈ tr', e.isEngine = true) ∧
    (∀ err, (afterSign env tx prev sh answer trace).outcome = .returned (some err) →
      answer.2 = some err ∧ (afterSign env tx prev sh answer trace).transaction = tx) ∧
    (∀ err, answer.2 = some err →
      afterSign env tx prev sh answer trace = ⟨.returned (some err), tx, trace⟩) ∧
    (answer.2 = none → answer.1.length ≠ tx.TxIn.length →
      afterSign env tx prev sh answer trace = ⟨.panicked panicSignatureCount, tx, trace⟩) := by
  refine ⟨?_, ?_, ?_, ?_⟩
  · unfold afterSign
    split
    · exact ⟨[], by simp, by simp⟩
    · split
      · exact ⟨[], by simp, by simp⟩
      · simp only
        split
        · exact ⟨[], by simp, by simp⟩
        · split
          · exact ⟨_, rfl, txValidityCheck_isEngine _ _ _ _⟩
          · exact ⟨_, rfl, txValidityCheck_isEngine _ _ _ _⟩
          · exact ⟨_, rfl, txValidityCheck_isEngine _ _ _ _⟩
  · intro err h
    unfold afterSign at h ⊢
    split at h
    · rename_i e he
      simp only [Outcome.returned.injEq, Option.some.injEq] at h
      rw [he]
      exact ⟨by rw [h], by simp [he]⟩
    · exfalso
      split at h
      · simp at h
      · simp only at h
        split at h
        · simp at h
        · split at h <;> simp at h
  · intro err h
    unfold afterSign
    simp only [h]
  · intro h hlen
    unfold afterSign
    simp only [h, hlen, ne_eq, not_false_eq_true, if_true]

/-- The batch of hashes and key paths that goes to the signer, and what `SignTransaction`
does on aligned lists: it returns the error of a hash computation without calling the signer,
or it calls the signer with the batch and goes on with lines 51-66. -/
theorem SignTransaction_cases (env : SignEnv)
    (sign : List (List Nat) → List String → List (List Nat) × Option Error) (tx : MsgTx)
    (prev : List PrevOut) (h : prev.length = tx.TxIn.length) :
    (∃ hs ks tr, SignTransaction env sign tx prev
        = afterSign env tx prev (env.NewTxSigHashes tx) (sign hs ks)
          ((Event.sigHashes :: tr) ++ [Event.sign hs ks]) ∧
      hs.length = tx.TxIn.length ∧ ks.length = tx.TxIn.length ∧
      (∀ j p, prev[j]? = some p →
        hs[j]? = some (sigHash env (env.NewTxSigHashes tx) tx j p).1 ∧
        ks[j]? = some p.Address.KeyPath) ∧
      (∀ e ∈ tr, e.isHashing = true) ∧
      (∀ j p, prev[j]? = some p → (sigHash env (env.NewTxSigHashes tx) tx j p).2 = none)) ∨
    (∃ err tr, SignTransaction env sign tx prev
        = ⟨.returned (some err), tx, Event.sigHashes :: tr⟩ ∧
      (∀ e ∈ tr, e.isHashing = true) ∧
      ∃ j p, prev[j]? = some p ∧ (sigHash env (env.NewTxSigHashes tx) tx j p).2 = some err) := by
  have hne : ¬ prev.length ≠ tx.TxIn.length := fun hn => hn h
  rcases hashLoop_cases env tx prev (env.NewTxSigHashes tx) tx.TxIn 0 [] [] [.sigHashes]
      (by omega) with
    ⟨hs, ks, tr, heq, hl1, hl2, hidx, hev, hok⟩ | ⟨err, tr, heq, hev, j, p, _, hp, he⟩
  · left
    refine ⟨hs, ks, tr, ?_, hl1, hl2, ?_, hev, ?_⟩
    · unfold SignTransaction
      rw [if_neg hne]
      simp only [heq, List.nil_append, List.singleton_append]
    · intro j p hp
      have := hidx j p (by simpa using hp)
      simpa using this
    · intro j p hp
      exact hok j p (Nat.zero_le _) hp
  · right
    refine ⟨err, tr, ?_, hev, j, p, hp, he⟩
    unfold SignTransaction
    rw [if_neg hne]
    simp only [heq, List.singleton_append]

theorem isHashing_not_isSign {e : Event} (h : e.isHashing = true) : e.isSign = false := by
  cases e <;> simp [Event.isHashing] at h <;> rfl

theorem isEngine_not_isSign {e : Event} (h : e.isEngine = true) : e.isSign = false := by
  cases e <;> simp [Event.isEngine] at h <;> rfl

theorem filter_isSign_eq_nil {l : List Event} (h : ∀ e ∈ l, e.isSign = false) :
    l.filter Event.isSign = [] := by
  rw [List.filter_eq_nil_iff]
  intro e he
  rw [h e he]
  simp

/-- The trace of `SignTransaction` on aligned lists whose hashes are all computed. -/
theorem SignTransaction_trace (env : SignEnv)
    (sign : List (List Nat) → List String → List (List Nat) × Option Error) (tx : MsgTx)
    (prev : List PrevOut) (hs : List (List Nat)) (ks : List String) (tr : List Event)
    (h : SignTransaction env sign tx prev
      = afterSign env tx prev (env.NewTxSigHashes tx) (sign hs ks)
        ((Event.sigHashes :: tr) ++ [Event.sign hs ks])) :
    ∃ tr', (SignTransaction env sign tx prev).trace
        = (Event.sigHashes :: tr) ++ [Event.sign hs ks] ++ tr' ∧
      ∀ e ∈ tr', e.isEngine = true := by
  rw [h]
  exact (afterSign_spec env tx prev (env.NewTxSigHashes tx) (sign hs ks) _).1

/-- A call of the signer in the trace of `SignTransaction` is the call with the batch of all
hashes and key paths, made after all hashes are computed. -/
theorem SignTransaction_sign_mem (env : SignEnv)
    (sign : List (List Nat) → List String → List (List Nat) × Option Error) (tx : MsgTx)
    (prev : List PrevOut) (hs : List (List Nat)) (ks : List String)
    (hmem : Event.sign hs ks ∈ (SignTransaction env sign tx prev).trace) :
    prev.length = tx.TxIn.length ∧
    (∃ tr tr', SignTransaction env sign tx prev
        = afterSign env tx prev (env.NewTxSigHashes tx) (sign hs ks)
          ((Event.sigHashes :: tr) ++ [Event.sign hs ks]) ∧
      (SignTransaction env sign tx prev).trace
        = (Event.sigHashes :: tr) ++ [Event.sign hs ks] ++ tr' ∧
      (∀ e ∈ tr, e.isHashing = true) ∧ (∀ e ∈ tr', e.isEngine = true)) ∧
    hs.length = tx.TxIn.length ∧ ks.length = tx.TxIn.length ∧
    (∀ j p, prev[j]? = some p →
      hs[j]? = some (sigHash env (env.NewTxSigHashes tx) tx j p).1 ∧
      ks[j]? = some p.Address.KeyPath) ∧
    (∀ j p, prev[j]? = some p → (sigHash env (env.NewTxSigHashes tx) tx j p).2 = none) := by
  by_cases hlen : prev.length = tx.TxIn.length
  · rcases SignTransaction_cases env sign tx prev hlen with
      ⟨hs0, ks0, tr, heq, hl1, hl2, hidx, hev, hok⟩ | ⟨err, tr, heq, hev, _⟩
    · obtain ⟨tr', htr, hev'⟩ := SignTransaction_trace env sign tx prev hs0 ks0 tr heq
      rw [htr] at hmem
      have hsame : Event.sign hs ks = Event.sign hs0 ks0 := by
        rw [List.mem_append, List.mem_append, List.mem_cons, List.mem_singleton] at hmem
        rcases hmem with ((h | h) | h) | h
        · exact absurd h (by simp)
        · have := hev _ h
          simp [Event.isHashing] at this
        · exact h
        · have := hev' _ h
          simp [Event.isEngine] at this
      simp only [Event.sign.injEq] at hsame
      obtain ⟨rfl, rfl⟩ := hsame
      exact ⟨hlen, ⟨tr, tr', heq, htr, hev, hev'⟩, hl1, hl2, hidx, hok⟩
    · exfalso
      rw [heq] at hmem
      simp only [List.mem_cons] at hmem
      rcases hmem with h | h
      · exact absurd h (by simp)
      · have := hev _ h
        simp [Event.isHashing] at this
  · exfalso
    rw [SignTransaction_mismatch env sign tx prev hlen] at hmem
    simp at hmem

theorem sigHash_fst (env : SignEnv) (sh : TxSigHashes) (tx : MsgTx) (i : Nat) (p : PrevOut) :
    (sigHash env sh tx i p).1 =
      if p.Address.SigHashData.1 then
        (env.CalcWitnessSigHash p.Address.SigHashData.2 sh SigHashAll tx i p.Value).1
      else (env.CalcSignatureHash p.Address.SigHashData.2 SigHashAll tx i).1 := by
  unfold sigHash
  split <;> rfl


theorem filter_isSign_trace (tr tr' : List Event) (hs : List (List Nat)) (ks : List String)
    (hev : ∀ e ∈ tr, e.isHashing = true) (hev' : ∀ e ∈ tr', e.isEngine = true) :
    ((Event.sigHashes :: tr) ++ [Event.sign hs ks] ++ tr').filter Event.isSign = [Event.sign hs ks] := by
  rw [List.filter_append, List.filter_append,
    List.filter_cons_of_neg (by simp [Event.isSign]),
    filter_isSign_eq_nil (fun e he => isHashing_not_isSign (hev e he)),
    filter_isSign_eq_nil (fun e he => isEngine_not_isSign (hev' e he))]
  rfl

theorem count_sigHashes_trace (tr tr' : List Event) (hs : List (List Nat)) (ks : List String)
    (hev : ∀ e ∈ tr, e.isHashing = true) (hev' : ∀ e ∈ tr', e.isEngine = true) :
    ((Event.sigHashes :: tr) ++ [Event.sign hs ks] ++ tr').count Event.sigHashes = 1 := by
  have h1 : List.count Event.sigHashes tr = 0 := by
    apply List.count_eq_zero_of_not_mem
    intro hm
    have := hev _ hm
    simp [Event.isHashing] at this
  have h2 : List.count Event.sigHashes tr' = 0 := by
    apply List.count_eq_zero_of_not_mem
    intro hm
    have := hev' _ hm
    simp [Event.isEngine] at this
  rw [List.count_append, List.count_append, List.count_cons_self, h1, h2]
  simp

/-! ## Lemmas: the assignment of the signatures and the validity check -/

/-- The loop of lines 56-61 does not touch the previous outpoints. -/
theorem assignLoop_map_outPoint (prev : List PrevOut) (sigs : List (List Nat)) :
    ∀ (inputs : List TxIn) (index : Nat),
      (assignLoop prev sigs inputs index).1.map TxIn.PreviousOutPoint
        = inputs.map TxIn.PreviousOutPoint := by
  intro inputs
  induction inputs with
  | nil => intro index; rfl
  | cons input remaining ih =>
    intro index
    unfold assignLoop
    split
    · simp only [List.map_cons, ih]
    · rfl

/-- On lists that are long enough the loop of lines 56-61 does not panic and gives every input
the signature script and the witness that `InputData` makes from its signature. -/
theorem assignLoop_spec (prev : List PrevOut) (sigs : List (List Nat)) :
    ∀ (inputs : List TxIn) (index : Nat), index + inputs.length ≤ prev.length →
      index + inputs.length ≤ sigs.length →
      (assignLoop prev sigs inputs index).2 = none ∧
      (assignLoop prev sigs inputs index).1.length = inputs.length ∧
      ∀ (j : Nat) (input : TxIn) (p : PrevOut) (sig : List Nat), inputs[j]? = some input →
        prev[index + j]? = some p → sigs[index + j]? = some sig →
        (assignLoop prev sigs inputs index).1[j]? =
          some { input with SignatureScript := (p.Address.InputData sig).1,
                            Witness := (p.Address.InputData sig).2 } := by
  intro inputs
  induction inputs with
  | nil =>
    intro index _ _
    refine ⟨rfl, rfl, ?_⟩
    intro j input p sig h
    simp at h
  | cons input remaining ih =>
    intro index h1 h2
    simp only [List.length_cons] at h1 h2
    have hp : prev[index]? = some prev[index] := List.getElem?_eq_getElem (by omega)
    have hs : sigs[index]? = some sigs[index] := List.getElem?_eq_getElem (by omega)
    obtain ⟨ih1, ih2, ih3⟩ := ih (index + 1) (by omega) (by omega)
    have heq : assignLoop prev sigs (input :: remaining) index =
        ({ input with SignatureScript := (prev[index].Address.InputData sigs[index]).1,
                      Witness := (prev[index].Address.InputData sigs[index]).2 }
          :: (assignLoop prev sigs remaining (index + 1)).1,
          (assignLoop prev sigs remaining (index + 1)).2) := by
      conv_lhs => unfold assignLoop
      simp only [hp, hs]
    rw [heq]
    refine ⟨ih1, by simp [ih2], ?_⟩
    intro j inp p sig hj hpj hsj
    cases j with
    | zero =>
      simp only [Nat.add_zero] at hpj hsj
      rw [hp] at hpj
      rw [hs] at hsj
      simp only [Option.some.injEq] at hpj hsj
      simp only [List.getElem?_cons_zero, Option.some.injEq] at hj
      subst hpj hsj hj
      simp
    | succ j =>
      simp only [List.getElem?_cons_succ] at hj ⊢
      have hpj' : prev[index + 1 + j]? = some p := by
        rw [← hpj]; congr 1; omega
      have hsj' : sigs[index + 1 + j]? = some sig := by
        rw [← hsj]; congr 1; omega
      exact ih3 j inp p sig hj hpj' hsj'

theorem inputLess_congr {a b a' b' : TxIn} (ha : a.PreviousOutPoint = a'.PreviousOutPoint)
    (hb : b.PreviousOutPoint = b'.PreviousOutPoint) : inputLess a b = inputLess a' b' := by
  unfold inputLess
  rw [ha, hb]

/-- Whether the inputs are in canonical order depends on their previous outpoints only. -/
theorem isSortedBy_inputLess_congr : ∀ (l l' : List TxIn),
    l.map TxIn.PreviousOutPoint = l'.map TxIn.PreviousOutPoint →
    isSortedBy inputLess l = isSortedBy inputLess l' := by
  intro l
  induction l with
  | nil =>
    intro l' h
    cases l' with
    | nil => rfl
    | cons a' l' => simp at h
  | cons a l ih =>
    intro l' h
    cases l' with
    | nil => simp at h
    | cons a' l' =>
      simp only [List.map_cons, List.cons.injEq] at h
      cases l with
      | nil =>
        cases l' with
        | nil => rfl
        | cons b' l' => simp at h
      | cons b l =>
        cases l' with
        | nil => simp at h
        | cons b' l' =>
          have h2 := h.2
          simp only [List.map_cons, List.cons.injEq] at h2
          unfold isSortedBy
          rw [inputLess_congr h2.1 h.1, ih (b' :: l') h.2]

/-- The transaction with the signatures assigned is in canonical order exactly when the
unsigned one is. -/
theorem IsSorted_assigned (tx : MsgTx) (prev : List PrevOut) (sigs : List (List Nat)) :
    IsSorted { tx with TxIn := (assignLoop prev sigs tx.TxIn 0).1 } = IsSorted tx := by
  unfold IsSorted
  simp only
  rw [isSortedBy_inputLess_congr _ _ (assignLoop_map_outPoint prev sigs tx.TxIn 0)]

/-- When the loop of `txValidityCheck` returns `nil`, the engine of every remaining input was
made and executed without error. -/
theorem engineLoop_ok (env : SignEnv) (tx : MsgTx) (prev : List PrevOut) (sh : TxSigHashes) :
    ∀ (remaining : List TxIn) (index : Nat),
      (engineLoop env tx prev sh remaining index).1 = .returned none →
      ∀ (j : Nat) (p : PrevOut), j < remaining.length → prev[index + j]? = some p →
        env.NewEngine ⟨p.PkScript, tx, index + j, sh, p.Value⟩ = none ∧
        env.Execute ⟨p.PkScript, tx, index + j, sh, p.Value⟩ = none := by
  intro remaining
  induction remaining with
  | nil => intro index _ j p hj; simp at hj
  | cons i remaining ih =>
    intro index h j p hj hp
    unfold engineLoop at h
    split at h
    · simp at h
    · rename_i q hq
      simp only at h
      split at h
      · simp at h
      · rename_i hne
        split at h
        · simp at h
        · rename_i hex
          cases j with
          | zero =>
            simp only [Nat.add_zero] at hp ⊢
            rw [hq] at hp
            simp only [Option.some.injEq] at hp
            subst hp
            exact ⟨hne, hex⟩
          | succ j =>
            have hp' : prev[index + 1 + j]? = some p := by
              rw [← hp]; congr 1; omega
            have := ih (index + 1) h j p (by simpa using hj) hp'
            have harith : index + 1 + j = index + (j + 1) := by omega
            rw [harith] at this
            exact this

/-- The error that the loop of `txValidityCheck` returns is the error of making or executing
the engine of an input. -/
theorem engineLoop_error (env : SignEnv) (tx : MsgTx) (prev : List PrevOut) (sh : TxSigHashes) :
    ∀ (remaining : List TxIn) (index : Nat) (err : Error),
      (engineLoop env tx prev sh remaining index).1 = .returned (some err) →
      ∃ (j : Nat) (p : PrevOut), prev[j]? = some p ∧
        (env.NewEngine ⟨p.PkScript, tx, j, sh, p.Value⟩ = some err ∨
          env.Execute ⟨p.PkScript, tx, j, sh, p.Value⟩ = some err) := by
  intro remaining
  induction remaining with
  | nil => intro index err h; simp [engineLoop] at h
  | cons i remaining ih =>
    intro index err h
    unfold engineLoop at h
    split at h
    · simp at h
    · rename_i q hq
      simp only at h
      split at h
      · rename_i e hne
        simp only [Outcome.returned.injEq, Option.some.injEq] at h
        exact ⟨index, q, hq, Or.inl (by rw [hne, h])⟩
      · split at h
        · rename_i e hex
          simp only [Outcome.returned.injEq, Option.some.injEq] at h
          exact ⟨index, q, hq, Or.inr (by rw [hex, h])⟩
        · exact ih (index + 1) err h

/-- What `SignTransaction` has done when it returns `nil`, in terms of lines 51-66. -/
theorem afterSign_returned_none (env : SignEnv) (tx : MsgTx) (prev : List PrevOut)
    (sh : TxSigHashes) (answer : List (List Nat) × Option Error) (trace : List Event)
    (h : (afterSign env tx prev sh answer trace).outcome = .returned none) :
    answer.2 = none ∧ answer.1.length = tx.TxIn.length ∧
    (afterSign env tx prev sh answer trace).transaction
      = { tx with TxIn := (assignLoop prev answer.1 tx.TxIn 0).1 } ∧
    (txValidityCheck env { tx with TxIn := (assignLoop prev answer.1 tx.TxIn 0).1 } prev sh).1
      = .returned none := by
  unfold afterSign at h ⊢
  split at h
  · simp at h
  · rename_i hnone
    split at h
    · simp at h
    · rename_i hlen
      simp only at h
      split at h
      · simp at h
      · rename_i hassign
        split at h
        · simp at h
        · rename_i hcheck
          refine ⟨hnone, by omega, ?_, hcheck⟩
          simp only [hnone, hlen, if_false, hassign, hcheck]
        · simp at h

/-- When the check of the signed transaction returns an error, `SignTransaction` panics with
it. -/
theorem afterSign_check_error (env : SignEnv) (tx : MsgTx) (prev : List PrevOut)
    (sh : TxSigHashes) (answer : List (List Nat) × Option Error) (trace : List Event)
    (err : Error) (hnone : answer.2 = none) (hlen : answer.1.length = tx.TxIn.length)
    (hassign : (assignLoop prev answer.1 tx.TxIn 0).2 = none)
    (hcheck : (txValidityCheck env { tx with TxIn := (assignLoop prev answer.1 tx.TxIn 0).1 }
      prev sh).1 = .returned (some err)) :
    (afterSign env tx prev sh answer trace).outcome = .panicked (.error err) ∧
    (afterSign env tx prev sh answer trace).transaction
      = { tx with TxIn := (assignLoop prev answer.1 tx.TxIn 0).1 } := by
  have hlen' : ¬ answer.1.length ≠ tx.TxIn.length := fun hn => hn hlen
  unfold afterSign
  simp only [hnone, hlen', if_false, hassign, hcheck]
  exact ⟨trivial, trivial⟩

/-- What `txValidityCheck` has found when it returns `nil`. -/
theorem txValidityCheck_ok (env : SignEnv) (tx : MsgTx) (prev : List PrevOut)
    (sh : TxSigHashes) (h : (txValidityCheck env tx prev sh).1 = .returned none) :
    IsSorted tx = true ∧
    ∀ (i : Nat) (p : PrevOut), i < tx.TxIn.length → prev[i]? = some p →
      env.NewEngine ⟨p.PkScript, tx, i, sh, p.Value⟩ = none ∧
      env.Execute ⟨p.PkScript, tx, i, sh, p.Value⟩ = none := by
  unfold txValidityCheck at h
  split at h
  · simp at h
  · rename_i hs
    refine ⟨by simpa using hs, ?_⟩
    intro i p hi hp
    have := engineLoop_ok env tx prev sh tx.TxIn 0 h i p hi (by simpa using hp)
    simpa using this

/-! ## Lemmas: the API token check -/

/-- Go `len(s) == 0` holds for the empty string only. -/
theorem utf8ByteSize_eq_zero (s : String) : s.utf8ByteSize = 0 ↔ s = "" := by
  cases s with
  | mk l =>
    cases l with
    | nil => simp [String.utf8ByteSize, String.utf8ByteSize.go]
    | cons c cs =>
      have := Char.utf8Size_pos c
      simp [String.utf8ByteSize, String.utf8ByteSize.go, String.ext_iff]
      omega

theorem basic_append_ne_empty (token : String) : "Basic " ++ token ≠ "" := by
  intro h
  have := congrArg String.length h
  simp only [String.length_append, String.length_empty, Nat.add_eq_zero] at this
  exact absurd this.1 (by decide)

/-- The result of `isAPITokenValid` outside dev mode. -/
theorem isAPITokenValid_prod (r : Request) (apiData : ConnectionData)
    (h : apiData.devMode = false) :
    (isAPITokenValid r apiData).1 = true ↔ r.authorization = "Basic " ++ apiData.token := by
  unfold isAPITokenValid
  rw [h]
  simp only [Bool.false_eq_true, if_false]
  by_cases h0 : r.authorization.utf8ByteSize = 0
  · have he : r.authorization = "" := (utf8ByteSize_eq_zero _).1 h0
    simp only [h0, beq_self_eq_true, if_true]
    constructor
    · intro hf; simp at hf
    · intro heq
      exact absurd (heq.symm.trans he) (basic_append_ne_empty _)
  · have hb : (r.authorization.utf8ByteSize == 0) = false := by simpa using h0
    have hb' : (r.authorization.utf8ByteSize != 0) = true := by simpa using h0
    simp only [hb, hb', Bool.false_eq_true, if_false, Bool.true_and]
    by_cases heq : r.authorization = "Basic " ++ apiData.token
    · simp [heq]
    · simp [heq]

/-! ## Lemmas: termination of the fee loop -/

/-- A target that is not positive is reached by the empty selection. -/
theorem coinSelection_nonpos (T : Int) (m : OutputMap) (hT : T ≤ 0) :
    coinSelection T m = ⟨0, some [], none⟩ := by
  have hloop : selectLoop T m (sortedOutPoints m) [] 0 = ([], 0) := by
    cases sortedOutPoints m with
    | nil => rfl
    | cons o rest =>
      unfold selectLoop
      rw [if_pos (by omega)]
  unfold coinSelection
  simp only [hloop]
  rw [if_neg (by omega)]

/-- With the payment of the largest `int64` and fees that are positive, the target of every
iteration wraps around to a negative amount and the loop of `NewTx` goes on for ever. -/
theorem feeLoop_maxInt64_none (env : Env) (sp : OutputMap) (script : List Nat) (feePerKb : Int)
    (h0 : 0 < env.fee feePerKb 0 [⟨maxInt64, script⟩] true)
    (h0' : env.fee feePerKb 0 [⟨maxInt64, script⟩] true ≤ maxInt64) :
    ∀ (fuel : Nat) (tf : Int), 0 < tf → tf ≤ maxInt64 →
      feeLoop env sp ⟨maxInt64, script⟩ feePerKb fuel tf = none := by
  intro fuel
  induction fuel with
  | zero => intro tf _ _; rfl
  | succ fuel ih =>
    intro tf h1 h2
    have hT : add64 maxInt64 tf ≤ 0 := by
      unfold add64 wrap64
      unfold maxInt64 at h2 ⊢
      omega
    have hcs := coinSelection_nonpos (add64 maxInt64 tf) sp hT
    have hsub : sub64 0 maxInt64 < env.fee feePerKb 0 [⟨maxInt64, script⟩] true := by
      have : sub64 0 maxInt64 < 0 := by
        unfold sub64 wrap64 maxInt64
        omega
      omega
    unfold feeLoop
    simp only [hcs, Option.getD_some, List.length_nil]
    unfold Env.fee at hsub h0 h0' ih
    rw [if_pos hsub]
    exact ih _ h0 h0'

/-! ## Lemmas: sorting inputs and sorting outpoints -/

theorem inputLess_eq_outPointLess (a b : TxIn) :
    inputLess a b = outPointLess a.PreviousOutPoint b.PreviousOutPoint := rfl

theorem insertBy_map {α β : Type} (f : α → β) (le : α → α → Bool) (le' : β → β → Bool)
    (h : ∀ a b, le a b = le' (f a) (f b)) (a : α) (l : List α) :
    (insertBy le a l).map f = insertBy le' (f a) (l.map f) := by
  induction l with
  | nil => rfl
  | cons b l ih =>
    simp only [insertBy, List.map_cons, ← h a b]
    cases le a b
    · simp only [Bool.false_eq_true, if_false, List.map_cons, ih]
    · simp only [if_true, List.map_cons]

theorem sortBy_map {α β : Type} (f : α → β) (le : α → α → Bool) (le' : β → β → Bool)
    (h : ∀ a b, le a b = le' (f a) (f b)) (l : List α) :
    (sortBy le l).map f = sortBy le' (l.map f) := by
  induction l with
  | nil => rfl
  | cons a l ih =>
    simp only [sortBy, List.map_cons]
    rw [insertBy_map f le le' h, ih]

/-- Sorting leaves a sorted list as it is. -/
theorem sortBy_eq_self {α : Type} (le : α → α → Bool) (l : List α)
    (h : l.Pairwise (fun a b => le a b = true)) : sortBy le l = l := by
  induction l with
  | nil => rfl
  | cons a l ih =>
    rw [List.pairwise_cons] at h
    simp only [sortBy]
    rw [ih h.2]
    cases l with
    | nil => rfl
    | cons b l =>
      simp only [insertBy]
      rw [if_pos (h.1 b (List.mem_cons_self b l))]

/-- The previous outpoints of the sorted inputs made from a list of outpoints are the
outpoints of the list, sorted. -/
theorem InPlaceSort_previousOutPoints (sel : List OutPoint) (outs : List TxOut)
    (version : Int) (lockTime : Nat) :
    (InPlaceSort ⟨version, sel.map NewTxIn, outs, lockTime⟩).TxIn.map TxIn.PreviousOutPoint
      = sortBy (fun a b => !outPointLess b a) sel := by
  unfold InPlaceSort
  simp only
  rw [sortBy_map TxIn.PreviousOutPoint (fun a b => !inputLess b a)
    (fun a b => !outPointLess b a) (fun a b => rfl),
    map_PreviousOutPoint_NewTxIn]

/-! ## Lemmas: `coinSelection` and the order of the outpoints -/

/-- The sum and the number of outpoints that the loop of `coinSelection` selects depend on
the values of the outpoints in their order only. -/
theorem selectLoop_congr (T : Int) (m m' : OutputMap) :
    ∀ (ops ops' sel sel' : List OutPoint) (s : Int),
      ops.map m.value = ops'.map m'.value → sel.length = sel'.length →
      (selectLoop T m ops sel s).2 = (selectLoop T m' ops' sel' s).2 ∧
      (selectLoop T m ops sel s).1.length = (selectLoop T m' ops' sel' s).1.length := by
  intro ops
  induction ops with
  | nil =>
    intro ops' sel sel' s hmap hlen
    cases ops' with
    | nil => exact ⟨rfl, hlen⟩
    | cons o' rest' => simp at hmap
  | cons o rest ih =>
    intro ops' sel sel' s hmap hlen
    cases ops' with
    | nil => simp at hmap
    | cons o' rest' =>
      simp only [List.map_cons, List.cons.injEq] at hmap
      unfold selectLoop
      by_cases hs : s ≥ T
      · rw [if_pos hs, if_pos hs]
        exact ⟨rfl, hlen⟩
      · rw [if_neg hs, if_neg hs, hmap.1]
        exact ih rest' (sel ++ [o]) (sel' ++ [o']) _ hmap.2
          (by simp only [List.length_append, hlen, List.length_singleton])

/-- Two descending arrangements of lists of values that are permutations of each other are
the same list. -/
theorem descending_unique {l l' : List Int} (hp : l.Perm l')
    (h : l.Pairwise (fun a b => b ≤ a)) (h' : l'.Pairwise (fun a b => b ≤ a)) : l = l' := by
  have hs : List.Sorted (fun a b : Int => a ≥ b) l := h
  have hs' : List.Sorted (fun a b : Int => a ≥ b) l' := h'
  exact List.eq_of_perm_of_sorted hp hs hs'

/-! # The claims -/

/-- Counterexample to C1: four outputs worth 6917529027641081855 each and the target
6917529027641081856.  The values are not negative and the first two already total more than
the target, but after the second output the running `int64` sum has wrapped around to a
negative amount, and the code goes on to select all four and returns 9223372036854775804,
which is not the sum 27670116110564327420 of the selected values. -/
theorem coinSelection_prefix_not_shortest :
    (∀ v ∈ wrapMap.values, 0 ≤ v) ∧
    coinSelection 6917529027641081856 wrapMap
      = ⟨9223372036854775804, some [opA, opB, opC, opD], none⟩ ∧
    ([opA, opB, opC, opD].map wrapMap.value).sum = 27670116110564327420 ∧
    ¬ ((((sortedOutPoints wrapMap).map wrapMap.value).take 2).sum < 6917529027641081856) := by
  refine ⟨by decide, by decide, by decide, by decide⟩

/-- C1, amended. When `coinSelection` succeeds and adding up the selected values one by one
does not overflow `int64`, the values of the selected outpoints are a prefix of the map's
values in descending order (the selected outpoints are a prefix of the outpoints sorted by
descending value), the returned sum is the sum of that prefix and reaches the target, and
every strictly shorter prefix, in particular the selection without its last outpoint, sums
to less than the target. -/
theorem coinSelection_descending_prefix (T : Int) (m : OutputMap) (s : Int)
    (sel : List OutPoint) (h : coinSelection T m = ⟨s, some sel, none⟩)
    (hno : NoOverflowSum 0 (sel.map m.value)) :
    ((sortedOutPoints m).map m.value).Sorted (· ≥ ·) ∧
    ((sortedOutPoints m).map m.value).Perm m.values ∧
    sel <+: sortedOutPoints m ∧
    sel.map m.value <+: (sortedOutPoints m).map m.value ∧
    s = (sel.map m.value).sum ∧
    T ≤ s ∧
    (∀ k, k < sel.length → (((sortedOutPoints m).map m.value).take k).sum < T) ∧
    (sel ≠ [] → (sel.dropLast.map m.value).sum < T) := by
  obtain ⟨k, hk, hsel, hs, hT, hlt⟩ := coinSelection_ok h
  have hlen : sel.length = k := by rw [hsel, List.length_take]; omega
  have hselv : sel.map m.value = ((sortedOutPoints m).map m.value).take k := by
    rw [hsel, List.map_take]
  have hexact : ∀ j, j ≤ k → sum64 (((sortedOutPoints m).map m.value).take j)
      = (((sortedOutPoints m).map m.value).take j).sum := by
    intro j hj
    have hj' : ((sortedOutPoints m).map m.value).take j = (sel.map m.value).take j := by
      rw [hselv, List.take_take]
      congr 1
      omega
    rw [hj']
    exact sum64_of_noOverflow (hno.take j)
  refine ⟨sortedValues_sorted m, sortedValues_perm m, ?_, ?_, ?_, hT, ?_, ?_⟩
  · rw [hsel]; exact List.take_prefix _ _
  · rw [hselv]; exact List.take_prefix _ _
  · rw [hselv, ← hexact k (le_refl k)]; exact hs
  · intro j hj
    rw [← hexact j (by omega)]
    exact hlt j (by omega)
  · intro hne
    have hpos : 0 < sel.length := List.length_pos.2 hne
    have hd : sel.dropLast.map m.value = ((sortedOutPoints m).map m.value).take (k - 1) := by
      rw [List.dropLast_eq_take, hsel, List.take_take, List.length_take, ← List.map_take]
      congr 2
      omega
    rw [hd, ← hexact (k - 1) (by omega)]
    exact hlt (k - 1) (by omega)

/-- Witness of C1 (amended) on the outputs 3 and 10 with target 11: both are selected. -/
theorem coinSelection_descending_prefix_witness :
    (coinSelection 11 smallMap = ⟨13, some [opA, opB], none⟩ ∧
      NoOverflowSum 0 ([opA, opB].map smallMap.value)) ∧
    [opA, opB].map smallMap.value <+: (sortedOutPoints smallMap).map smallMap.value ∧
    (13 : Int) = ([opA, opB].map smallMap.value).sum ∧
    ([opA, opB].dropLast.map smallMap.value).sum < 11 :=
  have h := coinSelection_descending_prefix 11 smallMap 13 [opA, opB] (by decide) (by decide)
  ⟨⟨by decide, by decide⟩, h.2.2.2.1, h.2.2.2.2.1, h.2.2.2.2.2.2.2 (by decide)⟩

/-- Counterexample to C2: with outputs worth 3 and 10 and target 3 the code returns a total of
10, while the single output worth 3 already reaches the target. -/
theorem coinSelection_total_not_least :
    (∀ v ∈ smallMap.values, 0 ≤ v) ∧
    coinSelection 3 smallMap = ⟨10, some [opA], none⟩ ∧
    [opB].Sublist smallMap.keys ∧
    3 ≤ ([opB].map smallMap.value).sum ∧
    ([opB].map smallMap.value).sum < 10 := by
  refine ⟨by decide, by decide, ?_, by decide, by decide⟩
  exact List.Sublist.cons₂ _ (List.nil_sublist _)

/-- C2, amended. When `coinSelection` succeeds on non-negative values whose total is an `int64`,
the returned total reaches the target and the selection has the fewest outputs that can do so:
a subset of the outputs whose sum reaches the target has at least as many outputs as the
selection, and a subset with no more outputs than the selection has a sum no larger than the
returned total. -/
theorem coinSelection_fewest_outputs (T : Int) (m : OutputMap) (s : Int) (sel : List OutPoint)
    (hv : ∀ v ∈ m.values, 0 ≤ v) (hsum : m.values.sum ≤ maxInt64)
    (h : coinSelection T m = ⟨s, some sel, none⟩)
    (sub : List OutPoint) (hsub : sub.Sublist m.keys) :
    T ≤ s ∧
    (T ≤ (sub.map m.value).sum → sel.length ≤ sub.length) ∧
    (sub.length ≤ sel.length → (sub.map m.value).sum ≤ s) := by
  obtain ⟨k, hk, hsel, hs, hT, hlt⟩ := coinSelection_ok h
  have hlen : sel.length = k := by rw [hsel, List.length_take]; omega
  have hp := sortedValues_perm m
  have hv' : ∀ v ∈ (sortedOutPoints m).map m.value, 0 ≤ v := fun v hv' => hv v (hp.subset hv')
  have hsum' : ((sortedOutPoints m).map m.value).sum ≤ maxInt64 := by rw [hp.sum_eq]; exact hsum
  have htop := subset_sum_le_top m sub hsub
  refine ⟨hT, ?_, ?_⟩
  · intro hge
    by_contra hcon
    have hj := hlt sub.length (by omega)
    rw [sum64_take_eq_sum hv' hsum'] at hj
    omega
  · intro hle
    rw [hs, sum64_take_eq_sum hv' hsum']
    refine le_trans htop ?_
    have hmin : sub.length = min sub.length k := by omega
    have h2 := sum_take_le_sum (l := ((sortedOutPoints m).map m.value).take k)
      (fun v hv'' => hv' v (List.mem_of_mem_take hv'')) sub.length
    rw [List.take_take, ← hmin] at h2
    exact h2

/-- Witness of C2 (amended) on the outputs 3 and 10 with target 3 and the subset made of the
output worth 3. -/
theorem coinSelection_fewest_outputs_witness :
    ((∀ v ∈ smallMap.values, 0 ≤ v) ∧ smallMap.values.sum ≤ maxInt64 ∧
      coinSelection 3 smallMap = ⟨10, some [opA], none⟩ ∧ [opB].Sublist smallMap.keys) ∧
    ((3 : Int) ≤ 10 ∧
      (3 ≤ ([opB].map smallMap.value).sum → [opA].length ≤ [opB].length) ∧
      ([opB].length ≤ [opA].length → ([opB].map smallMap.value).sum ≤ 10)) :=
  ⟨⟨by decide, by decide, by decide, List.Sublist.cons₂ _ (List.nil_sublist _)⟩,
    coinSelection_fewest_outputs 3 smallMap 10 [opA] (by decide) (by decide) (by decide)
      [opB] (List.Sublist.cons₂ _ (List.nil_sublist _))⟩

/-- Counterexample to C3: two outputs worth `2^62` each and the target `2^62 + 1`.  The values
are non-negative and their sum `2^63` is not below the target, but the running `int64` sum
wraps around to `-2^63` and the code reports insufficient funds. -/
theorem coinSelection_insufficient_despite_total :
    (∀ v ∈ hugeMap.values, 0 ≤ v) ∧
    ¬ (hugeMap.values.sum < 4611686018427387905) ∧
    coinSelection 4611686018427387905 hugeMap = ⟨0, none, some errInsufficientFunds⟩ := by
  refine ⟨by decide, by decide, by decide⟩

/-- C3, amended. For non-negative values whose total is an `int64`, `coinSelection` returns the
"insufficient funds" error if and only if the sum of all values is below the target; and
whenever it returns an error, the sum it returns is 0 and the outpoint list is nil. -/
theorem coinSelection_insufficient_iff (T : Int) (m : OutputMap)
    (hv : ∀ v ∈ m.values, 0 ≤ v) (hsum : m.values.sum ≤ maxInt64) :
    ((coinSelection T m).err = some errInsufficientFunds ↔ m.values.sum < T) ∧
    ((coinSelection T m).err ≠ none →
      coinSelection T m = ⟨0, none, some errInsufficientFunds⟩) := by
  have hiff := coinSelection_err_iff T m hv hsum
  refine ⟨⟨fun h => ?_, fun h => by rw [hiff.1 h]⟩, coinSelection_err_cases T m⟩
  by_contra hn
  rw [hiff.2 hn] at h
  simp at h

/-- Witness of C3 (amended) on the outputs 3 and 10 with target 14. -/
theorem coinSelection_insufficient_iff_witness :
    ((∀ v ∈ smallMap.values, 0 ≤ v) ∧ smallMap.values.sum ≤ maxInt64) ∧
    (((coinSelection 14 smallMap).err = some errInsufficientFunds ↔ smallMap.values.sum < 14) ∧
      ((coinSelection 14 smallMap).err ≠ none →
        coinSelection 14 smallMap = ⟨0, none, some errInsufficientFunds⟩)) :=
  ⟨⟨by decide, by decide⟩, coinSelection_insufficient_iff 14 smallMap (by decide) (by decide)⟩

/-- C4. For every successful `NewTx` without `int64` overflow (neither in adding up the
selected values nor in subtracting the payment from their sum), the exact sum of the values of
the selected outpoints is at least `output.Value` plus the fee recomputed from the number of
selected outpoints. -/
theorem NewTx_selected_covers_fee {σ : Type} (env : Env) (sp : OutputMap) (out : TxOut)
    (feePerKb : Int) (g : σ → (List Nat × Option Error) × σ) (s : σ) (fuel : Nat)
    (r : TxResult) (s' : σ) (sel : List OutPoint)
    (h : NewTx env sp out feePerKb g s fuel = some (r, s')) (hr : r.err = none)
    (hsel : r.outPoints = some sel)
    (hno : NoOverflowSum 0 (sel.map sp.value))
    (hsub : InInt64 ((sel.map sp.value).sum - out.Value)) :
    out.Value + env.fee feePerKb sel.length [out] true ≤ (sel.map sp.value).sum := by
  obtain ⟨tx, _, _, hle, _⟩ := NewTx_ok_sel h hr hsel
  rw [sum64_of_noOverflow hno] at hle
  unfold sub64 at hle
  rw [wrap64_eq_self hsub] at hle
  omega

/-- Witness of C4: one output worth 100000, a payment of 40000, 1000 per kB. -/
theorem NewTx_selected_covers_fee_witness :
    (NewTx sampleEnv singleMap payment 1000 countingProvider 0 1 =
        some (⟨some ⟨1, [NewTxIn opA], [payment, ⟨59796, [7, 7, 7]⟩], 0⟩, some [opA], none⟩, 1) ∧
      NoOverflowSum 0 ([opA].map singleMap.value) ∧
      InInt64 (([opA].map singleMap.value).sum - payment.Value)) ∧
    payment.Value + sampleEnv.fee 1000 [opA].length [payment] true
      ≤ ([opA].map singleMap.value).sum :=
  ⟨⟨by decide, by decide, by decide⟩,
    NewTx_selected_covers_fee sampleEnv singleMap payment 1000 countingProvider 0 1
      ⟨some ⟨1, [NewTxIn opA], [payment, ⟨59796, [7, 7, 7]⟩], 0⟩, some [opA], none⟩ 1 [opA]
      (by decide) rfl rfl (by decide) (by decide)⟩

/-- Counterexample to C5: one output worth 100000, a payment of 99700 and 1000 per kB.  The
fee for one input is 204 and the change of 96 is dust, so the transaction has the payment as
its only output and pays 300, not 204. -/
theorem NewTx_fee_not_equal_when_dust :
    NewTx sampleEnv singleMap paymentNearAll 1000 countingProvider 0 1 =
      some (⟨some ⟨1, [NewTxIn opA], [paymentNearAll], 0⟩, some [opA], none⟩, 0) ∧
    inputSum singleMap ⟨1, [NewTxIn opA], [paymentNearAll], 0⟩
      - outputSum ⟨1, [NewTxIn opA], [paymentNearAll], 0⟩ = 300 ∧
    sampleEnv.fee 1000 1 [paymentNearAll] true = 204 := by
  refine ⟨by decide, by decide, by decide⟩

/-- C5, amended. For every successful `NewTx` without `int64` overflow (in adding up the
selected values and in the two subtractions of line 120), the inputs exceed the outputs by at
least the fee computed for the number of inputs, and by exactly that fee if and only if the
transaction has a change output or the change amount is 0: a change that is dust is left out
and paid on top of the computed fee. -/
theorem NewTx_pays_at_least_fee {σ : Type} (env : Env) (sp : OutputMap) (out : TxOut)
    (feePerKb : Int) (g : σ → (List Nat × Option Error) × σ) (s : σ) (fuel : Nat)
    (r : TxResult) (s' : σ) (tx : MsgTx) (sel : List OutPoint)
    (h : NewTx env sp out feePerKb g s fuel = some (r, s')) (hr : r.err = none)
    (htx : r.tx = some tx) (hsel : r.outPoints = some sel)
    (hno : NoOverflowSum 0 (sel.map sp.value))
    (hsub : InInt64 ((sel.map sp.value).sum - out.Value))
    (hchg : InInt64 ((sel.map sp.value).sum - out.Value
      - env.fee feePerKb sel.length [out] true)) :
    env.fee feePerKb tx.TxIn.length [out] true ≤ inputSum sp tx - outputSum tx ∧
    (inputSum sp tx - outputSum tx = env.fee feePerKb tx.TxIn.length [out] true ↔
      (tx.TxOut.length = 2 ∨
        inputSum sp tx - out.Value - env.fee feePerKb tx.TxIn.length [out] true = 0)) := by
  obtain ⟨tx', htx', hin, hle, hout⟩ := NewTx_ok_sel h hr hsel
  rw [htx] at htx'
  simp only [Option.some.injEq] at htx'
  subst htx'
  have hlen : tx.TxIn.length = sel.length := by rw [hin.length_eq]; simp
  have hins : inputSum sp tx = (sel.map sp.value).sum := inputSum_of_perm sp tx sel hin
  rw [sum64_of_noOverflow hno] at hle hout
  rw [changeAmount_exact hsub hchg] at hout
  unfold sub64 at hle
  rw [wrap64_eq_self hsub] at hle
  rw [hlen, hins]
  rcases hout with hout | ⟨hout, hc⟩
  · have hos : outputSum tx = out.Value + ((sel.map sp.value).sum - out.Value
        - env.fee feePerKb sel.length [out] true) := by
      unfold outputSum
      rw [(hout.map _).sum_eq]
      simp [NewTxOut]
    have hl2 : tx.TxOut.length = 2 := by rw [hout.length_eq]; rfl
    rw [hos]
    exact ⟨by omega, ⟨fun _ => Or.inl hl2, fun _ => by omega⟩⟩
  · have hos : outputSum tx = out.Value := by
      unfold outputSum; rw [hout]; simp
    have hl1 : tx.TxOut.length ≠ 2 := by rw [hout]; simp
    rw [hos]
    refine ⟨by omega, ⟨fun h' => Or.inr (by omega), fun h' => ?_⟩⟩
    rcases h' with h' | h'
    · exact absurd h' hl1
    · omega

/-- Witness of C5 (amended): the payment of 99700 from one output worth 100000. -/
theorem NewTx_pays_at_least_fee_witness :
    (NewTx sampleEnv singleMap paymentNearAll 1000 countingProvider 0 1 =
        some (⟨some ⟨1, [NewTxIn opA], [paymentNearAll], 0⟩, some [opA], none⟩, 0) ∧
      NoOverflowSum 0 ([opA].map singleMap.value) ∧
      InInt64 (([opA].map singleMap.value).sum - paymentNearAll.Value) ∧
      InInt64 (([opA].map singleMap.value).sum - paymentNearAll.Value
        - sampleEnv.fee 1000 [opA].length [paymentNearAll] true)) ∧
    (sampleEnv.fee 1000 [NewTxIn opA].length [paymentNearAll] true
        ≤ inputSum singleMap ⟨1, [NewTxIn opA], [paymentNearAll], 0⟩
          - outputSum ⟨1, [NewTxIn opA], [paymentNearAll], 0⟩ ∧
      (inputSum singleMap ⟨1, [NewTxIn opA], [paymentNearAll], 0⟩
          - outputSum ⟨1, [NewTxIn opA], [paymentNearAll], 0⟩
          = sampleEnv.fee 1000 [NewTxIn opA].length [paymentNearAll] true ↔
        ([paymentNearAll].length = 2 ∨
          inputSum singleMap ⟨1, [NewTxIn opA], [paymentNearAll], 0⟩ - paymentNearAll.Value
            - sampleEnv.fee 1000 [NewTxIn opA].length [paymentNearAll] true = 0))) :=
  ⟨⟨by decide, by decide, by decide, by decide⟩,
    NewTx_pays_at_least_fee sampleEnv singleMap paymentNearAll 1000 countingProvider 0 1
      ⟨some ⟨1, [NewTxIn opA], [paymentNearAll], 0⟩, some [opA], none⟩ 0
      ⟨1, [NewTxIn opA], [paymentNearAll], 0⟩ [opA]
      (by decide) rfl rfl rfl (by decide) (by decide) (by decide)⟩

/-- Counterexample to C6: four outputs worth 6917529027641081855 each and a payment of
9223372036854775156.  All four are selected; their sum less the payment and the fee of 648
is `2^64`, which is positive and not dust, but in `int64` arithmetic line 120 computes a
change amount of 0 and the transaction has no change output. -/
theorem NewTx_no_change_despite_excess :
    (∀ v ∈ wrapMap.values, 0 ≤ v) ∧
    NewTx sampleEnv wrapMap paymentWrapAll 1000 countingProvider 0 1 =
      some (⟨some ⟨1, [NewTxIn opA, NewTxIn opB, NewTxIn opC, NewTxIn opD],
        [paymentWrapAll], 0⟩, some [opA, opB, opC, opD], none⟩, 0) ∧
    ([opA, opB, opC, opD].map wrapMap.value).sum - paymentWrapAll.Value
      - sampleEnv.fee 1000 4 [paymentWrapAll] true = 18446744073709551616 ∧
    sampleEnv.IsDustAmount 18446744073709551616 sampleEnv.P2PKHPkScriptSize 1000 = false := by
  refine ⟨by decide, by decide, by decide, by decide⟩

/-- C6, amended. For every successful `NewTx` without `int64` overflow (in adding up the
selected values and in the two subtractions of line 120), let `c` be the sum of the selected
values less `output.Value` and less the fee for the number of selected outpoints.  Then `c`
is not negative, the transaction contains a change output, worth `c`, if and only if `c > 0`
and `c` is not dust, and otherwise its outputs are exactly the payment output, so that the
inputs exceed the outputs by the whole excess of the selected sum over `output.Value`. -/
theorem NewTx_change_output_iff {σ : Type} (env : Env) (sp : OutputMap) (out : TxOut)
    (feePerKb : Int) (g : σ → (List Nat × Option Error) × σ) (s : σ) (fuel : Nat)
    (r : TxResult) (s' : σ) (sel : List OutPoint)
    (h : NewTx env sp out feePerKb g s fuel = some (r, s')) (hr : r.err = none)
    (hsel : r.outPoints = some sel)
    (hno : NoOverflowSum 0 (sel.map sp.value))
    (hsub : InInt64 ((sel.map sp.value).sum - out.Value))
    (hchg : InInt64 ((sel.map sp.value).sum - out.Value
      - env.fee feePerKb sel.length [out] true)) :
    ∃ tx, r.tx = some tx ∧
      0 ≤ (sel.map sp.value).sum - out.Value - env.fee feePerKb sel.length [out] true ∧
      ((∃ script, tx.TxOut.Perm [out, NewTxOut
          ((sel.map sp.value).sum - out.Value - env.fee feePerKb sel.length [out] true)
          script]) ↔
        (0 < (sel.map sp.value).sum - out.Value - env.fee feePerKb sel.length [out] true ∧
          env.IsDustAmount
            ((sel.map sp.value).sum - out.Value - env.fee feePerKb sel.length [out] true)
            env.P2PKHPkScriptSize feePerKb = false)) ∧
      (¬ (0 < (sel.map sp.value).sum - out.Value - env.fee feePerKb sel.length [out] true ∧
          env.IsDustAmount
            ((sel.map sp.value).sum - out.Value - env.fee feePerKb sel.length [out] true)
            env.P2PKHPkScriptSize feePerKb = false) →
        tx.TxOut = [out] ∧
        inputSum sp tx - outputSum tx = (sel.map sp.value).sum - out.Value) := by
  obtain ⟨sum, sel0, fee, tf, hcs, hfeeq, hle, hfin⟩ := NewTx_ok h hr
  have hs := coinSelection_sum_eq hcs
  have hsel0 : sel0 = sel := by
    rcases hfin with ⟨_, _, _, _, hr', _⟩ | ⟨_, hr', _⟩ <;>
      · rw [hr'] at hsel
        simpa using hsel
  subst hsel0
  rw [hs, sum64_of_noOverflow hno] at hle hfin
  rw [hfeeq] at hle hfin
  rw [changeAmount_exact hsub hchg] at hfin
  unfold sub64 at hle
  rw [wrap64_eq_self hsub] at hle
  rcases hfin with ⟨hc, hd, _, _, hr', _⟩ | ⟨hc, hr', _⟩
  · refine ⟨_, by rw [hr'], by omega, ?_, ?_⟩
    · refine ⟨fun _ => ⟨by omega, hd⟩, fun _ => ⟨(g s).1.1, ?_⟩⟩
      exact InPlaceSort_TxOut_perm _
    · intro hn
      exact absurd ⟨by omega, hd⟩ hn
  · refine ⟨_, by rw [hr'], by omega, ?_, ?_⟩
    · constructor
      · rintro ⟨script, hp⟩
        have := hp.length_eq
        simp [InPlaceSort_TxOut_single] at this
      · rintro ⟨hpos, hd⟩
        rcases hc with hc | hc
        · omega
        · rw [hc] at hd; simp at hd
    · intro _
      refine ⟨rfl, ?_⟩
      rw [inputSum_of_perm sp _ sel0 (InPlaceSort_TxIn_perm _)]
      simp [outputSum, InPlaceSort_TxOut_single]

/-- Witness of C6 (amended): from one output worth 100000, the payment of 40000 leaves a
change of 59796, which is added as an output, and the payment of 99700 leaves a change of 96,
which is dust and is left to the fee. -/
theorem NewTx_change_output_iff_witness :
    ((NewTx sampleEnv singleMap payment 1000 countingProvider 0 1 =
        some (⟨some ⟨1, [NewTxIn opA], [payment, ⟨59796, [7, 7, 7]⟩], 0⟩, some [opA], none⟩,
          1) ∧
      NoOverflowSum 0 ([opA].map singleMap.value) ∧
      InInt64 (([opA].map singleMap.value).sum - payment.Value) ∧
      InInt64 (([opA].map singleMap.value).sum - payment.Value
        - sampleEnv.fee 1000 [opA].length [payment] true)) ∧
      ([opA].map singleMap.value).sum - payment.Value
        - sampleEnv.fee 1000 [opA].length [payment] true = 59796 ∧
      ∃ script, [payment, (⟨59796, [7, 7, 7]⟩ : TxOut)].Perm [payment, NewTxOut
        (([opA].map singleMap.value).sum - payment.Value
          - sampleEnv.fee 1000 [opA].length [payment] true) script]) ∧
    ((NewTx sampleEnv singleMap paymentNearAll 1000 countingProvider 0 1 =
        some (⟨some ⟨1, [NewTxIn opA], [paymentNearAll], 0⟩, some [opA], none⟩, 0) ∧
      NoOverflowSum 0 ([opA].map singleMap.value) ∧
      InInt64 (([opA].map singleMap.value).sum - paymentNearAll.Value) ∧
      InInt64 (([opA].map singleMap.value).sum - paymentNearAll.Value
        - sampleEnv.fee 1000 [opA].length [paymentNearAll] true)) ∧
      ([opA].map singleMap.value).sum - paymentNearAll.Value
        - sampleEnv.fee 1000 [opA].length [paymentNearAll] true = 96 ∧
      inputSum singleMap ⟨1, [NewTxIn opA], [paymentNearAll], 0⟩
          - outputSum ⟨1, [NewTxIn opA], [paymentNearAll], 0⟩
        = ([opA].map singleMap.value).sum - paymentNearAll.Value) := by
  refine ⟨⟨⟨by decide, by decide, by decide, by decide⟩, by decide, ?_⟩,
    ⟨⟨by decide, by decide, by decide, by decide⟩, by decide, ?_⟩⟩
  · obtain ⟨tx, htx, _, hiff, _⟩ :=
      NewTx_change_output_iff sampleEnv singleMap payment 1000 countingProvider 0 1
        ⟨some ⟨1, [NewTxIn opA], [payment, ⟨59796, [7, 7, 7]⟩], 0⟩, some [opA], none⟩ 1 [opA]
        (by decide) rfl rfl (by decide) (by decide) (by decide)
    have htx' : (⟨1, [NewTxIn opA], [payment, ⟨59796, [7, 7, 7]⟩], 0⟩ : MsgTx) = tx :=
      Option.some.inj htx
    rw [← htx'] at hiff
    exact hiff.2 ⟨by decide, by decide⟩
  · obtain ⟨tx, htx, _, _, hno⟩ :=
      NewTx_change_output_iff sampleEnv singleMap paymentNearAll 1000 countingProvider 0 1
        ⟨some ⟨1, [NewTxIn opA], [paymentNearAll], 0⟩, some [opA], none⟩ 0 [opA]
        (by decide) rfl rfl (by decide) (by decide) (by decide)
    have htx' : (⟨1, [NewTxIn opA], [paymentNearAll], 0⟩ : MsgTx) = tx := Option.some.inj htx
    rw [← htx'] at hno
    exact (hno (by decide)).2

/-- Counterexample to C7: four outputs worth 6917529027641081855 each and a payment of
6917529027641081652.  All four are selected and a change output is added, but it is worth
2305843009213693504, the `int64` result of line 120, and not the sum of the selected values
less the payment and the fee of 648, which is 20752587082923245120. -/
theorem NewTx_change_value_wraps :
    (∀ v ∈ wrapMap.values, 0 ≤ v) ∧
    NewTx sampleEnv wrapMap paymentWrap 1000 countingProvider 0 1 =
      some (⟨some ⟨1, [NewTxIn opA, NewTxIn opB, NewTxIn opC, NewTxIn opD],
        [⟨2305843009213693504, [7, 7, 7]⟩, paymentWrap], 0⟩,
        some [opA, opB, opC, opD], none⟩, 1) ∧
    ([opA, opB, opC, opD].map wrapMap.value).sum - paymentWrap.Value
      - sampleEnv.fee 1000 4 [paymentWrap] true = 20752587082923245120 := by
  refine ⟨by decide, by decide, by decide⟩

/-- C7, amended. For every successful `NewTx` without `int64` overflow (in adding up the
selected values and in the two subtractions of line 120) in which a change output is added,
the transaction has exactly two outputs which, up to order, are the payment output as given
and a change output carrying the script returned by `getChangePKScript` and worth the sum of
the selected values less `output.Value` and less the fee for the number of selected
outpoints. -/
theorem NewTx_two_outputs_with_change {σ : Type} (env : Env) (sp : OutputMap) (out : TxOut)
    (feePerKb : Int) (g : σ → (List Nat × Option Error) × σ) (s : σ) (fuel : Nat)
    (r : TxResult) (s' : σ) (tx : MsgTx) (sel : List OutPoint)
    (h : NewTx env sp out feePerKb g s fuel = some (r, s')) (htx : r.tx = some tx)
    (hch : tx.TxOut ≠ [out]) (hsel : r.outPoints = some sel)
    (hno : NoOverflowSum 0 (sel.map sp.value))
    (hsub : InInt64 ((sel.map sp.value).sum - out.Value))
    (hchg : InInt64 ((sel.map sp.value).sum - out.Value
      - env.fee feePerKb sel.length [out] true)) :
    r.err = none ∧ tx.TxIn.length = sel.length ∧
      tx.TxOut.length = 2 ∧
      tx.TxOut.Perm [out, NewTxOut
        ((sel.map sp.value).sum - out.Value - env.fee feePerKb sel.length [out] true)
        (g s).1.1] ∧
      s' = (g s).2 := by
  have hr : r.err = none := NewTx_err_of_tx h htx
  obtain ⟨sum, sel0, fee, tf, hcs, hfeeq, hle, hfin⟩ := NewTx_ok h hr
  have hs := coinSelection_sum_eq hcs
  rcases hfin with ⟨hc, hd, _, _, hr', hs'⟩ | ⟨hc, hr', _⟩
  · have hsel0 : sel0 = sel := by
      rw [hr'] at hsel
      simpa using hsel
    subst hsel0
    rw [hr'] at htx
    simp only [Option.some.injEq] at htx
    have hout : tx.TxOut.Perm [out, NewTxOut (changeAmount out sum fee) (g s).1.1] := by
      rw [← htx]; exact InPlaceSort_TxOut_perm _
    rw [hs, hfeeq, sum64_of_noOverflow hno, changeAmount_exact hsub hchg] at hout
    refine ⟨hr, ?_, ?_, hout, hs'⟩
    · rw [← htx, (InPlaceSort_TxIn_perm _).length_eq]; simp
    · rw [hout.length_eq]; rfl
  · rw [hr'] at htx
    simp only [Option.some.injEq] at htx
    exact absurd (by rw [← htx]; rfl) hch

/-- Witness of C7 (amended): one output worth 100000 and a payment of 40000 give one input
and the outputs 40000 and 59796, which is 60000 minus the fee of 204. -/
theorem NewTx_two_outputs_with_change_witness :
    (NewTx sampleEnv singleMap payment 1000 countingProvider 0 1 =
        some (⟨some ⟨1, [NewTxIn opA], [payment, ⟨59796, [7, 7, 7]⟩], 0⟩, some [opA], none⟩, 1) ∧
      [payment, (⟨59796, [7, 7, 7]⟩ : TxOut)] ≠ [payment] ∧
      NoOverflowSum 0 ([opA].map singleMap.value) ∧
      InInt64 (([opA].map singleMap.value).sum - payment.Value) ∧
      InInt64 (([opA].map singleMap.value).sum - payment.Value
        - sampleEnv.fee 1000 [opA].length [payment] true)) ∧
    ((none : Option Error) = none ∧
      [NewTxIn opA].length = [opA].length ∧
      [payment, (⟨59796, [7, 7, 7]⟩ : TxOut)].length = 2 ∧
      [payment, (⟨59796, [7, 7, 7]⟩ : TxOut)].Perm [payment, NewTxOut
        (([opA].map singleMap.value).sum - payment.Value
          - sampleEnv.fee 1000 [opA].length [payment] true)
        (countingProvider 0).1.1] ∧
      1 = (countingProvider 0).2) :=
  ⟨⟨by decide, by decide, by decide, by decide, by decide⟩,
    NewTx_two_outputs_with_change sampleEnv singleMap payment 1000 countingProvider 0 1
      ⟨some ⟨1, [NewTxIn opA], [payment, ⟨59796, [7, 7, 7]⟩], 0⟩, some [opA], none⟩ 1
      ⟨1, [NewTxIn opA], [payment, ⟨59796, [7, 7, 7]⟩], 0⟩ [opA] (by decide) rfl (by decide)
      rfl (by decide) (by decide) (by decide)⟩

/-- C8. When the loop of `NewTx` has settled on a selection whose change is non-zero and not
dust, and `getChangePKScript` returns a script without error: if the script is longer than
`P2PKHPkScriptSize`, `NewTx` returns the error of line 127 with a nil transaction and a nil
outpoint list; if its length is `P2PKHPkScriptSize` or less, `NewTx` returns a transaction
with the change output. -/
theorem NewTx_change_script_guard {σ : Type} (env : Env) (sp : OutputMap) (out : TxOut)
    (feePerKb : Int) (g : σ → (List Nat × Option Error) × σ) (s : σ) (fuel : Nat)
    (sum : Int) (sel : List OutPoint) (fee : Int)
    (hloop : feeLoop env sp out feePerKb fuel (env.fee feePerKb 1 [out] true)
      = some (.converged sum sel fee))
    (hc : changeAmount out sum fee ≠ 0)
    (hd : env.IsDustAmount (changeAmount out sum fee) env.P2PKHPkScriptSize feePerKb = false)
    (hg : (g s).1.2 = none) :
    ((g s).1.1.length > env.P2PKHPkScriptSize →
      NewTx env sp out feePerKb g s fuel
        = some (⟨none, none, some errChangeScriptTooLarge⟩, (g s).2)) ∧
    ((g s).1.1.length ≤ env.P2PKHPkScriptSize →
      ∃ tx, NewTx env sp out feePerKb g s fuel = some (⟨some tx, some sel, none⟩, (g s).2) ∧
        tx.TxOut.Perm [out, NewTxOut (changeAmount out sum fee) (g s).1.1]) := by
  have hN : NewTx env sp out feePerKb g s fuel
      = some (finishTx env out feePerKb g s sum sel fee) := by
    unfold NewTx
    simp only [hloop]
  rw [hN, finishTx_change env out feePerKb g s sum sel fee hc hd, hg]
  constructor
  · intro hlen
    simp only [hlen, if_true]
  · intro hlen
    have : ¬ (g s).1.1.length > env.P2PKHPkScriptSize := by omega
    simp only [this, if_false]
    exact ⟨_, rfl, InPlaceSort_TxOut_perm _⟩

/-- Witness of C8: a change script of 26 bytes where `P2PKHPkScriptSize` is 25. -/
theorem NewTx_change_script_guard_witness :
    (feeLoop sampleEnv singleMap payment 1000 1 (sampleEnv.fee 1000 1 [payment] true)
        = some (.converged 100000 [opA] 204) ∧
      changeAmount payment 100000 204 ≠ 0 ∧
      sampleEnv.IsDustAmount (changeAmount payment 100000 204) sampleEnv.P2PKHPkScriptSize 1000
        = false ∧
      (longProvider 0).1.2 = none ∧
      (longProvider 0).1.1.length > sampleEnv.P2PKHPkScriptSize) ∧
    NewTx sampleEnv singleMap payment 1000 longProvider 0 1
      = some (⟨none, none, some errChangeScriptTooLarge⟩, (longProvider 0).2) :=
  ⟨⟨by decide, by decide, by decide, by decide, by decide⟩,
    (NewTx_change_script_guard sampleEnv singleMap payment 1000 longProvider 0 1 100000 [opA]
      204 (by decide) (by decide) (by decide) (by decide)).1 (by decide)⟩

/-- Counterexample to C9: outputs worth 6000 and 4000, a payment of the largest `int64` and
1000 per kB.  The total 10000 is below the payment, the fees are not negative, and yet no
number of iterations makes `NewTx` return: it reports no error at all. -/
theorem NewTx_paymentMax_never_returns :
    (∀ v ∈ poorMap.values, 0 ≤ v) ∧
    poorMap.values.sum < paymentMax.Value ∧
    poorMap.values.sum < paymentMax.Value + sampleEnv.fee 1000 1 [paymentMax] true ∧
    (∀ n, 0 ≤ sampleEnv.fee 1000 n [paymentMax] true) ∧
    ∀ fuel, NewTx sampleEnv poorMap paymentMax 1000 countingProvider 0 fuel = none := by
  refine ⟨by decide, by decide, by decide, ?_, ?_⟩
  · intro n
    simp only [Env.fee, sampleEnv, sampleEstimateSerializeSize, paymentMax]
    simp
    omega
  · intro fuel
    have hseed : sampleEnv.fee 1000 1 [paymentMax] true = 204 := by decide
    unfold NewTx
    simp only [hseed, (feeLoop_paymentMax_none fuel).2]

/-- C9, amended. For non-negative values whose total is less than `output.Value` plus the seed
fee, where that sum is itself an `int64` (line 96 does not wrap around), `NewTx` returns in its
first iteration the "insufficient funds" error with a nil transaction and a nil outpoint list,
and the state of `getChangePKScript` is untouched: it is never called. -/
theorem NewTx_insufficient_funds {σ : Type} (env : Env) (sp : OutputMap) (out : TxOut)
    (feePerKb : Int) (g : σ → (List Nat × Option Error) × σ) (s : σ) (fuel : Nat)
    (hv : ∀ v ∈ sp.values, 0 ≤ v)
    (hin : InInt64 (out.Value + env.fee feePerKb 1 [out] true))
    (hlt : sp.values.sum < out.Value + env.fee feePerKb 1 [out] true) :
    NewTx env sp out feePerKb g s (fuel + 1)
      = some (⟨none, none, some errInsufficientFunds⟩, s) := by
  have hadd : add64 out.Value (env.fee feePerKb 1 [out] true)
      = out.Value + env.fee feePerKb 1 [out] true := wrap64_eq_self hin
  have hsum : sp.values.sum ≤ maxInt64 := le_trans (le_of_lt hlt) hin.2
  have hcs := (coinSelection_err_iff (add64 out.Value (env.fee feePerKb 1 [out] true)) sp
    hv hsum).1 (by rw [hadd]; exact hlt)
  unfold NewTx
  simp only [feeLoop_fail_first env sp out feePerKb fuel _ hcs]

/-- Witness of C9 (amended): outputs worth 6000 and 4000, a payment of 50000. -/
theorem NewTx_insufficient_funds_witness :
    ((∀ v ∈ poorMap.values, 0 ≤ v) ∧
      InInt64 (paymentLarge.Value + sampleEnv.fee 1000 1 [paymentLarge] true) ∧
      poorMap.values.sum < paymentLarge.Value + sampleEnv.fee 1000 1 [paymentLarge] true) ∧
    NewTx sampleEnv poorMap paymentLarge 1000 countingProvider 0 (0 + 1)
      = some (⟨none, none, some errInsufficientFunds⟩, 0) :=
  ⟨⟨by decide, by decide, by decide⟩,
    NewTx_insufficient_funds sampleEnv poorMap paymentLarge 1000 countingProvider 0 0
      (by decide) (by decide) (by decide)⟩

/-- C10. When the loop of `NewTx` has settled on a selection whose change is non-zero and not
dust, and `getChangePKScript` returns an error, `NewTx` returns exactly that error together
with a nil transaction and a nil outpoint list. -/
theorem NewTx_change_provider_error {σ : Type} (env : Env) (sp : OutputMap) (out : TxOut)
    (feePerKb : Int) (g : σ → (List Nat × Option Error) × σ) (s : σ) (fuel : Nat)
    (sum : Int) (sel : List OutPoint) (fee : Int) (e : Error)
    (hloop : feeLoop env sp out feePerKb fuel (env.fee feePerKb 1 [out] true)
      = some (.converged sum sel fee))
    (hc : changeAmount out sum fee ≠ 0)
    (hd : env.IsDustAmount (changeAmount out sum fee) env.P2PKHPkScriptSize feePerKb = false)
    (hg : (g s).1.2 = some e) :
    NewTx env sp out feePerKb g s fuel = some (⟨none, none, some e⟩, (g s).2) := by
  have hN : NewTx env sp out feePerKb g s fuel
      = some (finishTx env out feePerKb g s sum sel fee) := by
    unfold NewTx
    simp only [hloop]
  rw [hN, finishTx_change env out feePerKb g s sum sel fee hc hd, hg]

/-- Witness of C10: a provider that has no address left. -/
theorem NewTx_change_provider_error_witness :
    (feeLoop sampleEnv singleMap payment 1000 1 (sampleEnv.fee 1000 1 [payment] true)
        = some (.converged 100000 [opA] 204) ∧
      changeAmount payment 100000 204 ≠ 0 ∧
      sampleEnv.IsDustAmount (changeAmount payment 100000 204) sampleEnv.P2PKHPkScriptSize 1000
        = false ∧
      (failingProvider 0).1.2 = some ⟨"no unused address"⟩) ∧
    NewTx sampleEnv singleMap payment 1000 failingProvider 0 1
      = some (⟨none, none, some ⟨"no unused address"⟩⟩, (failingProvider 0).2) :=
  ⟨⟨by decide, by decide, by decide, by decide⟩,
    NewTx_change_provider_error sampleEnv singleMap payment 1000 failingProvider 0 1 100000
      [opA] 204 ⟨"no unused address"⟩ (by decide) (by decide) (by decide) (by decide)⟩

/-- Counterexample to C11: outputs worth 1100, 200, 190 and 180, a payment of 1000 and 1000 per
kB, with a fee that grows with the number of inputs.  The first call of `coinSelection` takes
two outputs, the second three and only the third, with all four, covers the fee: `NewTx` has
not returned after two calls and returns a transaction after the third. -/
theorem NewTx_needs_three_selections :
    (∀ v ∈ gradedMap.values, 0 ≤ v) ∧
    (∀ n, sampleEnv.fee 1000 n [paymentThousand] true
      ≤ sampleEnv.fee 1000 (n + 1) [paymentThousand] true) ∧
    NewTx sampleEnv gradedMap paymentThousand 1000 countingProvider 0 2 = none ∧
    NewTxCalls sampleEnv gradedMap paymentThousand 1000 3 = some 3 ∧
    NewTx sampleEnv gradedMap paymentThousand 1000 countingProvider 0 3 =
      some (⟨some ⟨1, [NewTxIn opA, NewTxIn opB, NewTxIn opC, NewTxIn opD], [paymentThousand], 0⟩,
        some [opA, opB, opC, opD], none⟩, 0) := by
  refine ⟨by decide, ?_, by decide, by decide, by decide⟩
  intro n
  simp only [Env.fee, sampleEnv, sampleEstimateSerializeSize, paymentThousand]
  simp
  omega

/-- C11, amended. For non-negative values whose total is an `int64`, a non-negative payment and
a fee that does not decrease with the number of inputs, where the payment plus the fee for up
to `N` inputs is an `int64` (`N` the number of spendable outputs, at least 1), `NewTx` returns
after at most `N` calls of `coinSelection`. -/
theorem NewTx_selections_bound {σ : Type} (env : Env) (sp : OutputMap) (out : TxOut)
    (feePerKb : Int) (g : σ → (List Nat × Option Error) × σ) (s : σ)
    (hv : ∀ v ∈ sp.values, 0 ≤ v) (hsum : sp.values.sum ≤ maxInt64)
    (ht0 : 0 ≤ out.Value) (ht1 : out.Value ≤ maxInt64)
    (hfee : ∀ n, n ≤ max 1 sp.length → InInt64 (out.Value + env.fee feePerKb n [out] true))
    (hmono : ∀ n, env.fee feePerKb n [out] true ≤ env.fee feePerKb (n + 1) [out] true) :
    ∃ r c, NewTx env sp out feePerKb g s (max 1 sp.length) = some r ∧
      NewTxCalls env sp out feePerKb (max 1 sp.length) = some c ∧ c ≤ max 1 sp.length := by
  have hp := sortedValues_perm sp
  obtain ⟨f, hf⟩ : ∃ f, max 1 sp.length = f + 1 := ⟨max 1 sp.length - 1, by omega⟩
  have key : ∃ e c, feeLoopCalls env sp out feePerKb (max 1 sp.length)
      (env.fee feePerKb 1 [out] true) = some (e, c) ∧ c ≤ max 1 sp.length := by
    rw [hf]
    rcases feeLoopCalls_step env sp out feePerKb hv hsum ht0 ht1 f
        (env.fee feePerKb 1 [out] true) (hfee 1 (by omega)) with
      ⟨e, he⟩ | ⟨k, hk, _, hge, hcont, heq⟩
    · exact ⟨e, 1, he, by omega⟩
    · have hk2 : 2 ≤ k := by
        by_contra hcon
        have h01 : k = 0 ∨ k = 1 := by omega
        rcases h01 with rfl | rfl
        · have := hmono 0
          simp only [zero_add] at this
          omega
        · omega
      have hv' : ∀ v ∈ (sortedOutPoints sp).map sp.value, 0 ≤ v :=
        fun v hv' => hv v (hp.subset hv')
      obtain ⟨e, c, hec, hc⟩ := feeLoopCalls_bound env sp out feePerKb hv hsum ht0 ht1
        (fun n hn => hfee n (by omega)) (sp.length - k) (k + 1)
        (env.fee feePerKb k [out] true) f (by omega) (hfee k (by omega))
        (fun j hj _ => lt_of_le_of_lt (sum_take_mono hv' (by omega)) hcont) (by omega)
      refine ⟨e, c + 1, ?_, by omega⟩
      rw [heq, hec]
      rfl
  obtain ⟨e, c, hec, hc⟩ := key
  obtain ⟨r, hr⟩ := NewTx_isSome_of_feeLoopCalls env sp out feePerKb g s _ e c hec
  refine ⟨r, c, hr, ?_, hc⟩
  unfold NewTxCalls
  rw [hec]
  rfl

/-- Witness of C11 (amended): the four outputs 1100, 200, 190 and 180 and the payment of 1000
need three calls, which is no more than four. -/
theorem NewTx_selections_bound_witness :
    ((∀ v ∈ gradedMap.values, 0 ≤ v) ∧ gradedMap.values.sum ≤ maxInt64 ∧
      0 ≤ paymentThousand.Value ∧ paymentThousand.Value ≤ maxInt64 ∧
      (∀ n, n ≤ max 1 gradedMap.length →
        InInt64 (paymentThousand.Value + sampleEnv.fee 1000 n [paymentThousand] true)) ∧
      (∀ n, sampleEnv.fee 1000 n [paymentThousand] true
        ≤ sampleEnv.fee 1000 (n + 1) [paymentThousand] true)) ∧
    (∃ r c, NewTx sampleEnv gradedMap paymentThousand 1000 countingProvider 0
        (max 1 gradedMap.length) = some r ∧
      NewTxCalls sampleEnv gradedMap paymentThousand 1000 (max 1 gradedMap.length) = some c ∧
      c ≤ max 1 gradedMap.length) :=
  have hmono : ∀ n : Nat, sampleEnv.fee 1000 n [paymentThousand] true
      ≤ sampleEnv.fee 1000 (n + 1) [paymentThousand] true := by
    intro n
    simp only [Env.fee, sampleEnv, sampleEstimateSerializeSize, paymentThousand]
    simp
    omega
  have hfee : ∀ n : Nat, n ≤ max 1 gradedMap.length →
      InInt64 (paymentThousand.Value + sampleEnv.fee 1000 n [paymentThousand] true) := by
    intro n hn
    have hn4 : n ≤ 4 := hn
    simp only [Env.fee, sampleEnv, sampleEstimateSerializeSize, paymentThousand, InInt64,
      minInt64, maxInt64]
    simp
    omega
  ⟨⟨by decide, by decide, by decide, by decide, hfee, hmono⟩,
    NewTx_selections_bound sampleEnv gradedMap paymentThousand 1000 countingProvider 0
      (by decide) (by decide) (by decide) (by decide) hfee hmono⟩

/-- C12. When `NewTxSpendAll` succeeds on a map (distinct keys), the transaction has exactly one
input per map entry, each key of the map is the previous outpoint of exactly one input, the
returned outpoint list contains every key exactly once, and the transaction has exactly one
output, which carries `outputPkScript`. -/
theorem NewTxSpendAll_spends_every_output (env : Env) (sp : OutputMap) (script : List Nat)
    (feePerKb : Int) (hnd : sp.keys.Nodup)
    (h : (NewTxSpendAll env sp script feePerKb).err = none) :
    ∃ tx, (NewTxSpendAll env sp script feePerKb).tx = some tx ∧
      tx.TxIn.length = sp.length ∧
      (tx.TxIn.map TxIn.PreviousOutPoint).Perm sp.keys ∧
      (∀ k ∈ sp.keys, (tx.TxIn.map TxIn.PreviousOutPoint).count k = 1) ∧
      (NewTxSpendAll env sp script feePerKb).outPoints = some sp.keys ∧
      (∀ k ∈ sp.keys, sp.keys.count k = 1) ∧
      ∃ v, tx.TxOut = [⟨v, script⟩] := by
  rw [NewTxSpendAll_eq] at h ⊢
  split at h
  · simp at h
  · rename_i hlt
    rw [if_neg hlt]
    have hperm : ((InPlaceSort ⟨TxVersion, sp.keys.map NewTxIn,
        [NewTxOut (sub64 (sum64 (sp.map fun entry => entry.2.Value))
          (env.fee feePerKb sp.length [NewTxOut 0 script] false)) script], 0⟩).TxIn.map
        TxIn.PreviousOutPoint).Perm sp.keys := by
      have := (InPlaceSort_TxIn_perm ⟨TxVersion, sp.keys.map NewTxIn,
        [NewTxOut (sub64 (sum64 (sp.map fun entry => entry.2.Value))
          (env.fee feePerKb sp.length [NewTxOut 0 script] false)) script], 0⟩).map
        TxIn.PreviousOutPoint
      rwa [map_PreviousOutPoint_NewTxIn] at this
    refine ⟨_, rfl, ?_, hperm, ?_, rfl, ?_, ⟨_, rfl⟩⟩
    · have := hperm.length_eq
      rwa [List.length_map, keys_length] at this
    · intro k hk
      rw [hperm.count_eq]
      exact List.count_eq_one_of_mem hnd hk
    · intro k hk
      exact List.count_eq_one_of_mem hnd hk

/-- Witness of C12: the sweep of the outputs 50000 and 30000. -/
theorem NewTxSpendAll_spends_every_output_witness :
    (sweepMap.keys.Nodup ∧ (NewTxSpendAll sampleEnv sweepMap [1, 2, 3] 1000).err = none) ∧
    (∃ tx, (NewTxSpendAll sampleEnv sweepMap [1, 2, 3] 1000).tx = some tx ∧
      tx.TxIn.length = sweepMap.length ∧
      (tx.TxIn.map TxIn.PreviousOutPoint).Perm sweepMap.keys ∧
      (∀ k ∈ sweepMap.keys, (tx.TxIn.map TxIn.PreviousOutPoint).count k = 1) ∧
      (NewTxSpendAll sampleEnv sweepMap [1, 2, 3] 1000).outPoints = some sweepMap.keys ∧
      (∀ k ∈ sweepMap.keys, sweepMap.keys.count k = 1) ∧
      ∃ v, tx.TxOut = [⟨v, [1, 2, 3]⟩]) :=
  ⟨⟨by decide, by decide⟩,
    NewTxSpendAll_spends_every_output sampleEnv sweepMap [1, 2, 3] 1000 (by decide)
      (by decide)⟩

/-- Counterexample to C13: two outputs worth the largest `int64` each and one worth 100002.
The `int64` sum of line 60 wraps around to 100000, the sweep succeeds and its output is
worth 99534, while the total of the values less the fee of 466 is 18446744073709651150. -/
theorem NewTxSpendAll_output_wraps :
    (∀ entry ∈ maxSweepMap, 0 ≤ entry.2.Value) ∧
    NewTxSpendAll sampleEnv maxSweepMap [1, 2, 3] 1000 =
      ⟨99534, some ⟨1, [NewTxIn opA, NewTxIn opB, NewTxIn opC], [⟨99534, [1, 2, 3]⟩], 0⟩,
        some [opA, opB, opC], none⟩ ∧
    (maxSweepMap.map fun entry => entry.2.Value).sum
      - sampleEnv.fee 1000 maxSweepMap.length [NewTxOut 0 [1, 2, 3]] false
      = 18446744073709651150 := by
  refine ⟨by decide, by decide, by decide⟩

/-- C13, amended. When `NewTxSpendAll` succeeds over `n` outputs without `int64` overflow (in
adding up the values and in subtracting the fee), the single output of the transaction is
worth `S - F`, where `S` is the sum of all values and `F` is the fee for `n` inputs and the
one output without change, and the amount returned first is that value. -/
theorem NewTxSpendAll_output_value (env : Env) (sp : OutputMap) (script : List Nat)
    (feePerKb : Int) (h : (NewTxSpendAll env sp script feePerKb).err = none)
    (hno : NoOverflowSum 0 (sp.map fun entry => entry.2.Value))
    (hin : InInt64 ((sp.map fun entry => entry.2.Value).sum
      - env.fee feePerKb sp.length [NewTxOut 0 script] false)) :
    ∃ tx, (NewTxSpendAll env sp script feePerKb).tx = some tx ∧
      tx.TxOut = [⟨(sp.map fun entry => entry.2.Value).sum
        - env.fee feePerKb sp.length [NewTxOut 0 script] false, script⟩] ∧
      (NewTxSpendAll env sp script feePerKb).amount
        = (sp.map fun entry => entry.2.Value).sum
          - env.fee feePerKb sp.length [NewTxOut 0 script] false := by
  have hsub : sub64 (sp.map fun entry => entry.2.Value).sum
      (env.fee feePerKb sp.length [NewTxOut 0 script] false)
      = (sp.map fun entry => entry.2.Value).sum
        - env.fee feePerKb sp.length [NewTxOut 0 script] false := wrap64_eq_self hin
  rw [NewTxSpendAll_eq, sum64_of_noOverflow hno, hsub] at h ⊢
  split at h
  · simp at h
  · rename_i hlt
    rw [if_neg hlt]
    exact ⟨_, rfl, rfl, rfl⟩

/-- Witness of C13 (amended): the outputs 50000 and 30000 are swept into one output of 79682,
which is 80000 minus the fee of 318. -/
theorem NewTxSpendAll_output_value_witness :
    ((NewTxSpendAll sampleEnv sweepMap [1, 2, 3] 1000).err = none ∧
      NoOverflowSum 0 (sweepMap.map fun entry => entry.2.Value) ∧
      InInt64 ((sweepMap.map fun entry => entry.2.Value).sum
        - sampleEnv.fee 1000 sweepMap.length [NewTxOut 0 [1, 2, 3]] false)) ∧
    (NewTxSpendAll sampleEnv sweepMap [1, 2, 3] 1000).amount = 79682 ∧
    sampleEnv.fee 1000 sweepMap.length [NewTxOut 0 [1, 2, 3]] false = 318 ∧
    (∃ tx, (NewTxSpendAll sampleEnv sweepMap [1, 2, 3] 1000).tx = some tx ∧
      tx.TxOut = [⟨(sweepMap.map fun entry => entry.2.Value).sum
        - sampleEnv.fee 1000 sweepMap.length [NewTxOut 0 [1, 2, 3]] false, [1, 2, 3]⟩] ∧
      (NewTxSpendAll sampleEnv sweepMap [1, 2, 3] 1000).amount
        = (sweepMap.map fun entry => entry.2.Value).sum
          - sampleEnv.fee 1000 sweepMap.length [NewTxOut 0 [1, 2, 3]] false) :=
  ⟨⟨by decide, by decide, by decide⟩, by decide, by decide,
    NewTxSpendAll_output_value sampleEnv sweepMap [1, 2, 3] 1000 (by decide) (by decide)
      (by decide)⟩

/-- Counterexample to C14: two outputs worth `2^62` each.  Their total `2^63` is not below
the fee of 318, but the `int64` sum of line 60 wraps around to `-2^63` and the sweep fails
with "insufficient funds for fee". -/
theorem NewTxSpendAll_insufficient_despite_total :
    (∀ entry ∈ hugeMap, 0 ≤ entry.2.Value) ∧
    NewTxSpendAll sampleEnv hugeMap [1, 2, 3] 1000
      = ⟨0, none, none, some errInsufficientFundsForFee⟩ ∧
    sampleEnv.fee 1000 hugeMap.length [NewTxOut 0 [1, 2, 3]] false = 318 ∧
    ¬ ((hugeMap.map fun entry => entry.2.Value).sum
      < sampleEnv.fee 1000 hugeMap.length [NewTxOut 0 [1, 2, 3]] false) := by
  refine ⟨by decide, by decide, by decide, by decide⟩

/-- C14, amended. When adding up the values of the spendable outputs does not overflow
`int64`, `NewTxSpendAll` returns the "insufficient funds for fee" error if and only if the
sum `S` of all values is below the fee `F` for `n` inputs and the one output without change;
with that error it returns the amount 0, a nil transaction and a nil outpoint list, and it
returns no other error. -/
theorem NewTxSpendAll_insufficient_iff (env : Env) (sp : OutputMap) (script : List Nat)
    (feePerKb : Int) (hno : NoOverflowSum 0 (sp.map fun entry => entry.2.Value)) :
    ((NewTxSpendAll env sp script feePerKb).err = some errInsufficientFundsForFee ↔
      (sp.map fun entry => entry.2.Value).sum
        < env.fee feePerKb sp.length [NewTxOut 0 script] false) ∧
    ((NewTxSpendAll env sp script feePerKb).err ≠ none →
      NewTxSpendAll env sp script feePerKb
        = ⟨0, none, none, some errInsufficientFundsForFee⟩) := by
  rw [NewTxSpendAll_eq, sum64_of_noOverflow hno]
  refine ⟨?_, ?_⟩
  · split
    · rename_i hlt; exact ⟨fun _ => hlt, fun _ => rfl⟩
    · rename_i hlt; exact ⟨fun h => by simp at h, fun h => absurd h hlt⟩
  · split
    · intro _; rfl
    · intro h; simp at h

/-- Witness of C14 (amended): one output worth 100 cannot pay the fee of 170 for its own
sweep. -/
theorem NewTxSpendAll_insufficient_iff_witness :
    NoOverflowSum 0 ([(opA, (⟨100, []⟩ : TxOut))].map fun entry => entry.2.Value) ∧
    NewTxSpendAll sampleEnv [(opA, ⟨100, []⟩)] [1, 2, 3] 1000
      = ⟨0, none, none, some errInsufficientFundsForFee⟩ ∧
    ([(opA, (⟨100, []⟩ : TxOut))].map fun entry => entry.2.Value).sum
      < sampleEnv.fee 1000 [(opA, (⟨100, []⟩ : TxOut))].length [NewTxOut 0 [1, 2, 3]] false :=
  ⟨by decide, by decide,
    (NewTxSpendAll_insufficient_iff sampleEnv [(opA, ⟨100, []⟩)] [1, 2, 3] 1000
      (by decide)).1.1 (by decide)⟩

/-- C15. Every transaction returned by a successful `NewTx` or `NewTxSpendAll` is in canonical
order: `txsort.IsSorted` holds for it, no input is less than an earlier input by (previous
transaction hash, output index) and no output is less than an earlier output by (value,
locking script). -/
theorem built_transactions_sorted :
    (∀ (σ : Type) (env : Env) (sp : OutputMap) (out : TxOut) (feePerKb : Int)
      (g : σ → (List Nat × Option Error) × σ) (s : σ) (fuel : Nat) (r : TxResult) (s' : σ)
      (tx : MsgTx), NewTx env sp out feePerKb g s fuel = some (r, s') → r.tx = some tx →
      IsSorted tx = true ∧ tx.TxIn.Pairwise (fun a b => inputLess b a = false) ∧
        tx.TxOut.Pairwise (fun a b => outputLess b a = false)) ∧
    (∀ (env : Env) (sp : OutputMap) (script : List Nat) (feePerKb : Int) (tx : MsgTx),
      (NewTxSpendAll env sp script feePerKb).tx = some tx →
      IsSorted tx = true ∧ tx.TxIn.Pairwise (fun a b => inputLess b a = false) ∧
        tx.TxOut.Pairwise (fun a b => outputLess b a = false)) := by
  have key : ∀ tx : MsgTx, IsSorted (InPlaceSort tx) = true ∧
      (InPlaceSort tx).TxIn.Pairwise (fun a b => inputLess b a = false) ∧
      (InPlaceSort tx).TxOut.Pairwise (fun a b => outputLess b a = false) := by
    intro tx
    refine ⟨IsSorted_InPlaceSort tx, ?_, ?_⟩
    · exact (sortBy_inputs_pairwise tx.TxIn).imp (fun h => by simpa using h)
    · exact (sortBy_outputs_pairwise tx.TxOut).imp (fun h => by simpa using h)
  constructor
  · intro σ env sp out feePerKb g s fuel r s' tx h htx
    obtain ⟨sel, outs, _, hr⟩ := NewTx_ok_tx h (NewTx_err_of_tx h htx)
    rw [hr] at htx
    simp only [Option.some.injEq] at htx
    rw [← htx]
    exact key _
  · intro env sp script feePerKb tx htx
    rw [NewTxSpendAll_eq] at htx
    split at htx
    · simp at htx
    · simp only [Option.some.injEq] at htx
      rw [← htx]
      exact key _

/-- Witness of C15: the payment of 99000 from one output worth 100000, whose change of 796 is
sorted before the payment, and the sweep of the outputs 50000 and 30000. -/
theorem built_transactions_sorted_witness :
    (NewTx sampleEnv singleMap ⟨99000, [1, 2, 3]⟩ 1000 countingProvider 0 1 =
        some (⟨some ⟨1, [NewTxIn opA], [⟨796, [7, 7, 7]⟩, ⟨99000, [1, 2, 3]⟩], 0⟩,
          some [opA], none⟩, 1) ∧
      IsSorted ⟨1, [NewTxIn opA], [⟨796, [7, 7, 7]⟩, ⟨99000, [1, 2, 3]⟩], 0⟩ = true) ∧
    ((NewTxSpendAll sampleEnv sweepMap [1, 2, 3] 1000).tx
        = some ⟨1, [NewTxIn opA, NewTxIn opB], [⟨79682, [1, 2, 3]⟩], 0⟩ ∧
      IsSorted ⟨1, [NewTxIn opA, NewTxIn opB], [⟨79682, [1, 2, 3]⟩], 0⟩ = true) :=
  ⟨⟨by decide,
      (built_transactions_sorted.1 Nat sampleEnv singleMap ⟨99000, [1, 2, 3]⟩ 1000
        countingProvider 0 1
        ⟨some ⟨1, [NewTxIn opA], [⟨796, [7, 7, 7]⟩, ⟨99000, [1, 2, 3]⟩], 0⟩, some [opA], none⟩
        1 _ (by decide) rfl).1⟩,
    ⟨by decide,
      (built_transactions_sorted.2 sampleEnv sweepMap [1, 2, 3] 1000 _ (by decide)).1⟩⟩

/-- C16. For every successful `NewTx` on a map (distinct keys), the returned outpoint list has
no duplicates, each of its elements is a key of `spendableOutputs`, the previous outpoints of
the inputs of the transaction are the returned outpoints up to order, one input for each, and
every input has a nil signature script and a nil witness. -/
theorem NewTx_outpoints_consumed {σ : Type} (env : Env) (sp : OutputMap) (out : TxOut)
    (feePerKb : Int) (g : σ → (List Nat × Option Error) × σ) (s : σ) (fuel : Nat)
    (r : TxResult) (s' : σ) (hnd : sp.keys.Nodup)
    (h : NewTx env sp out feePerKb g s fuel = some (r, s')) (hr : r.err = none) :
    ∃ tx sel, r.tx = some tx ∧ r.outPoints = some sel ∧
      sel.Nodup ∧ (∀ o ∈ sel, o ∈ sp.keys) ∧
      (tx.TxIn.map TxIn.PreviousOutPoint).Perm sel ∧
      tx.TxIn.length = sel.length ∧
      (∀ o ∈ sel, (tx.TxIn.map TxIn.PreviousOutPoint).count o = 1) ∧
      (∀ i ∈ tx.TxIn, i.SignatureScript = none ∧ i.Witness = none) := by
  obtain ⟨sel, outs, hsub, hr'⟩ := NewTx_ok_tx h hr
  have hsnd : sel.Nodup := hsub.nodup (sortedOutPoints_nodup sp hnd)
  have hperm : ((InPlaceSort ⟨TxVersion, sel.map NewTxIn, outs, 0⟩).TxIn.map
      TxIn.PreviousOutPoint).Perm sel := by
    have := (InPlaceSort_TxIn_perm ⟨TxVersion, sel.map NewTxIn, outs, 0⟩).map
      TxIn.PreviousOutPoint
    rwa [map_PreviousOutPoint_NewTxIn] at this
  refine ⟨_, sel, by rw [hr'], by rw [hr'], hsnd, ?_, hperm, ?_, ?_, ?_⟩
  · intro o ho
    exact (sortBy_perm _ sp.keys).subset (hsub.subset ho)
  · have := hperm.length_eq
    rwa [List.length_map] at this
  · intro o ho
    rw [hperm.count_eq]
    exact List.count_eq_one_of_mem hsnd ho
  · intro i hi
    have hi' := (InPlaceSort_TxIn_perm ⟨TxVersion, sel.map NewTxIn, outs, 0⟩).subset hi
    simp only [List.mem_map] at hi'
    obtain ⟨o, _, rfl⟩ := hi'
    exact ⟨rfl, rfl⟩

/-- Witness of C16: the three-call payment of 1000 from the outputs 1100, 200, 190 and 180. -/
theorem NewTx_outpoints_consumed_witness :
    (gradedMap.keys.Nodup ∧
      NewTx sampleEnv gradedMap paymentThousand 1000 countingProvider 0 3 =
        some (⟨some ⟨1, [NewTxIn opA, NewTxIn opB, NewTxIn opC, NewTxIn opD],
          [paymentThousand], 0⟩, some [opA, opB, opC, opD], none⟩, 0)) ∧
    (∃ tx sel, some (⟨1, [NewTxIn opA, NewTxIn opB, NewTxIn opC, NewTxIn opD],
          [paymentThousand], 0⟩ : MsgTx) = some tx ∧
      some [opA, opB, opC, opD] = some sel ∧
      sel.Nodup ∧ (∀ o ∈ sel, o ∈ gradedMap.keys) ∧
      (tx.TxIn.map TxIn.PreviousOutPoint).Perm sel ∧
      tx.TxIn.length = sel.length ∧
      (∀ o ∈ sel, (tx.TxIn.map TxIn.PreviousOutPoint).count o = 1) ∧
      (∀ i ∈ tx.TxIn, i.SignatureScript = none ∧ i.Witness = none)) :=
  ⟨⟨by decide, by decide⟩,
    NewTx_outpoints_consumed sampleEnv gradedMap paymentThousand 1000 countingProvider 0 3
      ⟨some ⟨1, [NewTxIn opA, NewTxIn opB, NewTxIn opC, NewTxIn opD], [paymentThousand], 0⟩,
        some [opA, opB, opC, opD], none⟩ 0 (by decide) (by decide) rfl⟩

/-- C17. If `len(previousOutputs) != len(transaction.TxIn)`, `SignTransaction` panics with an
empty trace (no hash is computed, the signer is not called) and an unchanged transaction.  If
the signer is called and answers without error with a number of signatures other than
`len(transaction.TxIn)`, `SignTransaction` panics and the transaction is unchanged.  In both
cases nothing is returned, neither `nil` nor an error. -/
theorem SignTransaction_length_mismatch_panics (env : SignEnv)
    (sign : List (List Nat) → List String → List (List Nat) × Option Error) (tx : MsgTx)
    (prev : List PrevOut) :
    (prev.length ≠ tx.TxIn.length →
      SignTransaction env sign tx prev = ⟨.panicked panicOutputInputMismatch, tx, []⟩ ∧
      ∀ err, (SignTransaction env sign tx prev).outcome ≠ .returned err) ∧
    (∀ hs ks, Event.sign hs ks ∈ (SignTransaction env sign tx prev).trace →
      (sign hs ks).2 = none → (sign hs ks).1.length ≠ tx.TxIn.length →
      (SignTransaction env sign tx prev).outcome = .panicked panicSignatureCount ∧
      (SignTransaction env sign tx prev).transaction = tx ∧
      ∀ err, (SignTransaction env sign tx prev).outcome ≠ .returned err) := by
  constructor
  · intro h
    rw [SignTransaction_mismatch env sign tx prev h]
    exact ⟨rfl, fun err => by simp⟩
  · intro hs ks hmem herr hlen
    obtain ⟨_, ⟨tr, _, heq, _, _, _⟩, _⟩ := SignTransaction_sign_mem env sign tx prev hs ks hmem
    rw [heq, (afterSign_spec env tx prev _ (sign hs ks) _).2.2.2 herr hlen]
    exact ⟨rfl, rfl, fun err => by simp⟩

/-- Witness of C17: one previous output for two inputs, and a signer that returns one signature
for two inputs. -/
theorem SignTransaction_length_mismatch_panics_witness :
    ([prevLegacy].length ≠ unsignedTx.TxIn.length ∧
      SignTransaction sampleSignEnv echoSigner unsignedTx [prevLegacy]
        = ⟨.panicked panicOutputInputMismatch, unsignedTx, []⟩) ∧
    ((Event.sign [[0, 0, 9], [1, 1, 8]] ["m/44h/0h/0h/0/0", "m/49h/0h/0h/0/1"]
        ∈ (SignTransaction sampleSignEnv shortSigner unsignedTx [prevLegacy, prevSegwit]).trace ∧
      (shortSigner [[0, 0, 9], [1, 1, 8]] ["m/44h/0h/0h/0/0", "m/49h/0h/0h/0/1"]).2 = none ∧
      (shortSigner [[0, 0, 9], [1, 1, 8]] ["m/44h/0h/0h/0/0", "m/49h/0h/0h/0/1"]).1.length
        ≠ unsignedTx.TxIn.length) ∧
      (SignTransaction sampleSignEnv shortSigner unsignedTx [prevLegacy, prevSegwit]).outcome
        = .panicked panicSignatureCount ∧
      (SignTransaction sampleSignEnv shortSigner unsignedTx [prevLegacy, prevSegwit]).transaction
        = unsignedTx) :=
  ⟨⟨by decide,
      ((SignTransaction_length_mismatch_panics sampleSignEnv echoSigner unsignedTx
        [prevLegacy]).1 (by decide)).1⟩,
    ⟨by decide, by decide, by decide⟩,
    ((SignTransaction_length_mismatch_panics sampleSignEnv shortSigner unsignedTx
      [prevLegacy, prevSegwit]).2 [[0, 0, 9], [1, 1, 8]] ["m/44h/0h/0h/0/0", "m/49h/0h/0h/0/1"]
      (by decide) (by decide) (by decide)).1,
    ((SignTransaction_length_mismatch_panics sampleSignEnv shortSigner unsignedTx
      [prevLegacy, prevSegwit]).2 [[0, 0, 9], [1, 1, 8]] ["m/44h/0h/0h/0/0", "m/49h/0h/0h/0/1"]
      (by decide) (by decide) (by decide)).2.1⟩

/-- C18. For a transaction with `N` inputs and `N` previous outputs: if all `N` signature hashes
are computed without error, `SignTransaction` calls the signer exactly once, with `N` hashes
and `N` key paths, the `i`-th hash being the signature hash of input `i` and the `i`-th key
path the `KeyPath` of the address of `previousOutputs[i]`; if the computation of a hash fails,
the signer is not called. -/
theorem SignTransaction_signer_batch (env : SignEnv)
    (sign : List (List Nat) → List String → List (List Nat) × Option Error) (tx : MsgTx)
    (prev : List PrevOut) (hlen : prev.length = tx.TxIn.length) :
    ((∀ i p, prev[i]? = some p → (sigHash env (env.NewTxSigHashes tx) tx i p).2 = none) →
      ∃ hs ks, (SignTransaction env sign tx prev).trace.filter Event.isSign = [Event.sign hs ks] ∧
        hs.length = tx.TxIn.length ∧ ks.length = tx.TxIn.length ∧
        ∀ i p, prev[i]? = some p →
          hs[i]? = some (sigHash env (env.NewTxSigHashes tx) tx i p).1 ∧
          ks[i]? = some p.Address.KeyPath) ∧
    ((∃ i p, prev[i]? = some p ∧ (sigHash env (env.NewTxSigHashes tx) tx i p).2 ≠ none) →
      (SignTransaction env sign tx prev).trace.filter Event.isSign = []) := by
  rcases SignTransaction_cases env sign tx prev hlen with
    ⟨hs, ks, tr, heq, hl1, hl2, hidx, hev, hok⟩ | ⟨err, tr, heq, hev, j, p, hp, he⟩
  · obtain ⟨tr', htr, hev'⟩ := SignTransaction_trace env sign tx prev hs ks tr heq
    constructor
    · intro _
      refine ⟨hs, ks, ?_, hl1, hl2, hidx⟩
      rw [htr]
      exact filter_isSign_trace tr tr' hs ks hev hev'
    · rintro ⟨i, q, hq, hne⟩
      exact absurd (hok i q hq) hne
  · constructor
    · intro hall
      rw [hall j p hp] at he
      simp at he
    · intro _
      rw [heq]
      simp only
      rw [List.filter_cons_of_neg (by simp [Event.isSign])]
      exact filter_isSign_eq_nil (fun e he => isHashing_not_isSign (hev e he))

/-- Witness of C18: a legacy and a segwit input, both hashed, and one call of the signer. -/
theorem SignTransaction_signer_batch_witness :
    ([prevLegacy, prevSegwit].length = unsignedTx.TxIn.length ∧
      (SignTransaction sampleSignEnv echoSigner unsignedTx
          [prevLegacy, prevSegwit]).trace.filter Event.isSign
        = [Event.sign [[0, 0, 9], [1, 1, 8]] ["m/44h/0h/0h/0/0", "m/49h/0h/0h/0/1"]]) ∧
    (((∃ i p, [prevSegwit, prevLegacy][i]? = some p ∧
        (sigHash failingHashEnv (failingHashEnv.NewTxSigHashes unsignedTx) unsignedTx i p).2
          ≠ none) →
      (SignTransaction failingHashEnv echoSigner unsignedTx
        [prevSegwit, prevLegacy]).trace.filter Event.isSign = [])) :=
  ⟨⟨by decide, by decide⟩,
    (SignTransaction_signer_batch failingHashEnv echoSigner unsignedTx [prevSegwit, prevLegacy]
      (by decide)).2⟩

/-- C19. If the signer is called and answers with an error, `SignTransaction` returns exactly
that error and the transaction is unchanged; and whenever `SignTransaction` returns an error,
the transaction is unchanged. -/
theorem SignTransaction_signer_error (env : SignEnv)
    (sign : List (List Nat) → List String → List (List Nat) × Option Error) (tx : MsgTx)
    (prev : List PrevOut) :
    (∀ hs ks err, Event.sign hs ks ∈ (SignTransaction env sign tx prev).trace →
      (sign hs ks).2 = some err →
      (SignTransaction env sign tx prev).outcome = .returned (some err) ∧
      (SignTransaction env sign tx prev).transaction = tx) ∧
    (∀ err, (SignTransaction env sign tx prev).outcome = .returned (some err) →
      (SignTransaction env sign tx prev).transaction = tx) := by
  constructor
  · intro hs ks err hmem herr
    obtain ⟨_, ⟨tr, _, heq, _, _, _⟩, _⟩ := SignTransaction_sign_mem env sign tx prev hs ks hmem
    rw [heq, (afterSign_spec env tx prev _ (sign hs ks) _).2.2.1 err herr]
    exact ⟨rfl, rfl⟩
  · intro err h
    by_cases hlen : prev.length = tx.TxIn.length
    · rcases SignTransaction_cases env sign tx prev hlen with
        ⟨hs, ks, tr, heq, _⟩ | ⟨err', tr, heq, _⟩
      · rw [heq] at h ⊢
        exact ((afterSign_spec env tx prev _ (sign hs ks) _).2.1 err h).2
      · rw [heq]
    · rw [SignTransaction_mismatch env sign tx prev hlen]

/-- Witness of C19: the user rejects the request on the device. -/
theorem SignTransaction_signer_error_witness :
    (Event.sign [[0, 0, 9], [1, 1, 8]] ["m/44h/0h/0h/0/0", "m/49h/0h/0h/0/1"]
        ∈ (SignTransaction sampleSignEnv rejectingSigner unsignedTx
          [prevLegacy, prevSegwit]).trace ∧
      (rejectingSigner [[0, 0, 9], [1, 1, 8]] ["m/44h/0h/0h/0/0", "m/49h/0h/0h/0/1"]).2
        = some ⟨"aborted by user"⟩) ∧
    ((SignTransaction sampleSignEnv rejectingSigner unsignedTx
        [prevLegacy, prevSegwit]).outcome = .returned (some ⟨"aborted by user"⟩) ∧
      (SignTransaction sampleSignEnv rejectingSigner unsignedTx
        [prevLegacy, prevSegwit]).transaction = unsignedTx) :=
  ⟨⟨by decide, by decide⟩,
    (SignTransaction_signer_error sampleSignEnv rejectingSigner unsignedTx
      [prevLegacy, prevSegwit]).1 [[0, 0, 9], [1, 1, 8]] ["m/44h/0h/0h/0/0", "m/49h/0h/0h/0/1"]
      ⟨"aborted by user"⟩ (by decide) (by decide)⟩

/-- C20. In the batch of hashes that `SignTransaction` submits to the signer, the hash of input
`i` is `CalcWitnessSigHash(subScript, sigHashes, SigHashAll, transaction, i, value)` if
`SigHashData()` of the address of `previousOutputs[i]` reports segwit and
`CalcSignatureHash(subScript, SigHashAll, transaction, i)` otherwise, where `sigHashes` is
`NewTxSigHashes(transaction)`, computed once in the call; and two calls on the same
transaction whose previous outputs agree at `i` submit the same hash for input `i`, whatever
the other previous outputs and the signer are. -/
theorem SignTransaction_hash_of_input (env : SignEnv)
    (sign : List (List Nat) → List String → List (List Nat) × Option Error) (tx : MsgTx)
    (prev : List PrevOut) (hs : List (List Nat)) (ks : List String)
    (hmem : Event.sign hs ks ∈ (SignTransaction env sign tx prev).trace) :
    (SignTransaction env sign tx prev).trace.count Event.sigHashes = 1 ∧
    (∀ (i : Nat) (p : PrevOut), prev[i]? = some p →
      hs[i]? = some (if p.Address.SigHashData.1 then
          (env.CalcWitnessSigHash p.Address.SigHashData.2 (env.NewTxSigHashes tx) SigHashAll
            tx i p.Value).1
        else (env.CalcSignatureHash p.Address.SigHashData.2 SigHashAll tx i).1)) ∧
    (∀ (sign' : List (List Nat) → List String → List (List Nat) × Option Error)
      (prev' : List PrevOut) (hs' : List (List Nat)) (ks' : List String) (i : Nat) (p : PrevOut),
      Event.sign hs' ks' ∈ (SignTransaction env sign' tx prev').trace →
      prev[i]? = some p → prev'[i]? = some p → hs'[i]? = hs[i]?) := by
  obtain ⟨_, ⟨tr, tr', _, htr, hev, hev'⟩, _, _, hidx, _⟩ :=
    SignTransaction_sign_mem env sign tx prev hs ks hmem
  refine ⟨?_, ?_, ?_⟩
  · rw [htr]
    exact count_sigHashes_trace tr tr' hs ks hev hev'
  · intro i p hp
    rw [(hidx i p hp).1, sigHash_fst]
  · intro sign' prev' hs' ks' i p hmem' hp hp'
    obtain ⟨_, _, _, _, hidx', _⟩ := SignTransaction_sign_mem env sign' tx prev' hs' ks' hmem'
    rw [(hidx i p hp).1, (hidx' i p hp').1]

/-- Witness of C20: the legacy input 0 and the segwit input 1. -/
theorem SignTransaction_hash_of_input_witness :
    Event.sign [[0, 0, 9], [1, 1, 8]] ["m/44h/0h/0h/0/0", "m/49h/0h/0h/0/1"]
      ∈ (SignTransaction sampleSignEnv echoSigner unsignedTx [prevLegacy, prevSegwit]).trace ∧
    (SignTransaction sampleSignEnv echoSigner unsignedTx [prevLegacy, prevSegwit]).trace.count
      Event.sigHashes = 1 :=
  ⟨by decide,
    (SignTransaction_hash_of_input sampleSignEnv echoSigner unsignedTx [prevLegacy, prevSegwit]
      [[0, 0, 9], [1, 1, 8]] ["m/44h/0h/0h/0/0", "m/49h/0h/0h/0/1"] (by decide)).1⟩

/-- C21. Whenever `SignTransaction` returns `nil`, the signer was called and returned one
signature per input, and every input `i` has as signature script and witness the result of
`InputData(signatures[i])` of the address of `previousOutputs[i]`; the rest of the input, the
order of the inputs, the version, the outputs and the lock time are as before. -/
theorem SignTransaction_binds_signatures (env : SignEnv)
    (sign : List (List Nat) → List String → List (List Nat) × Option Error) (tx : MsgTx)
    (prev : List PrevOut)
    (h : (SignTransaction env sign tx prev).outcome = .returned none) :
    ∃ hs ks, Event.sign hs ks ∈ (SignTransaction env sign tx prev).trace ∧
      prev.length = tx.TxIn.length ∧ (sign hs ks).1.length = tx.TxIn.length ∧
      (SignTransaction env sign tx prev).transaction.Version = tx.Version ∧
      (SignTransaction env sign tx prev).transaction.TxOut = tx.TxOut ∧
      (SignTransaction env sign tx prev).transaction.LockTime = tx.LockTime ∧
      (SignTransaction env sign tx prev).transaction.TxIn.length = tx.TxIn.length ∧
      ∀ (i : Nat) (input : TxIn) (p : PrevOut) (sig : List Nat), tx.TxIn[i]? = some input →
        prev[i]? = some p → (sign hs ks).1[i]? = some sig →
        (SignTransaction env sign tx prev).transaction.TxIn[i]? =
          some { input with SignatureScript := (p.Address.InputData sig).1,
                            Witness := (p.Address.InputData sig).2 } := by
  have hlen : prev.length = tx.TxIn.length := by
    by_contra hne
    rw [SignTransaction_mismatch env sign tx prev hne] at h
    simp at h
  rcases SignTransaction_cases env sign tx prev hlen with
    ⟨hs, ks, tr, heq, _⟩ | ⟨err, tr, heq, _⟩
  · obtain ⟨tr', htr, _⟩ := SignTransaction_trace env sign tx prev hs ks tr heq
    have hmem : Event.sign hs ks ∈ (SignTransaction env sign tx prev).trace := by
      rw [htr]; simp
    rw [heq] at h
    obtain ⟨_, hslen, htx, _⟩ := afterSign_returned_none env tx prev _ _ _ h
    obtain ⟨_, halen, hidx⟩ := assignLoop_spec prev (sign hs ks).1 tx.TxIn 0
      (by omega) (by omega)
    refine ⟨hs, ks, hmem, hlen, hslen, ?_, ?_, ?_, ?_, ?_⟩
    · rw [heq, htx]
    · rw [heq, htx]
    · rw [heq, htx]
    · rw [heq, htx]; exact halen
    · intro i input p sig hi hp hsig
      rw [heq, htx]
      exact hidx i input p sig hi (by simpa using hp) (by simpa using hsig)
  · rw [heq] at h
    simp at h

/-- Witness of C21: a legacy and a segwit input signed by `echoSigner`. -/
theorem SignTransaction_binds_signatures_witness :
    (SignTransaction sampleSignEnv echoSigner unsignedTx [prevLegacy, prevSegwit]).outcome
      = .returned none ∧
    (SignTransaction sampleSignEnv echoSigner unsignedTx [prevLegacy, prevSegwit]).transaction
      = signedTx ∧
    (∃ hs ks, Event.sign hs ks
        ∈ (SignTransaction sampleSignEnv echoSigner unsignedTx [prevLegacy, prevSegwit]).trace ∧
      [prevLegacy, prevSegwit].length = unsignedTx.TxIn.length ∧
      (echoSigner hs ks).1.length = unsignedTx.TxIn.length ∧
      (SignTransaction sampleSignEnv echoSigner unsignedTx
        [prevLegacy, prevSegwit]).transaction.Version = unsignedTx.Version ∧
      (SignTransaction sampleSignEnv echoSigner unsignedTx
        [prevLegacy, prevSegwit]).transaction.TxOut = unsignedTx.TxOut ∧
      (SignTransaction sampleSignEnv echoSigner unsignedTx
        [prevLegacy, prevSegwit]).transaction.LockTime = unsignedTx.LockTime ∧
      (SignTransaction sampleSignEnv echoSigner unsignedTx
        [prevLegacy, prevSegwit]).transaction.TxIn.length = unsignedTx.TxIn.length ∧
      ∀ (i : Nat) (input : TxIn) (p : PrevOut) (sig : List Nat),
        unsignedTx.TxIn[i]? = some input → [prevLegacy, prevSegwit][i]? = some p →
        (echoSigner hs ks).1[i]? = some sig →
        (SignTransaction sampleSignEnv echoSigner unsignedTx
          [prevLegacy, prevSegwit]).transaction.TxIn[i]? =
          some { input with SignatureScript := (p.Address.InputData sig).1,
                            Witness := (p.Address.InputData sig).2 }) :=
  ⟨by decide, by decide,
    SignTransaction_binds_signatures sampleSignEnv echoSigner unsignedTx
      [prevLegacy, prevSegwit] (by decide)⟩

/-- C22. When the signer has answered without error with one signature per input and
`txValidityCheck` returns an error for the signed transaction, `SignTransaction` panics with
that error; such an error is "tx not bip69 conformant" or the error of making or executing the
script engine of an input.  Every error that `SignTransaction` returns is the error of a
signature-hash computation or the error with which the signer answered. -/
theorem SignTransaction_check_failure_panics (env : SignEnv)
    (sign : List (List Nat) → List String → List (List Nat) × Option Error) (tx : MsgTx)
    (prev : List PrevOut) :
    (∀ hs ks err, Event.sign hs ks ∈ (SignTransaction env sign tx prev).trace →
      (sign hs ks).2 = none → (sign hs ks).1.length = tx.TxIn.length →
      (txValidityCheck env { tx with TxIn := (assignLoop prev (sign hs ks).1 tx.TxIn 0).1 }
        prev (env.NewTxSigHashes tx)).1 = .returned (some err) →
      (SignTransaction env sign tx prev).outcome = .panicked (.error err)) ∧
    (∀ (signed : MsgTx) (sh : TxSigHashes) (err : Error),
      (txValidityCheck env signed prev sh).1 = .returned (some err) →
      (IsSorted signed = false ∧ err = errNotBip69) ∨
      ∃ (j : Nat) (p : PrevOut), prev[j]? = some p ∧
        (env.NewEngine ⟨p.PkScript, signed, j, sh, p.Value⟩ = some err ∨
          env.Execute ⟨p.PkScript, signed, j, sh, p.Value⟩ = some err)) ∧
    (∀ err, (SignTransaction env sign tx prev).outcome = .returned (some err) →
      (∃ (j : Nat) (p : PrevOut), prev[j]? = some p ∧
        (sigHash env (env.NewTxSigHashes tx) tx j p).2 = some err) ∨
      (∃ hs ks, Event.sign hs ks ∈ (SignTransaction env sign tx prev).trace ∧
        (sign hs ks).2 = some err)) := by
  refine ⟨?_, ?_, ?_⟩
  · intro hs ks err hmem hnone hslen hcheck
    obtain ⟨hlen, ⟨tr, _, heq, _, _, _⟩, _⟩ :=
      SignTransaction_sign_mem env sign tx prev hs ks hmem
    obtain ⟨hassign, _, _⟩ := assignLoop_spec prev (sign hs ks).1 tx.TxIn 0
      (by omega) (by omega)
    rw [heq]
    exact (afterSign_check_error env tx prev _ (sign hs ks) _ err hnone hslen hassign hcheck).1
  · intro signed sh err h
    unfold txValidityCheck at h
    split at h
    · rename_i hs
      simp only [Outcome.returned.injEq, Option.some.injEq] at h
      left
      exact ⟨by simpa using hs, h.symm⟩
    · right
      exact engineLoop_error env signed prev sh _ _ err h
  · intro err h
    by_cases hlen : prev.length = tx.TxIn.length
    · rcases SignTransaction_cases env sign tx prev hlen with
        ⟨hs, ks, tr, heq, _⟩ | ⟨err', tr, heq, _, j, p, hp, he⟩
      · right
        obtain ⟨tr', htr, _⟩ := SignTransaction_trace env sign tx prev hs ks tr heq
        refine ⟨hs, ks, by rw [htr]; simp, ?_⟩
        rw [heq] at h
        exact ((afterSign_spec env tx prev _ (sign hs ks) _).2.1 err h).1
      · left
        rw [heq] at h
        simp only [Outcome.returned.injEq, Option.some.injEq] at h
        exact ⟨j, p, hp, by rw [he, h]⟩
    · rw [SignTransaction_mismatch env sign tx prev hlen] at h
      simp at h

/-- Witness of C22: signing a transaction whose inputs are not in canonical order. -/
theorem SignTransaction_check_failure_panics_witness :
    (Event.sign [[0, 0, 9], [1, 1, 8]] ["m/44h/0h/0h/0/0", "m/49h/0h/0h/0/1"]
        ∈ (SignTransaction sampleSignEnv echoSigner unsortedTx [prevLegacy, prevSegwit]).trace ∧
      (echoSigner [[0, 0, 9], [1, 1, 8]] ["m/44h/0h/0h/0/0", "m/49h/0h/0h/0/1"]).2 = none ∧
      (echoSigner [[0, 0, 9], [1, 1, 8]] ["m/44h/0h/0h/0/0", "m/49h/0h/0h/0/1"]).1.length
        = unsortedTx.TxIn.length ∧
      (txValidityCheck sampleSignEnv
        { unsortedTx with TxIn := (assignLoop [prevLegacy, prevSegwit]
          (echoSigner [[0, 0, 9], [1, 1, 8]] ["m/44h/0h/0h/0/0", "m/49h/0h/0h/0/1"]).1
          unsortedTx.TxIn 0).1 }
        [prevLegacy, prevSegwit] (sampleSignEnv.NewTxSigHashes unsortedTx)).1
        = .returned (some errNotBip69)) ∧
    (SignTransaction sampleSignEnv echoSigner unsortedTx [prevLegacy, prevSegwit]).outcome
      = .panicked (.error errNotBip69) :=
  ⟨⟨by decide, by decide, by decide, by decide⟩,
    (SignTransaction_check_failure_panics sampleSignEnv echoSigner unsortedTx
      [prevLegacy, prevSegwit]).1 [[0, 0, 9], [1, 1, 8]]
      ["m/44h/0h/0h/0/0", "m/49h/0h/0h/0/1"] errNotBip69
      (by decide) (by decide) (by decide) (by decide)⟩

/-- C23. Whenever `SignTransaction` returns `nil`, the signed transaction passes
`txsort.IsSorted` and, for every input `i`, the script engine made from
`previousOutputs[i].PkScript`, the signed transaction, `i`, the signature-hash midstate and
`previousOutputs[i].Value` was made and executed without error; the transaction it was given
passes `txsort.IsSorted` too, so `nil` is never returned for a transaction that is not in
canonical order. -/
theorem SignTransaction_nil_only_if_verified (env : SignEnv)
    (sign : List (List Nat) → List String → List (List Nat) × Option Error) (tx : MsgTx)
    (prev : List PrevOut)
    (h : (SignTransaction env sign tx prev).outcome = .returned none) :
    IsSorted (SignTransaction env sign tx prev).transaction = true ∧
    IsSorted tx = true ∧
    prev.length = tx.TxIn.length ∧
    ∀ (i : Nat) (p : PrevOut), prev[i]? = some p →
      env.NewEngine ⟨p.PkScript, (SignTransaction env sign tx prev).transaction, i,
        env.NewTxSigHashes tx, p.Value⟩ = none ∧
      env.Execute ⟨p.PkScript, (SignTransaction env sign tx prev).transaction, i,
        env.NewTxSigHashes tx, p.Value⟩ = none := by
  have hlen : prev.length = tx.TxIn.length := by
    by_contra hne
    rw [SignTransaction_mismatch env sign tx prev hne] at h
    simp at h
  rcases SignTransaction_cases env sign tx prev hlen with
    ⟨hs, ks, tr, heq, _⟩ | ⟨err, tr, heq, _⟩
  · rw [heq] at h ⊢
    obtain ⟨_, hslen, htx, hcheck⟩ := afterSign_returned_none env tx prev _ _ _ h
    obtain ⟨hsorted, hengine⟩ := txValidityCheck_ok env _ prev _ hcheck
    obtain ⟨_, halen, _⟩ := assignLoop_spec prev (sign hs ks).1 tx.TxIn 0
      (by omega) (by omega)
    rw [htx]
    refine ⟨hsorted, ?_, hlen, ?_⟩
    · rw [← IsSorted_assigned tx prev (sign hs ks).1]; exact hsorted
    · intro i p hp
      have hi : i < prev.length := by
        by_contra hcon
        rw [List.getElem?_eq_none (by omega)] at hp
        simp at hp
      exact hengine i p (by simp only; omega) hp
  · rw [heq] at h
    simp at h

/-- Witness of C23: a legacy and a segwit input signed by `echoSigner` and accepted by the
script engine. -/
theorem SignTransaction_nil_only_if_verified_witness :
    (SignTransaction sampleSignEnv echoSigner unsignedTx [prevLegacy, prevSegwit]).outcome
      = .returned none ∧
    IsSorted (SignTransaction sampleSignEnv echoSigner unsignedTx
      [prevLegacy, prevSegwit]).transaction = true ∧
    IsSorted unsignedTx = true :=
  have h := SignTransaction_nil_only_if_verified sampleSignEnv echoSigner unsignedTx
    [prevLegacy, prevSegwit] (by decide)
  ⟨by decide, h.1, h.2.1⟩

/-- C24. `NewConnectionData(port, token)` sets `devMode` exactly when the token is empty,
whatever the port is: for the port -1 and the token "secret" its `devMode` is false, while
`isDev()` is true and the comment of the function promises dev-mode. -/
theorem NewConnectionData_devMode_ignores_port :
    (∀ (port : Int) (token : String), (NewConnectionData port token).devMode = true ↔ token = "") ∧
    (NewConnectionData (-1) "secret").devMode = false ∧
    (NewConnectionData (-1) "secret").isDev = true := by
  refine ⟨?_, by decide, by decide⟩
  intro port token
  unfold NewConnectionData
  simp only [beq_iff_eq]
  exact utf8ByteSize_eq_zero token

/-- C25. `isAPITokenValid` returns true whenever `devMode` is true; when `devMode` is false it
returns true if and only if the `Authorization` header is `"Basic "` followed by the token,
so that a request without the header is refused; and `ensureAPITokenValid` invokes the wrapped
handler exactly when `isAPITokenValid` returns true, which outside dev mode is exactly for the
requests that carry the token. -/
theorem isAPITokenValid_iff (apiData : ConnectionData) (r : Request) :
    (apiData.devMode = true → isAPITokenValid r apiData = (true, none)) ∧
    (apiData.devMode = false →
      ((isAPITokenValid r apiData).1 = true ↔
        r.authorization = "Basic " ++ apiData.token)) ∧
    (apiData.devMode = false → r.authorization = "" →
      (isAPITokenValid r apiData).1 = false) ∧
    (∀ (ρ : Type) (h : Request → ρ),
      (ensureAPITokenValid h apiData r).1
        = if (isAPITokenValid r apiData).1 then some (h r) else none) ∧
    (∀ (ρ : Type) (h : Request → ρ), apiData.devMode = false →
      ((ensureAPITokenValid h apiData r).1 = some (h r) ↔
        r.authorization = "Basic " ++ apiData.token)) := by
  have hens : ∀ (ρ : Type) (h : Request → ρ),
      (ensureAPITokenValid h apiData r).1
        = if (isAPITokenValid r apiData).1 then some (h r) else none := by
    intro ρ h
    unfold ensureAPITokenValid
    split <;> rfl
  refine ⟨?_, isAPITokenValid_prod r apiData, ?_, hens, ?_⟩
  · intro hd
    unfold isAPITokenValid
    rw [hd]
    rfl
  · intro hd he
    cases hv : (isAPITokenValid r apiData).1 with
    | false => rfl
    | true =>
      have := (isAPITokenValid_prod r apiData hd).1 hv
      exact absurd (this.symm.trans he) (basic_append_ne_empty _)
  · intro ρ h hd
    rw [hens ρ h, ← isAPITokenValid_prod r apiData hd]
    cases (isAPITokenValid r apiData).1 <;> simp

/-- Witness of C25: with the token "secret", a request with a wrong token is refused with
status 401 and the handler is not invoked; the request with the right token reaches it. -/
theorem isAPITokenValid_iff_witness :
    ensureAPITokenValid (fun r => r.path) (NewConnectionData 8082 "secret")
        ⟨"/api/version", "GET", "Basic guess"⟩
      = (none, some ⟨"incorrect token", 401⟩) ∧
    ((NewConnectionData 8082 "secret").devMode = false ∧
      (⟨"/api/version", "GET", "Basic secret"⟩ : Request).authorization
        = "Basic " ++ (NewConnectionData 8082 "secret").token) ∧
    (ensureAPITokenValid (fun r => r.path) (NewConnectionData 8082 "secret")
        ⟨"/api/version", "GET", "Basic secret"⟩).1 = some "/api/version" :=
  ⟨by decide, ⟨by decide, by decide⟩,
    ((isAPITokenValid_iff (NewConnectionData 8082 "secret")
      ⟨"/api/version", "GET", "Basic secret"⟩).2.2.2.2 String (fun r => r.path)
      (by decide)).2 (by decide)⟩

/-- Counterexample to C26: no spendable outputs (`N = 0`), a payment of 0 and a fee function
with `fee(1) = 0` and `fee(0) = 5`; nothing is negative and nothing overflows.  The first call
of `coinSelection` succeeds with the empty selection, the fee for no input is not covered, and
the second call fails: two calls, not `N + 1 = 1`. -/
theorem NewTx_two_selections_without_outputs :
    (∀ n, 0 ≤ oddFeeEnv.fee 0 n [paymentZero] true) ∧
    NewTx oddFeeEnv [] paymentZero 0 countingProvider 0 1 = none ∧
    NewTxCalls oddFeeEnv [] paymentZero 0 2 = some 2 ∧
    NewTx oddFeeEnv [] paymentZero 0 countingProvider 0 2 =
      some (⟨none, none, some errInsufficientFunds⟩, 0) ∧
    ¬ (2 ≤ ([] : OutputMap).length + 1) := by
  refine ⟨?_, by decide, by decide, by decide, by decide⟩
  intro n
  simp only [Env.fee, oddFeeEnv]
  split <;> decide

/-- C26, amended. Without `int64` overflow (non-negative values whose total is an `int64`, a
non-negative payment, non-negative fees, the payment plus the fee for up to `N` inputs an
`int64`) and for an arbitrary fee function, every repeat of the loop of `NewTx` raises
`targetFee` to the fee `fee(k)` of some `k <= N`, and `NewTx` returns after at most
`max(N, 1) + 1` calls of `coinSelection`, where `N` is the number of spendable outputs. -/
theorem NewTx_terminates {σ : Type} (env : Env) (sp : OutputMap) (out : TxOut)
    (feePerKb : Int) (g : σ → (List Nat × Option Error) × σ) (s : σ)
    (hv : ∀ v ∈ sp.values, 0 ≤ v) (hsum : sp.values.sum ≤ maxInt64)
    (ht0 : 0 ≤ out.Value) (ht1 : out.Value ≤ maxInt64)
    (hfee0 : ∀ n, 0 ≤ env.fee feePerKb n [out] true)
    (hfee : ∀ n, n ≤ max 1 sp.length → InInt64 (out.Value + env.fee feePerKb n [out] true)) :
    (∃ r c, NewTx env sp out feePerKb g s (max 1 sp.length + 1) = some r ∧
      NewTxCalls env sp out feePerKb (max 1 sp.length + 1) = some c ∧
      c ≤ max 1 sp.length + 1) ∧
    (∀ (fuel : Nat) (tf : Int), InInt64 (out.Value + tf) →
      (∃ e, feeLoopCalls env sp out feePerKb (fuel + 1) tf = some (e, 1)) ∨
      ∃ k, k ≤ sp.length ∧ tf < env.fee feePerKb k [out] true ∧
        feeLoopCalls env sp out feePerKb (fuel + 1) tf
          = (feeLoopCalls env sp out feePerKb fuel (env.fee feePerKb k [out] true)).map
            fun p => (p.1, p.2 + 1)) := by
  have hp := sortedValues_perm sp
  have hv' : ∀ v ∈ (sortedOutPoints sp).map sp.value, 0 ≤ v :=
    fun v hv' => hv v (hp.subset hv')
  have hP0 : ∀ k, 0 ≤ (((sortedOutPoints sp).map sp.value).take k).sum :=
    fun k => List.sum_nonneg fun v hv'' => hv' v (List.mem_of_mem_take hv'')
  have htail : ∀ (k : Nat) (f : Nat), 2 ≤ k → k ≤ sp.length → sp.length - k + 1 ≤ f →
      (((sortedOutPoints sp).map sp.value).take k).sum
        < out.Value + env.fee feePerKb k [out] true →
      ∃ e c, feeLoopCalls env sp out feePerKb f (env.fee feePerKb k [out] true) = some (e, c) ∧
        c ≤ sp.length - k + 1 := by
    intro k f hk2 hk hf hcont
    exact feeLoopCalls_bound env sp out feePerKb hv hsum ht0 ht1
      (fun n hn => hfee n (by omega)) (sp.length - k) (k + 1)
      (env.fee feePerKb k [out] true) f (by omega) (hfee k (by omega))
      (fun j hj _ => lt_of_le_of_lt (sum_take_mono hv' (by omega)) hcont) hf
  constructor
  · have key : ∃ e c, feeLoopCalls env sp out feePerKb (max 1 sp.length + 1)
        (env.fee feePerKb 1 [out] true) = some (e, c) ∧ c ≤ max 1 sp.length + 1 := by
      rcases feeLoopCalls_step env sp out feePerKb hv hsum ht0 ht1 (max 1 sp.length)
          (env.fee feePerKb 1 [out] true) (hfee 1 (by omega)) with
        ⟨e, he⟩ | ⟨k, hk, _, hge, hcont, heq⟩
      · exact ⟨e, 1, he, by omega⟩
      · rcases Nat.lt_or_ge k 2 with hk2 | hk2
        · have h01 : k = 0 ∨ k = 1 := by omega
          rcases h01 with rfl | rfl
          · -- the empty selection: payment and seed fee are 0, the fee for no input is not
            simp only [List.take_zero, List.sum_nil] at hge hcont
            have h1 := hfee0 1
            obtain ⟨f, hf⟩ : ∃ f, max 1 sp.length = f + 1 := ⟨max 1 sp.length - 1, by omega⟩
            rw [hf] at heq ⊢
            rcases feeLoopCalls_step env sp out feePerKb hv hsum ht0 ht1 f
                (env.fee feePerKb 0 [out] true) (hfee 0 (by omega)) with
              ⟨e, he⟩ | ⟨k2, hk2', _, hge2, hcont2, heq2⟩
            · refine ⟨e, 2, ?_, by omega⟩
              rw [heq, he]
              rfl
            · have hk22 : 2 ≤ k2 := by
                by_contra hcon
                have h01 : k2 = 0 ∨ k2 = 1 := by omega
                rcases h01 with rfl | rfl
                · simp only [List.take_zero, List.sum_nil] at hge2
                  omega
                · have := hP0 1
                  omega
              obtain ⟨e, c, hec, hc⟩ := htail k2 f hk22 hk2' (by omega) hcont2
              refine ⟨e, c + 1 + 1, ?_, by omega⟩
              rw [heq, heq2, hec]
              rfl
          · omega
        · obtain ⟨e, c, hec, hc⟩ := htail k (max 1 sp.length) hk2 hk (by omega) hcont
          refine ⟨e, c + 1, ?_, by omega⟩
          rw [heq, hec]
          rfl
    obtain ⟨e, c, hec, hc⟩ := key
    obtain ⟨r, hr⟩ := NewTx_isSome_of_feeLoopCalls env sp out feePerKb g s _ e c hec
    refine ⟨r, c, hr, ?_, hc⟩
    unfold NewTxCalls
    rw [hec]
    rfl
  · intro fuel tf htf
    rcases feeLoopCalls_step env sp out feePerKb hv hsum ht0 ht1 fuel tf htf with
      ⟨e, he⟩ | ⟨k, hk, _, hge, hcont, heq⟩
    · exact Or.inl ⟨e, he⟩
    · exact Or.inr ⟨k, hk, by omega, heq⟩

/-- Witness of C26 (amended): the outputs 1100, 200, 190 and 180 and the payment of 1000. -/
theorem NewTx_terminates_witness :
    ((∀ v ∈ gradedMap.values, 0 ≤ v) ∧ gradedMap.values.sum ≤ maxInt64 ∧
      0 ≤ paymentThousand.Value ∧ paymentThousand.Value ≤ maxInt64 ∧
      (∀ n, 0 ≤ sampleEnv.fee 1000 n [paymentThousand] true) ∧
      (∀ n, n ≤ max 1 gradedMap.length →
        InInt64 (paymentThousand.Value + sampleEnv.fee 1000 n [paymentThousand] true))) ∧
    (∃ r c, NewTx sampleEnv gradedMap paymentThousand 1000 countingProvider 0
        (max 1 gradedMap.length + 1) = some r ∧
      NewTxCalls sampleEnv gradedMap paymentThousand 1000 (max 1 gradedMap.length + 1)
        = some c ∧
      c ≤ max 1 gradedMap.length + 1) :=
  have hfee0 : ∀ n : Nat, 0 ≤ sampleEnv.fee 1000 n [paymentThousand] true := by
    intro n
    simp only [Env.fee, sampleEnv, sampleEstimateSerializeSize, paymentThousand]
    simp
    omega
  have hfee : ∀ n : Nat, n ≤ max 1 gradedMap.length →
      InInt64 (paymentThousand.Value + sampleEnv.fee 1000 n [paymentThousand] true) := by
    intro n hn
    have hn4 : n ≤ 4 := hn
    simp only [Env.fee, sampleEnv, sampleEstimateSerializeSize, paymentThousand, InInt64,
      minInt64, maxInt64]
    simp
    omega
  ⟨⟨by decide, by decide, by decide, by decide, hfee0, hfee⟩,
    (NewTx_terminates sampleEnv gradedMap paymentThousand 1000 countingProvider 0
      (by decide) (by decide) (by decide) (by decide) hfee0 hfee).1⟩

/-- C27. With a payment of the largest `int64` and a fee estimator whose fees for no input
and for one input are positive amounts, `NewTx` does not return, whatever the spendable
outputs are: `targetAmount + targetFee` wraps around to a negative amount, the empty
selection reaches it, the fee is not covered and the loop starts again with the same fee. -/
theorem NewTx_maxInt64_never_returns {σ : Type} (env : Env) (sp : OutputMap)
    (script : List Nat) (feePerKb : Int) (g : σ → (List Nat × Option Error) × σ) (s : σ)
    (h0 : 0 < env.fee feePerKb 0 [⟨maxInt64, script⟩] true)
    (h0' : env.fee feePerKb 0 [⟨maxInt64, script⟩] true ≤ maxInt64)
    (h1 : 0 < env.fee feePerKb 1 [⟨maxInt64, script⟩] true)
    (h1' : env.fee feePerKb 1 [⟨maxInt64, script⟩] true ≤ maxInt64) :
    ∀ fuel, NewTx env sp ⟨maxInt64, script⟩ feePerKb g s fuel = none := by
  intro fuel
  unfold NewTx
  simp only [feeLoop_maxInt64_none env sp script feePerKb h0 h0' fuel _ h1 h1']

/-- Witness of C27: one output worth 100000 and 1000 per kB. -/
theorem NewTx_maxInt64_never_returns_witness :
    (0 < sampleEnv.fee 1000 0 [⟨maxInt64, [1, 2, 3]⟩] true ∧
      sampleEnv.fee 1000 0 [⟨maxInt64, [1, 2, 3]⟩] true ≤ maxInt64 ∧
      0 < sampleEnv.fee 1000 1 [⟨maxInt64, [1, 2, 3]⟩] true ∧
      sampleEnv.fee 1000 1 [⟨maxInt64, [1, 2, 3]⟩] true ≤ maxInt64) ∧
    ∀ fuel, NewTx sampleEnv singleMap ⟨maxInt64, [1, 2, 3]⟩ 1000 countingProvider 0 fuel
      = none :=
  ⟨⟨by decide, by decide, by decide, by decide⟩,
    NewTx_maxInt64_never_returns sampleEnv singleMap [1, 2, 3] 1000 countingProvider 0
      (by decide) (by decide) (by decide) (by decide)⟩

/-- Counterexample to C28: the outputs of 50000 (outpoint with the larger hash) and 30000 and
a payment of 50000.  Both outputs are selected; the returned list has them by descending
value, the more valuable first, but the inputs of the sorted transaction have them by hash,
so that the first returned outpoint is not the previous outpoint of the first input. -/
theorem NewTx_outPoints_not_aligned :
    (NewTx sampleEnv sweepMap paymentLarge 1000 countingProvider 0 2).map
        (fun p => (p.1.err, p.1.outPoints,
          p.1.tx.map fun tx => tx.TxIn.map TxIn.PreviousOutPoint))
      = some (none, some [opB, opA], some [opA, opB]) ∧
    opB ≠ opA := by
  constructor <;> decide

/-- C28, amended. For every successful `NewTx`, the previous outpoints of the inputs of the
returned transaction are the returned outpoints rearranged in canonical order (by hash, then
index): as many inputs as returned outpoints, aligned index by index when the returned list
is in canonical order already.  The returned list itself is in the order of selection, by
descending value. -/
theorem NewTx_inputs_are_sorted_outPoints {σ : Type} (env : Env) (sp : OutputMap) (out : TxOut)
    (feePerKb : Int) (g : σ → (List Nat × Option Error) × σ) (s : σ) (fuel : Nat)
    (r : TxResult) (s' : σ)
    (h : NewTx env sp out feePerKb g s fuel = some (r, s')) (hr : r.err = none) :
    ∃ tx sel, r.tx = some tx ∧ r.outPoints = some sel ∧
      tx.TxIn.map TxIn.PreviousOutPoint = sortBy (fun a b => !outPointLess b a) sel ∧
      tx.TxIn.length = sel.length ∧
      (sel.Pairwise (fun a b => outPointLess b a = false) →
        tx.TxIn.map TxIn.PreviousOutPoint = sel) ∧
      (sel.map sp.value).Pairwise (fun a b => b ≤ a) := by
  obtain ⟨sel, outs, hsub, hr'⟩ := NewTx_ok_tx h hr
  have hmap := InPlaceSort_previousOutPoints sel outs TxVersion 0
  refine ⟨_, sel, by rw [hr'], by rw [hr'], hmap, ?_, ?_, ?_⟩
  · have hlen := congrArg List.length hmap
    rw [List.length_map, (sortBy_perm _ sel).length_eq] at hlen
    exact hlen
  · intro hsorted
    rw [hmap]
    apply sortBy_eq_self
    exact hsorted.imp fun {a b} hab => by simp only [hab, Bool.not_false]
  · exact (sortedValues_sorted sp).sublist (hsub.map sp.value)

/-- Witness of C28 (amended): the outputs of 50000 and 30000 and a payment of 50000. -/
theorem NewTx_inputs_are_sorted_outPoints_witness :
    ∃ r s', NewTx sampleEnv sweepMap paymentLarge 1000 countingProvider 0 2 = some (r, s') ∧
      r.err = none ∧
      ∃ tx sel, r.tx = some tx ∧ r.outPoints = some sel ∧
        tx.TxIn.map TxIn.PreviousOutPoint = sortBy (fun a b => !outPointLess b a) sel ∧
        tx.TxIn.length = sel.length ∧
        (sel.Pairwise (fun a b => outPointLess b a = false) →
          tx.TxIn.map TxIn.PreviousOutPoint = sel) ∧
        (sel.map sweepMap.value).Pairwise (fun a b => b ≤ a) :=
  ⟨⟨some ⟨1, [NewTxIn opA, NewTxIn opB], [⟨29648, [7, 7, 7]⟩, ⟨50000, [1, 2, 3]⟩], 0⟩,
      some [opB, opA], none⟩, 1, by decide, rfl,
    NewTx_inputs_are_sorted_outPoints sampleEnv sweepMap paymentLarge 1000 countingProvider 0 2
      _ 1 (by decide) rfl⟩

/-- C29. On a map (distinct keys), the outcome of `coinSelection` does not depend on the
order in which the map is enumerated: for the same target both enumerations fail or both
succeed, with the same sum and the same number of selected outpoints.  Nor does it depend on
how outputs of equal value are ordered: the loop run on any arrangement of the outpoints by
descending value reaches the sum and the number of outpoints of the run on the sorted list. -/
theorem coinSelection_order_independent (T : Int) (m1 m2 : OutputMap) (hperm : m1.Perm m2)
    (hnd : m1.keys.Nodup) :
    (coinSelection T m1).err = (coinSelection T m2).err ∧
    (coinSelection T m1).sum = (coinSelection T m2).sum ∧
    (coinSelection T m1).outPoints.map List.length
      = (coinSelection T m2).outPoints.map List.length ∧
    ∀ ops : List OutPoint, ops.Perm m1.keys →
      (ops.map m1.value).Pairwise (fun a b => b ≤ a) →
      (selectLoop T m1 ops [] 0).2 = (selectLoop T m1 (sortedOutPoints m1) [] 0).2 ∧
      (selectLoop T m1 ops [] 0).1.length
        = (selectLoop T m1 (sortedOutPoints m1) [] 0).1.length := by
  have hnd2 : m2.keys.Nodup := ((hperm.map Prod.fst).nodup_iff).1 hnd
  have hvals : m1.values.Perm m2.values := by
    rw [values_eq_of_nodup m1 hnd, values_eq_of_nodup m2 hnd2]
    exact hperm.map _
  have hv : (sortedOutPoints m1).map m1.value = (sortedOutPoints m2).map m2.value :=
    descending_unique
      (((sortedValues_perm m1).trans hvals).trans (sortedValues_perm m2).symm)
      (sortedValues_sorted m1) (sortedValues_sorted m2)
  obtain ⟨h2, hl⟩ := selectLoop_congr T m1 m2 (sortedOutPoints m1) (sortedOutPoints m2)
    [] [] 0 hv rfl
  refine ⟨?_, ?_, ?_, ?_⟩
  · unfold coinSelection
    simp only [h2]
    split <;> rfl
  · unfold coinSelection
    simp only [h2]
    split <;> rfl
  · unfold coinSelection
    simp only [h2]
    split
    · rfl
    · simp only [Option.map_some', hl]
  · intro ops hops hsorted
    exact selectLoop_congr T m1 m1 ops (sortedOutPoints m1) [] [] 0
      (descending_unique
        (((hops.map m1.value).trans (sortedValues_perm m1).symm))
        hsorted (sortedValues_sorted m1)) rfl

/-- Witness of C29: the outputs of 6000 and 4000 enumerated in both orders. -/
theorem coinSelection_order_independent_witness :
    (poorMap.Perm poorMap.reverse ∧ poorMap.keys.Nodup) ∧
    (coinSelection 5000 poorMap).err = (coinSelection 5000 poorMap.reverse).err ∧
    (coinSelection 5000 poorMap).sum = (coinSelection 5000 poorMap.reverse).sum ∧
    (coinSelection 5000 poorMap).outPoints.map List.length
      = (coinSelection 5000 poorMap.reverse).outPoints.map List.length :=
  have h := coinSelection_order_independent 5000 poorMap poorMap.reverse
    (List.reverse_perm poorMap).symm (by decide)
  ⟨⟨(List.reverse_perm poorMap).symm, by decide⟩, h.1, h.2.1, h.2.2.1⟩

/-- C30. For every successful `NewTxSpendAll` without `int64` overflow (the running sums of
the values and the sum less the fee are `int64`), the single output has a value that is not
negative, and is 0 exactly when the total input value equals the estimated fee; in that case
the sweep succeeds, with an output of 0, and without outputs to spend and with a fee of 0 it
succeeds with a transaction without inputs. -/
theorem NewTxSpendAll_output_nonneg (env : Env) (sp : OutputMap) (script : List Nat)
    (feePerKb : Int)
    (hno : NoOverflowSum 0 (sp.map fun entry => entry.2.Value))
    (hin : InInt64 ((sp.map fun entry => entry.2.Value).sum
      - env.fee feePerKb sp.length [NewTxOut 0 script] false)) :
    ((NewTxSpendAll env sp script feePerKb).err = none →
      ∃ tx v, (NewTxSpendAll env sp script feePerKb).tx = some tx ∧
        tx.TxOut = [⟨v, script⟩] ∧ (NewTxSpendAll env sp script feePerKb).amount = v ∧
        0 ≤ v ∧
        (v = 0 ↔ (sp.map fun entry => entry.2.Value).sum
          = env.fee feePerKb sp.length [NewTxOut 0 script] false)) ∧
    ((sp.map fun entry => entry.2.Value).sum
        = env.fee feePerKb sp.length [NewTxOut 0 script] false →
      (NewTxSpendAll env sp script feePerKb).err = none ∧
      (NewTxSpendAll env sp script feePerKb).amount = 0) ∧
    (sp = [] → env.fee feePerKb 0 [NewTxOut 0 script] false = 0 →
      NewTxSpendAll env sp script feePerKb
        = ⟨0, some ⟨TxVersion, [], [⟨0, script⟩], 0⟩, some [], none⟩) := by
  have hsum := sum64_of_noOverflow hno
  have hsub : sub64 (sp.map fun entry => entry.2.Value).sum
      (env.fee feePerKb sp.length [NewTxOut 0 script] false)
      = (sp.map fun entry => entry.2.Value).sum
        - env.fee feePerKb sp.length [NewTxOut 0 script] false := wrap64_eq_self hin
  rw [NewTxSpendAll_eq, hsum, hsub]
  refine ⟨?_, ?_, ?_⟩
  · intro herr
    split at herr
    · simp at herr
    · rename_i hlt
      rw [if_neg hlt]
      refine ⟨_, _, rfl, InPlaceSort_TxOut_single_eq _ _ rfl, rfl, by omega, by omega⟩
  · intro heq
    rw [if_neg (by omega)]
    exact ⟨rfl, by simp only; omega⟩
  · intro hsp hfee
    subst hsp
    simp only [List.map_nil, List.sum_nil, List.length_nil, hfee, lt_self_iff_false, if_false,
      sub_zero]
    rfl

/-- Witness of C30: a single output worth the fee of 170 is swept into an output of 0. -/
theorem NewTxSpendAll_output_nonneg_witness :
    (NoOverflowSum 0 (exactFeeMap.map fun entry => entry.2.Value) ∧
      InInt64 ((exactFeeMap.map fun entry => entry.2.Value).sum
        - sampleEnv.fee 1000 exactFeeMap.length [NewTxOut 0 [1, 2, 3]] false)) ∧
    (NewTxSpendAll sampleEnv exactFeeMap [1, 2, 3] 1000).err = none ∧
    (NewTxSpendAll sampleEnv exactFeeMap [1, 2, 3] 1000).amount = 0 :=
  ⟨⟨by decide, by decide⟩,
    (NewTxSpendAll_output_nonneg sampleEnv exactFeeMap [1, 2, 3] 1000 (by decide)
      (by decide)).2.1 (by decide)⟩

end Maketx
